import Mathlib

/-!
Sheep virtual machine (Source/Sheep/SheepVM.cpp).

A shallow embedding of the bytecode interpreter of `SheepVM.cpp`: the pools of
execution contexts (`SheepInstance`) and threads (`SheepThread`), the entry points
`Execute` / `Evaluate`, and the instruction dispatch loop of
`ExecuteInternal(SheepThread*)`.

Conventions of the embedding:

* C++ `int` values are integers kept in the signed 32-bit range by `wrap32`;
  `float` payloads are carried as raw 32-bit patterns and every floating point
  operation is a field of `Host`.
* Pointers into the pools `mSheepInstances` / `mSheepThreads` are indices into the
  corresponding lists (objects are never removed from the pools), a null pointer is
  `none`.
* A `std::function<void()>` callback is an identifier; invoking it appends the
  identifier to `SheepVM.invoked`.
* An `assert` that fails, and behaviour that C++ leaves undefined, end the run with a
  `Fault`; the `while` loop of the dispatcher is driven by a fuel counter.
* Diagnostic output (`std::cout`, the report log) is not modelled.
-/

namespace Sheep

/-! ## Values -/

/-- Two's complement reduction of an integer to the range of a C++ `int`. -/
def wrap32 (x : Int) : Int := (x + 2147483648) % 4294967296 - 2147483648

/-- Ways in which a run can end without a result. -/
inductive Fault
  | assertion
  | undefinedBehaviour
  | outOfFuel
  deriving DecidableEq, Repr

/-- Type tags of a `SheepValue`, as used by the interpreter. -/
inductive SheepValueType
  | Void
  | Int
  | Float
  | String
  deriving DecidableEq, Repr

/-- Modelled from the spec: `SheepValue` is declared in SheepVM.h, which is not among the
sources. A value is a type tag with the payload fields `intValue`, `floatValue` and
`stringValue` that SheepVM.cpp reads and writes; only the field selected by the tag is
meaningful. The float payload is the raw 32-bit pattern. -/
structure SheepValue where
  type : SheepValueType := SheepValueType.Int
  intValue : Int := 0
  floatValue : Nat := 0
  stringValue : String := ""
  deriving DecidableEq, Repr

/-- Modelled from the spec: the host side value `Value` passed to and returned by system
functions (Value.h is not among the sources). -/
inductive Value
  | ofInt (i : Int)
  | ofFloat (f : Nat)
  | ofString (s : String)
  deriving DecidableEq, Repr

/-- Modelled from the spec: entry of the system-function import table of a script. -/
structure SysImport where
  name : String
  deriving DecidableEq, Repr

/-- Modelled from the spec: declaration of a system function (name, ordered argument
type codes 1 = Int, 2 = Float, 3 = String, waitable flag). -/
structure SysFuncDecl where
  name : String
  argumentTypes : List Int
  waitable : Bool := false
  deriving DecidableEq, Repr

/-- Modelled from the spec: what a call into the bridge reports back: the returned value,
the number of completions it left outstanding, and whether it flagged an error. -/
structure SysCallResult where
  value : Value := Value.ofInt 0
  pending : Nat := 0
  error : Bool := false
  deriving DecidableEq, Repr

/-- The instructions named by the `case` labels of the dispatch loop. -/
inductive SheepInstruction
  | SitnSpin | Yield
  | CallSysFunctionV | CallSysFunctionI | CallSysFunctionF | CallSysFunctionS
  | Branch | BranchGoto | BranchIfZero
  | BeginWait | EndWait | ReturnV
  | StoreI | StoreF | StoreS
  | LoadI | LoadF | LoadS
  | PushI | PushF | PushS | GetString | Pop
  | AddI | AddF | SubtractI | SubtractF | MultiplyI | MultiplyF | DivideI | DivideF
  | NegateI | NegateF
  | IsEqualI | IsEqualF | IsNotEqualI | IsNotEqualF
  | IsGreaterI | IsGreaterF | IsLessI | IsLessF
  | IsGreaterEqualI | IsGreaterEqualF | IsLessEqualI | IsLessEqualF
  | IToF | FToI | Modulo | And | Or | Not | DebugBreakpoint
  deriving DecidableEq, Repr

/-- Everything the interpreter uses whose definition lies outside SheepVM.cpp: the
numbering of the `SheepInstruction` enumerators, the floating point unit together with
`Math::AreEqual`, and the system function bridge (`GetSysFuncDecl`, `::CallSysFunc`). -/
structure Host where
  opcode : SheepInstruction → Nat
  fadd : Nat → Nat → Nat
  fsub : Nat → Nat → Nat
  fmul : Nat → Nat → Nat
  fdiv : Nat → Nat → Nat
  fneg : Nat → Nat
  fgt : Nat → Nat → Bool
  flt : Nat → Nat → Bool
  fge : Nat → Nat → Bool
  fle : Nat → Nat → Bool
  AreEqual : Nat → Nat → Bool
  itof : Int → Nat
  ftoi : Nat → Int
  GetSysFuncDecl : SysImport → Option SysFuncDecl
  CallSysFunc : String → List Value → SysCallResult

/-- The enumerators in declaration order, used to resolve a byte to its `case` label. -/
def SheepInstruction.all : List SheepInstruction :=
  [.SitnSpin, .Yield, .CallSysFunctionV, .CallSysFunctionI, .CallSysFunctionF,
   .CallSysFunctionS, .Branch, .BranchGoto, .BranchIfZero, .BeginWait, .EndWait, .ReturnV,
   .StoreI, .StoreF, .StoreS, .LoadI, .LoadF, .LoadS, .PushI, .PushF, .PushS, .GetString,
   .Pop, .AddI, .AddF, .SubtractI, .SubtractF, .MultiplyI, .MultiplyF, .DivideI, .DivideF,
   .NegateI, .NegateF, .IsEqualI, .IsEqualF, .IsNotEqualI, .IsNotEqualF, .IsGreaterI,
   .IsGreaterF, .IsLessI, .IsLessF, .IsGreaterEqualI, .IsGreaterEqualF, .IsLessEqualI,
   .IsLessEqualF, .IToF, .FToI, .Modulo, .And, .Or, .Not, .DebugBreakpoint]

/-- The `switch((SheepInstruction)instruction)`: the label whose enumerator equals the
byte, `none` for the `default` label. -/
def Host.decode (host : Host) (byte : Nat) : Option SheepInstruction :=
  SheepInstruction.all.find? (fun i => host.opcode i == byte)

/-! ## Operand stack -/

/-- Modelled from the spec: the per-thread operand stack (`SheepStack`, declared in
SheepVM.h, not among the sources). The top of the stack is the head of the list. Popping
beyond the available depth fails fast as an assertion; peeking outside the stack is
undefined. -/
structure SheepStack where
  mStack : List SheepValue := []
  deriving DecidableEq, Repr

/-- Number of values on the stack. -/
def SheepStack.Size (s : SheepStack) : Int := s.mStack.length

/-- Push of an Int value. -/
def SheepStack.PushInt (s : SheepStack) (val : Int) : SheepStack :=
  { mStack := { type := SheepValueType.Int, intValue := val } :: s.mStack }

/-- Push of a Float value. -/
def SheepStack.PushFloat (s : SheepStack) (val : Nat) : SheepStack :=
  { mStack := { type := SheepValueType.Float, floatValue := val } :: s.mStack }

/-- Push of a String value. -/
def SheepStack.PushString (s : SheepStack) (val : String) : SheepStack :=
  { mStack := { type := SheepValueType.String, stringValue := val } :: s.mStack }

/-- Push of the integer offset of a string constant. -/
def SheepStack.PushStringOffset (s : SheepStack) (val : Int) : SheepStack :=
  { mStack := { type := SheepValueType.Int, intValue := val } :: s.mStack }

/-- The `Pop()` overload: removes and returns the top value. -/
def SheepStack.Pop (s : SheepStack) : Except Fault (SheepValue × SheepStack) :=
  match s.mStack with
  | [] => .error Fault.assertion
  | v :: rest => .ok (v, { mStack := rest })

/-- The `Pop(count)` overload: removes `count` values. -/
def SheepStack.PopN (s : SheepStack) (count : Int) : Except Fault SheepStack :=
  if 0 ≤ count ∧ count ≤ s.Size then .ok { mStack := s.mStack.drop count.toNat }
  else .error Fault.assertion

/-- The value `offsetFromTop` positions below the top. -/
def SheepStack.Peek (s : SheepStack) (offsetFromTop : Int) : Except Fault SheepValue :=
  if 0 ≤ offsetFromTop then
    match s.mStack[offsetFromTop.toNat]? with
    | some v => .ok v
    | none => .error Fault.undefinedBehaviour
  else .error Fault.undefinedBehaviour

/-- Write through the reference returned by `Peek(offsetFromTop)`. -/
def SheepStack.Poke (s : SheepStack) (offsetFromTop : Int) (v : SheepValue) : SheepStack :=
  { mStack := s.mStack.set offsetFromTop.toNat v }

/-! ## Compiled script -/

/-- Modelled from the spec: the compiled program (`SheepScript`, not among the sources):
byte buffer, function-name to offset table, string constant pool, system-function
imports and ordered variable declarations with their defaults. `addr` stands for the
address of the object, so that comparing two scripts compares their identity. -/
structure SheepScript where
  addr : Nat
  mName : String := ""
  mBytecode : Option (List Nat) := some []
  mFunctions : List (String × Int) := []
  mStringConsts : List (Int × String) := []
  mSysImports : List SysImport := []
  mVariables : List SheepValue := []
  deriving DecidableEq, Repr

/-- Offset of a named function, negative when the script has no such function. -/
def SheepScript.GetFunctionOffset (script : SheepScript) (functionName : String) : Int :=
  match script.mFunctions.find? (fun f => f.1 == functionName) with
  | some f => f.2
  | none => -1

/-- The string constant stored at an offset of the pool, if any. -/
def SheepScript.GetStringConst (script : SheepScript) (offset : Int) : Option String :=
  (script.mStringConsts.find? (fun c => c.1 == offset)).map (fun c => c.2)

/-- The import with the given index, if any. -/
def SheepScript.GetSysImport (script : SheepScript) (index : Int) : Option SysImport :=
  if 0 ≤ index then script.mSysImports[index.toNat]? else none

/-- The declared variables with their default values. -/
def SheepScript.GetVariables (script : SheepScript) : List SheepValue := script.mVariables

/-! ## Binary reader -/

/-- Modelled from the spec: the cursor over the byte buffer (`BinaryReader`, not among the
sources). Operands are 4-byte little-endian; a read that does not fit in the buffer
clears `ok`, which then stays cleared, and yields zero. A reader built over an absent
buffer is not OK. -/
structure BinaryReader where
  data : List Nat := []
  pos : Int := 0
  ok : Bool := true
  deriving DecidableEq, Repr

/-- Reader over the buffer returned by `GetBytecode()`. -/
def BinaryReader.new (bytecode : Option (List Nat)) : BinaryReader :=
  match bytecode with
  | some bytes => { data := bytes, pos := 0, ok := true }
  | none => { data := [], pos := 0, ok := false }

/-- State test of the reader. -/
def BinaryReader.OK (r : BinaryReader) : Bool := r.ok

/-- Current cursor position. -/
def BinaryReader.GetPosition (r : BinaryReader) : Int := r.pos

/-- Relative move of the cursor. -/
def BinaryReader.Skip (r : BinaryReader) (size : Int) : BinaryReader :=
  { r with pos := r.pos + size }

/-- Absolute move of the cursor. -/
def BinaryReader.Seek (r : BinaryReader) (position : Int) : BinaryReader :=
  { r with pos := position }

/-- The byte at an index of the buffer (zero outside of it). -/
def BinaryReader.byteAt (r : BinaryReader) (i : Nat) : Nat := (r.data.getD i 0) % 256

/-- Read of one unsigned byte. -/
def BinaryReader.ReadUByte (r : BinaryReader) : Nat × BinaryReader :=
  if r.ok ∧ 0 ≤ r.pos ∧ r.pos + 1 ≤ r.data.length then
    (r.byteAt r.pos.toNat, { r with pos := r.pos + 1 })
  else (0, { r with ok := false })

/-- The unsigned 32-bit word stored little-endian at the cursor. -/
def BinaryReader.word (r : BinaryReader) : Nat :=
  r.byteAt r.pos.toNat + 256 * r.byteAt (r.pos.toNat + 1)
    + 65536 * r.byteAt (r.pos.toNat + 2) + 16777216 * r.byteAt (r.pos.toNat + 3)

/-- Read of a 4-byte signed integer. -/
def BinaryReader.ReadInt (r : BinaryReader) : Int × BinaryReader :=
  if r.ok ∧ 0 ≤ r.pos ∧ r.pos + 4 ≤ r.data.length then
    (wrap32 r.word, { r with pos := r.pos + 4 })
  else (0, { r with ok := false })

/-- Read of a 4-byte float, as its bit pattern. -/
def BinaryReader.ReadFloat (r : BinaryReader) : Nat × BinaryReader :=
  if r.ok ∧ 0 ≤ r.pos ∧ r.pos + 4 ≤ r.data.length then
    (r.word, { r with pos := r.pos + 4 })
  else (0, { r with ok := false })

/-! ## Contexts, threads and the virtual machine -/

/-- Conversion `GetInt()` of an argument value. -/
def SheepValue.GetInt (host : Host) (v : SheepValue) : Int :=
  match v.type with
  | SheepValueType.Float => host.ftoi v.floatValue
  | _ => v.intValue

/-- Conversion `GetFloat()` of an argument value. -/
def SheepValue.GetFloat (host : Host) (v : SheepValue) : Nat :=
  match v.type with
  | SheepValueType.Int => host.itof v.intValue
  | _ => v.floatValue

/-- Conversion `GetString()` of an argument value. -/
def SheepValue.GetString (v : SheepValue) : String := v.stringValue

/-- Conversion `to<int>()` (also `to<shpvoid>()`) of a bridge value. -/
def Value.toInt (v : Value) : Int :=
  match v with
  | Value.ofInt i => i
  | _ => 0

/-- Conversion `to<float>()` of a bridge value. -/
def Value.toFloat (v : Value) : Nat :=
  match v with
  | Value.ofFloat f => f
  | _ => 0

/-- Conversion `to<std::string>()` of a bridge value. -/
def Value.toStr (v : Value) : String :=
  match v with
  | Value.ofString s => s
  | _ => ""

/-- Execution context: the script it is bound to, one value per declared variable, and
the number of threads using it. A new context is unbound, without variables and unused. -/
structure SheepInstance where
  mSheepScript : Option SheepScript := none
  mVariables : List SheepValue := []
  mReferenceCount : Int := 0
  deriving DecidableEq, Repr

/-- Name of the script of a context (`SheepInstance::GetName`). -/
def SheepInstance.GetName (inst : SheepInstance) : String :=
  match inst.mSheepScript with
  | some script => script.mName
  | none => ""

/-- Thread of execution. `mContext` is the index of the bound context in the pool,
`mWaitCallback` the identifier of the completion callback. The back pointer
`mVirtualMachine` is left out: there is one machine. -/
structure SheepThread where
  mContext : Option Nat := none
  mWaitCallback : Option Nat := none
  mCodeOffset : Int := 0
  mFunctionName : String := ""
  mFunctionStartOffset : Int := 0
  mRunning : Bool := false
  mBlocked : Bool := false
  mInWaitBlock : Bool := false
  mWaitCounter : Int := 0
  mStack : SheepStack := {}
  deriving DecidableEq, Repr

/-- State of the virtual machine: the two pools, the currently executing thread, the
error flag raised by system functions, and the callbacks invoked so far (oldest
first). -/
structure SheepVM where
  mSheepInstances : List SheepInstance := []
  mSheepThreads : List SheepThread := []
  mCurrentThread : Option Nat := none
  mExecutionError : Bool := false
  invoked : List Nat := []
  deriving DecidableEq, Repr

/-- Invocation of a `std::function<void()>` that has been tested non-null. -/
def SheepVM.call (vm : SheepVM) (callback : Nat) : SheepVM :=
  { vm with invoked := vm.invoked ++ [callback] }

/-- The guarded call `if(finishCallback != nullptr) { finishCallback(); }`. -/
def SheepVM.finish (vm : SheepVM) (finishCallback : Option Nat) : SheepVM :=
  match finishCallback with
  | some callback => vm.call callback
  | none => vm

/-- `SheepVM::IsAnyRunning`. -/
def SheepVM.IsAnyRunning (vm : SheepVM) : Bool := vm.mSheepThreads.any (fun t => t.mRunning)

/-- The two assignments that end `GetInstance`: `context->mSheepScript = script` and
`context->mVariables = script->GetVariables()`. -/
def SheepInstance.rebind (context : SheepInstance) (script : SheepScript) : SheepInstance :=
  { context with mSheepScript := some script, mVariables := script.GetVariables }

/-- `SheepVM::GetInstance`: the context bound to the script if there is one, else the
first unused context, else a new one, rebound to the script with a copy of its
variables. Returns the pointer (index) and the new state. -/
def SheepVM.GetInstance (vm : SheepVM) (script : Option SheepScript) : Option Nat × SheepVM :=
  match script with
  | none => (none, vm)
  | some s =>
    match vm.mSheepInstances.findIdx? (fun inst => inst.mSheepScript == some s) with
    | some i => (some i, vm)
    | none =>
      match vm.mSheepInstances.findIdx? (fun inst => inst.mReferenceCount == 0) with
      | some i =>
        (some i, { vm with
          mSheepInstances := vm.mSheepInstances.modify (fun context => context.rebind s) i })
      | none =>
        (some vm.mSheepInstances.length, { vm with
          mSheepInstances := vm.mSheepInstances ++ [({} : SheepInstance).rebind s] })

/-- `SheepVM::GetThread`: the first thread of the pool that is not running, else a new
thread appended to the pool. -/
def SheepVM.GetThread (vm : SheepVM) : Nat × SheepVM :=
  match vm.mSheepThreads.findIdx? (fun thread => !thread.mRunning) with
  | some i => (i, vm)
  | none => (vm.mSheepThreads.length, { vm with mSheepThreads := vm.mSheepThreads ++ [{}] })

/-! ## Dispatch loop -/

/-- The objects the dispatch loop works on: the reader, the thread, its context
(`instance` in the source), the loop flag and the error flag of the machine. -/
structure Machine where
  reader : BinaryReader
  thread : SheepThread
  context : SheepInstance
  stopReading : Bool := false
  mExecutionError : Bool := false
  deriving DecidableEq, Repr

/-- Operand read `reader.ReadInt()`. -/
def Machine.readInt (m : Machine) : Int × Machine :=
  ((m.reader.ReadInt).1, { m with reader := (m.reader.ReadInt).2 })

/-- Operand read `reader.ReadFloat()`. -/
def Machine.readFloat (m : Machine) : Nat × Machine :=
  ((m.reader.ReadFloat).1, { m with reader := (m.reader.ReadFloat).2 })

/-- Replacement of the stack of the thread. -/
def Machine.setStack (m : Machine) (s : SheepStack) : Machine :=
  { m with thread := { m.thread with mStack := s } }

/-- Replacement of the variables of the context. -/
def Machine.setVariables (m : Machine) (vars : List SheepValue) : Machine :=
  { m with context := { m.context with mVariables := vars } }

/-- The argument loop of `CallSysFunc`: argument `i` is the value `argCount - 1 - i`
below the top, converted by its declared type code; an invalid code adds nothing. -/
def collectArgs (host : Host) (stack : SheepStack) (argCount : Int) :
    List Int → Int → List Value → Except Fault (List Value)
  | [], _, args => .ok args
  | argType :: rest, i, args =>
    match stack.Peek (argCount - 1 - i) with
    | .error e => .error e
    | .ok sheepValue =>
      collectArgs host stack argCount rest (i + 1)
        (if argType = 1 then args ++ [Value.ofInt (sheepValue.GetInt host)]
         else if argType = 2 then args ++ [Value.ofFloat (sheepValue.GetFloat host)]
         else if argType = 3 then args ++ [Value.ofString sheepValue.GetString]
         else args)

/-- Modelled from the spec: effect on the calling thread of invoking a waitable system
function (SheepAPI is not among the sources): inside a wait block, the completions the
call left outstanding are added to the pending-wait counter. -/
def SheepThread.AddWait (thread : SheepThread) (waitable : Bool) (pending : Nat) : SheepThread :=
  if waitable && thread.mInWaitBlock then
    { thread with mWaitCounter := thread.mWaitCounter + pending }
  else thread

/-- `SheepVM::CallSysFunc`: marshals the arguments from the stack and calls the bridge.
A waitable function called inside a wait block adds its outstanding completions to the
wait counter of the thread. -/
def CallSysFunc (host : Host) (m : Machine) (sysImport : SysImport) : Except Fault (Value × Machine) :=
  match host.GetSysFuncDecl sysImport with
  | none => .ok (Value.ofInt 0, m)
  | some sysFunc =>
    match m.thread.mStack.Pop with
    | .error e => .error e
    | .ok (top, stack1) =>
      let argCount := top.intValue
      if argCount = sysFunc.argumentTypes.length then
        match collectArgs host stack1 argCount sysFunc.argumentTypes 0 [] with
        | .error e => .error e
        | .ok args =>
          match stack1.PopN argCount with
          | .error e => .error e
          | .ok stack2 =>
            if argCount ≤ 6 then
              if args.length = sysFunc.argumentTypes.length then
                .ok ((host.CallSysFunc sysFunc.name args).value,
                  { m with
                    thread := ({ m.thread with mStack := stack2 }).AddWait sysFunc.waitable
                      (host.CallSysFunc sysFunc.name args).pending,
                    mExecutionError := false })
              else .error Fault.undefinedBehaviour
            else .ok (Value.ofInt 0, { (m.setStack stack2) with mExecutionError := false })
      else .error Fault.assertion

/-- Common shape of the binary Int instructions: `assert(Size() >= 2)`, read the operands
one below the top and on top, `Pop(2)`, push the result. -/
def Machine.intBinary (m : Machine) (f : Int → Int → Except Fault Int) : Except Fault Machine :=
  if m.thread.mStack.Size < 2 then .error Fault.assertion
  else
    match m.thread.mStack.Peek 1, m.thread.mStack.Peek 0, m.thread.mStack.PopN 2 with
    | .ok v1, .ok v2, .ok stack =>
      match f v1.intValue v2.intValue with
      | .ok r => .ok (m.setStack (stack.PushInt r))
      | .error e => .error e
    | _, _, _ => .error Fault.undefinedBehaviour

/-- Common shape of the binary Float instructions that push a Float. -/
def Machine.floatBinary (m : Machine) (f : Nat → Nat → Nat) : Except Fault Machine :=
  if m.thread.mStack.Size < 2 then .error Fault.assertion
  else
    match m.thread.mStack.Peek 1, m.thread.mStack.Peek 0, m.thread.mStack.PopN 2 with
    | .ok v1, .ok v2, .ok stack => .ok (m.setStack (stack.PushFloat (f v1.floatValue v2.floatValue)))
    | _, _, _ => .error Fault.undefinedBehaviour

/-- Common shape of the Float comparisons, which push 1 or 0 as an Int. -/
def Machine.floatCompare (m : Machine) (f : Nat → Nat → Bool) : Except Fault Machine :=
  if m.thread.mStack.Size < 2 then .error Fault.assertion
  else
    match m.thread.mStack.Peek 1, m.thread.mStack.Peek 0, m.thread.mStack.PopN 2 with
    | .ok v1, .ok v2, .ok stack =>
      .ok (m.setStack (stack.PushInt (if f v1.floatValue v2.floatValue then 1 else 0)))
    | _, _, _ => .error Fault.undefinedBehaviour

/-- Common shape of the unary instructions that rewrite the top value in place after
`assert(Size() >= 1)`. -/
def Machine.onTop (m : Machine) (f : SheepValue → SheepValue) : Except Fault Machine :=
  if m.thread.mStack.Size < 1 then .error Fault.assertion
  else
    match m.thread.mStack.Peek 0 with
    | .ok v => .ok (m.setStack (m.thread.mStack.Poke 0 (f v)))
    | .error e => .error e

/-- Common shape of the four system call instructions: read the import index, resolve
it, call, and push the result converted for the variant. -/
def Machine.sysCall (host : Host) (script : SheepScript) (m : Machine)
    (push : SheepStack → Value → SheepStack) : Except Fault Machine :=
  let (functionIndex, m1) := m.readInt
  match script.GetSysImport functionIndex with
  | none => .ok m1
  | some sysFunc =>
    match CallSysFunc host m1 sysFunc with
    | .error e => .error e
    | .ok (value, m2) => .ok (m2.setStack (push m2.thread.mStack value))

/-- Common shape of the three Store instructions. -/
def Machine.store (m : Machine) (ty : SheepValueType)
    (write : SheepValue → SheepValue → SheepValue) : Except Fault Machine :=
  let (varIndex, m1) := m.readInt
  if 0 ≤ varIndex ∧ varIndex < m1.context.mVariables.length then
    match m1.context.mVariables[varIndex.toNat]? with
    | none => .error Fault.undefinedBehaviour
    | some slot =>
      if slot.type = ty then
        match m1.thread.mStack.Pop with
        | .error e => .error e
        | .ok (value, stack) =>
          .ok ((m1.setStack stack).setVariables
            (m1.context.mVariables.set varIndex.toNat (write slot value)))
      else .error Fault.assertion
  else .ok m1

/-- Common shape of the three Load instructions. -/
def Machine.load (m : Machine) (ty : SheepValueType)
    (push : SheepStack → SheepValue → SheepStack) : Except Fault Machine :=
  let (varIndex, m1) := m.readInt
  if 0 ≤ varIndex ∧ varIndex < m1.context.mVariables.length then
    match m1.context.mVariables[varIndex.toNat]? with
    | none => .error Fault.undefinedBehaviour
    | some slot =>
      if slot.type = ty then .ok (m1.setStack (push m1.thread.mStack slot))
      else .error Fault.assertion
  else .ok m1

/-- Quotient `int1 / int2` of C++ for a nonzero divisor; the one overflowing quotient is
undefined. -/
def divInt (int1 int2 : Int) : Except Fault Int :=
  if int1 = -2147483648 ∧ int2 = -1 then .error Fault.undefinedBehaviour
  else .ok (Int.tdiv int1 int2)

/-- Remainder `int1 % int2` of C++; a zero divisor and the overflowing case are
undefined. -/
def modInt (int1 int2 : Int) : Except Fault Int :=
  if int2 = 0 then .error Fault.undefinedBehaviour
  else if int1 = -2147483648 ∧ int2 = -1 then .error Fault.undefinedBehaviour
  else .ok (Int.tmod int1 int2)

/-- One pass through the `switch` of the dispatch loop, for the label the instruction byte
resolved to (`none` is the `default` label). -/
def execInstruction (host : Host) (script : SheepScript) (m : Machine) :
    Option SheepInstruction → Except Fault Machine
  | some .SitnSpin => .ok m
  | some .Yield => .ok { m with stopReading := true }
  | some .CallSysFunctionV => m.sysCall host script (fun s value => s.PushInt value.toInt)
  | some .CallSysFunctionI => m.sysCall host script (fun s value => s.PushInt value.toInt)
  | some .CallSysFunctionF => m.sysCall host script (fun s value => s.PushFloat value.toFloat)
  | some .CallSysFunctionS => m.sysCall host script (fun s value => s.PushString value.toStr)
  | some .Branch =>
    let (branchAddress, m1) := m.readInt
    .ok { m1 with reader := m1.reader.Seek branchAddress }
  | some .BranchGoto =>
    let (branchAddress, m1) := m.readInt
    .ok { m1 with reader := m1.reader.Seek branchAddress }
  | some .BranchIfZero =>
    let (branchAddress, m1) := m.readInt
    match m1.thread.mStack.Pop with
    | .error e => .error e
    | .ok (result, stack) =>
      if result.intValue = 0 then
        .ok { (m1.setStack stack) with reader := m1.reader.Seek branchAddress }
      else .ok (m1.setStack stack)
  | some .BeginWait => .ok { m with thread := { m.thread with mInWaitBlock := true } }
  | some .EndWait =>
    if m.thread.mWaitCounter > 0 then
      .ok { m with thread := { m.thread with mBlocked := true }, stopReading := true }
    else .ok { m with thread := { m.thread with mInWaitBlock := false } }
  | some .ReturnV =>
    .ok { m with thread := { m.thread with mRunning := false }, stopReading := true }
  | some .StoreI =>
    m.store SheepValueType.Int (fun slot value => { slot with intValue := value.intValue })
  | some .StoreF =>
    m.store SheepValueType.Float (fun slot value => { slot with floatValue := value.floatValue })
  | some .StoreS =>
    m.store SheepValueType.String (fun slot value => { slot with stringValue := value.stringValue })
  | some .LoadI => m.load SheepValueType.Int (fun s slot => s.PushInt slot.intValue)
  | some .LoadF => m.load SheepValueType.Float (fun s slot => s.PushFloat slot.floatValue)
  | some .LoadS => m.load SheepValueType.String (fun s slot => s.PushString slot.stringValue)
  | some .PushI =>
    let (int1, m1) := m.readInt
    .ok (m1.setStack (m1.thread.mStack.PushInt int1))
  | some .PushF =>
    let (float1, m1) := m.readFloat
    .ok (m1.setStack (m1.thread.mStack.PushFloat float1))
  | some .PushS =>
    let (stringConstOffset, m1) := m.readInt
    .ok (m1.setStack (m1.thread.mStack.PushStringOffset stringConstOffset))
  | some .GetString =>
    match m.thread.mStack.Pop with
    | .error e => .error e
    | .ok (offsetValue, stack) =>
      match script.GetStringConst offsetValue.intValue with
      | some str => .ok (m.setStack (stack.PushString str))
      | none => .ok (m.setStack stack)
  | some .Pop =>
    match m.thread.mStack.PopN 1 with
    | .error e => .error e
    | .ok stack => .ok (m.setStack stack)
  | some .AddI => m.intBinary (fun int1 int2 => .ok (wrap32 (int1 + int2)))
  | some .AddF => m.floatBinary host.fadd
  | some .SubtractI => m.intBinary (fun int1 int2 => .ok (wrap32 (int1 - int2)))
  | some .SubtractF => m.floatBinary host.fsub
  | some .MultiplyI => m.intBinary (fun int1 int2 => .ok (wrap32 (int1 * int2)))
  | some .MultiplyF => m.floatBinary host.fmul
  | some .DivideI => m.intBinary (fun int1 int2 => if int2 ≠ 0 then divInt int1 int2 else .ok 0)
  | some .DivideF =>
    m.floatBinary (fun float1 float2 =>
      if !host.AreEqual float2 0 then host.fdiv float1 float2 else 0)
  | some .NegateI => m.onTop (fun v => { v with intValue := wrap32 (v.intValue * -1) })
  | some .NegateF => m.onTop (fun v => { v with floatValue := host.fneg v.floatValue })
  | some .IsEqualI => m.intBinary (fun int1 int2 => .ok (if int1 = int2 then 1 else 0))
  | some .IsEqualF => m.floatCompare host.AreEqual
  | some .IsNotEqualI => m.intBinary (fun int1 int2 => .ok (if int1 ≠ int2 then 1 else 0))
  | some .IsNotEqualF => m.floatCompare (fun float1 float2 => !host.AreEqual float1 float2)
  | some .IsGreaterI => m.intBinary (fun int1 int2 => .ok (if int1 > int2 then 1 else 0))
  | some .IsGreaterF => m.floatCompare host.fgt
  | some .IsLessI => m.intBinary (fun int1 int2 => .ok (if int1 < int2 then 1 else 0))
  | some .IsLessF => m.floatCompare host.flt
  | some .IsGreaterEqualI => m.intBinary (fun int1 int2 => .ok (if int1 ≥ int2 then 1 else 0))
  | some .IsGreaterEqualF => m.floatCompare host.fge
  | some .IsLessEqualI => m.intBinary (fun int1 int2 => .ok (if int1 ≤ int2 then 1 else 0))
  | some .IsLessEqualF => m.floatCompare host.fle
  | some .IToF =>
    let (index, m1) := m.readInt
    match m1.thread.mStack.Peek index with
    | .error e => .error e
    | .ok value =>
      .ok (m1.setStack (m1.thread.mStack.Poke index
        { value with floatValue := host.itof value.intValue, type := SheepValueType.Float }))
  | some .FToI =>
    let (index, m1) := m.readInt
    match m1.thread.mStack.Peek index with
    | .error e => .error e
    | .ok value =>
      .ok (m1.setStack (m1.thread.mStack.Poke index
        { value with intValue := host.ftoi value.floatValue, type := SheepValueType.Int }))
  | some .Modulo => m.intBinary modInt
  | some .And => m.intBinary (fun int1 int2 => .ok (if int1 ≠ 0 ∧ int2 ≠ 0 then 1 else 0))
  | some .Or => m.intBinary (fun int1 int2 => .ok (if int1 ≠ 0 ∨ int2 ≠ 0 then 1 else 0))
  | some .Not => m.onTop (fun v => { v with intValue := if v.intValue = 0 then 1 else 0 })
  | some .DebugBreakpoint => .ok m
  | none => .ok m

/-- The `while(!stopReading)` loop: reads the instruction byte, leaves the loop when the
read failed, else executes the instruction. Each iteration uses one unit of fuel. -/
def runLoop (host : Host) (script : SheepScript) : Nat → Machine → Except Fault Machine
  | 0, _ => .error Fault.outOfFuel
  | fuel + 1, m =>
    if m.stopReading then .ok m
    else
      let (instruction, reader) := m.reader.ReadUByte
      if !reader.OK then .ok { m with reader := reader }
      else
        match execInstruction host script { m with reader := reader } (host.decode instruction) with
        | .error e => .error e
        | .ok m1 => runLoop host script fuel m1

/-! ## Entry points -/

/-- The statement `instance->mReferenceCount++` on the context with pool index `c`. -/
def SheepVM.retain (vm : SheepVM) (c : Nat) : SheepVM :=
  { vm with
    mSheepInstances :=
      vm.mSheepInstances.modify
        (fun context => { context with mReferenceCount := context.mReferenceCount + 1 }) c }

/-- The statement `thread->mContext->mReferenceCount--` on the context with pool index `c`. -/
def SheepVM.release (vm : SheepVM) (c : Nat) : SheepVM :=
  { vm with
    mSheepInstances :=
      vm.mSheepInstances.modify
        (fun context => { context with mReferenceCount := context.mReferenceCount - 1 }) c }

/-- The five assignments with which `ExecuteInternal` prepares the thread for a call. -/
def SheepThread.assign (thread : SheepThread) (c : Nat) (bytecodeOffset : Int)
    (functionName : String) (finishCallback : Option Nat) : SheepThread :=
  { thread with
    mContext := some c, mWaitCallback := finishCallback, mCodeOffset := bytecodeOffset,
    mFunctionName := functionName, mFunctionStartOffset := bytecodeOffset }

/-- The thread as the loop leaves it: the code offset is saved from the reader, and a
failed reader marks the thread as not running. -/
def Machine.exitThread (m : Machine) : SheepThread :=
  if !m.reader.OK then
    { m.thread with mCodeOffset := m.reader.GetPosition, mRunning := false }
  else { m.thread with mCodeOffset := m.reader.GetPosition }

/-- The part of `ExecuteInternal(SheepThread*)` that follows the loop: saves the code
offset, marks the thread as not running when the reader failed, and for a thread that is
not running releases the context and calls the wait callback; restores the previously
executing thread. `t` and `c` are the pool indices of the thread and of its context. -/
def SheepVM.finishRun (vm : SheepVM) (prevThread : Option Nat) (t c : Nat) (m : Machine) : SheepVM :=
  let vm1 := { vm with
    mSheepThreads := vm.mSheepThreads.set t m.exitThread,
    mSheepInstances := vm.mSheepInstances.set c m.context,
    mExecutionError := m.mExecutionError }
  let vm2 :=
    if !m.exitThread.mRunning then (vm1.release c).finish m.exitThread.mWaitCallback
    else vm1
  { vm2 with mCurrentThread := prevThread }

/-- The head of `ExecuteInternal(SheepThread*)`: a thread that is not running is started,
a running thread inside a wait block is released. -/
def SheepThread.start (thread : SheepThread) : SheepThread :=
  if !thread.mRunning then { thread with mRunning := true }
  else if thread.mInWaitBlock then { thread with mBlocked := false, mInWaitBlock := false }
  else thread

/-- `SheepVM::ExecuteInternal(SheepThread* thread)`, for the thread with pool index `t`. -/
def SheepVM.ExecuteInternalThread (host : Host) (fuel : Nat) (vm : SheepVM) (t : Nat) :
    Except Fault SheepVM :=
  match vm.mSheepThreads[t]? with
  | none => .error Fault.undefinedBehaviour
  | some thread0 =>
    let prevThread := vm.mCurrentThread
    let thread := thread0.start
    let vm1 := { vm with mCurrentThread := some t, mSheepThreads := vm.mSheepThreads.set t thread }
    match thread.mContext with
    | none => .error Fault.undefinedBehaviour
    | some c =>
      match vm1.mSheepInstances[c]? with
      | none => .error Fault.undefinedBehaviour
      | some context =>
        match context.mSheepScript with
        | none => .error Fault.undefinedBehaviour
        | some script =>
          let reader := BinaryReader.new script.mBytecode
          if !reader.OK then .ok vm1
          else
            match runLoop host script fuel
              { reader := reader.Skip thread.mCodeOffset, thread := thread, context := context,
                stopReading := false, mExecutionError := vm1.mExecutionError } with
            | .error e => .error e
            | .ok m => .ok (vm1.finishRun prevThread t c m)

/-- `SheepVM::ExecuteInternal(SheepInstance* instance, ...)`: returns the thread used
(`none` for the null pointer) and the new state. -/
def SheepVM.ExecuteInternal (host : Host) (fuel : Nat) (vm : SheepVM) (inst : Option Nat)
    (bytecodeOffset : Int) (functionName : String) (finishCallback : Option Nat) :
    Except Fault (Option Nat × SheepVM) :=
  match inst with
  | none => .ok (none, vm.finish finishCallback)
  | some c =>
    let (t, vm1) := vm.GetThread
    let vm2 := { vm1 with
      mSheepThreads :=
        vm1.mSheepThreads.modify
          (fun thread => thread.assign c bytecodeOffset functionName finishCallback) t }
    let vm3 := vm2.retain c
    match vm3.ExecuteInternalThread host fuel t with
    | .error e => .error e
    | .ok vm4 => .ok (some t, vm4)

/-- `SheepVM::ExecuteInternal(SheepScript* script, ...)`. -/
def SheepVM.ExecuteInternalScript (host : Host) (fuel : Nat) (vm : SheepVM)
    (script : Option SheepScript) (bytecodeOffset : Int) (functionName : String)
    (finishCallback : Option Nat) : Except Fault (Option Nat × SheepVM) :=
  let (inst, vm1) := vm.GetInstance script
  vm1.ExecuteInternal host fuel inst bytecodeOffset functionName finishCallback

/-- `SheepVM::Execute(script, bytecodeOffset, finishCallback)`. -/
def SheepVM.Execute (host : Host) (fuel : Nat) (vm : SheepVM) (script : Option SheepScript)
    (bytecodeOffset : Int) (finishCallback : Option Nat) : Except Fault SheepVM :=
  match vm.ExecuteInternalScript host fuel script bytecodeOffset "X$" finishCallback with
  | .error e => .error e
  | .ok (_, vm1) => .ok vm1

/-- `SheepVM::Execute(script, functionName, finishCallback)`. -/
def SheepVM.ExecuteFunction (host : Host) (fuel : Nat) (vm : SheepVM) (script : Option SheepScript)
    (functionName : String) (finishCallback : Option Nat) : Except Fault SheepVM :=
  match script with
  | none => .ok (vm.finish finishCallback)
  | some s =>
    let bytecodeOffset := s.GetFunctionOffset functionName
    if bytecodeOffset < 0 then .ok (vm.finish finishCallback)
    else
      match vm.ExecuteInternalScript host fuel (some s) bytecodeOffset functionName finishCallback with
      | .error e => .error e
      | .ok (_, vm1) => .ok vm1

/-- The seeding of `$n` and `$v` at the head of `Evaluate`: slot 0 receives `n` and slot 1
receives `v`, each only if the slot exists and is of type Int. -/
def seedVariables (vars : List SheepValue) (n v : Int) : List SheepValue :=
  let vars1 :=
    if vars.length > 0 ∧ (vars[0]?).map (fun slot => slot.type) = some SheepValueType.Int then
      vars.modify (fun slot => { slot with intValue := n }) 0
    else vars
  if vars1.length > 1 ∧ (vars1[1]?).map (fun slot => slot.type) = some SheepValueType.Int then
    vars1.modify (fun slot => { slot with intValue := v }) 1
  else vars1

/-- The seeding applied to the context with pool index `c`. -/
def SheepVM.seed (vm : SheepVM) (c : Nat) (n v : Int) : SheepVM :=
  { vm with
    mSheepInstances :=
      vm.mSheepInstances.modify
        (fun context => { context with mVariables := seedVariables context.mVariables n v }) c }

/-- The result read off the stack at the end of `Evaluate`. -/
def evaluateResult (host : Host) (stack : SheepStack) : Except Fault (Bool × SheepStack) :=
  if stack.Size = 0 then .ok (false, stack)
  else
    match stack.Pop with
    | .error e => .error e
    | .ok (result, rest) =>
      if result.type = SheepValueType.Int then .ok (decide (result.intValue ≠ 0), rest)
      else if result.type = SheepValueType.Float then .ok (!host.AreEqual result.floatValue 0, rest)
      else if result.type = SheepValueType.String then .ok (!result.stringValue.isEmpty, rest)
      else .ok (false, rest)

/-- `SheepVM::Evaluate(script, n, v)`: returns the truth value and the new state. A null
script makes the function dereference a null context. -/
def SheepVM.Evaluate (host : Host) (fuel : Nat) (vm : SheepVM) (script : Option SheepScript)
    (n v : Int) : Except Fault (Bool × SheepVM) :=
  let (inst, vm1) := vm.GetInstance script
  match inst with
  | none => .error Fault.undefinedBehaviour
  | some c =>
    let vm2 := vm1.seed c n v
    match vm2.ExecuteInternal host fuel (some c) 0 "X$" none with
    | .error e => .error e
    | .ok (none, _) => .error Fault.undefinedBehaviour
    | .ok (some t, vm3) =>
      match vm3.mSheepThreads[t]? with
      | none => .error Fault.undefinedBehaviour
      | some thread =>
        match evaluateResult host thread.mStack with
        | .error e => .error e
        | .ok (b, stack) =>
          .ok (b, { vm3 with mSheepThreads := vm3.mSheepThreads.set t { thread with mStack := stack } })

/-- The machine on which `ExecuteInternal(SheepInstance*, ...)` starts the dispatch loop
for the context with pool index `c`: the thread handed out by `GetThread` with the five
assignments of the call, started; the context with its reference count incremented; the
reader positioned at the entry offset. -/
def SheepVM.entryMachine (vm : SheepVM) (c : Nat) (bytecodeOffset : Int) (functionName : String)
    (finishCallback : Option Nat) : Option Machine :=
  match (vm.GetThread).2.mSheepThreads[(vm.GetThread).1]?, vm.mSheepInstances[c]? with
  | some thread, some context =>
    match context.mSheepScript with
    | some script =>
      some
        { reader := (BinaryReader.new script.mBytecode).Skip bytecodeOffset,
          thread := (thread.assign c bytecodeOffset functionName finishCallback).start,
          context := { context with mReferenceCount := context.mReferenceCount + 1 },
          stopReading := false,
          mExecutionError := vm.mExecutionError }
    | none => none
  | _, _ => none

/-- A host used for concrete runs: the instructions are numbered in the order of their
`case` labels, float operations act on the patterns as on natural numbers, and no system
function is declared. -/
def Host.sample : Host where
  opcode := SheepInstruction.toCtorIdx
  fadd := fun a b => a + b
  fsub := fun a b => a - b
  fmul := fun a b => a * b
  fdiv := fun a b => a / b
  fneg := fun a => a
  fgt := fun a b => decide (a > b)
  flt := fun a b => decide (a < b)
  fge := fun a b => decide (a ≥ b)
  fle := fun a b => decide (a ≤ b)
  AreEqual := fun a b => a == b
  itof := fun i => i.toNat
  ftoi := fun f => f
  GetSysFuncDecl := fun _ => none
  CallSysFunc := fun _ _ => {}

/-- Sample script `PushI(1); ReturnV` under the numbering of `Host.sample`, with one named
function at offset 0. -/
def progPushOne : SheepScript :=
  { addr := 1, mName := "PushOne", mBytecode := some [18, 1, 0, 0, 0, 11],
    mFunctions := [("Main$", 0)] }

/-- Sample script consisting of `ReturnV` only. -/
def progReturn : SheepScript := { addr := 2, mName := "Return", mBytecode := some [11] }

/-- Sample script with one Int variable `counter` (default 0) and the code
`LoadI(0); PushI(1); AddI; StoreI(0); ReturnV` under the numbering of `Host.sample`. -/
def progCounter : SheepScript :=
  { addr := 3, mName := "Counter",
    mBytecode := some [15, 0, 0, 0, 0, 18, 1, 0, 0, 0, 23, 12, 0, 0, 0, 0, 11],
    mVariables := [{ type := SheepValueType.Int, intValue := 0 }] }

/-- Sample state with two contexts in use, bound to `progReturn` and to `progPushOne`. -/
def vmTwoContexts : SheepVM :=
  { mSheepInstances :=
      [{ mSheepScript := some progReturn, mReferenceCount := 3 },
       { mSheepScript := some progPushOne, mReferenceCount := 1 }] }

/-- The fields of the machine that no instruction writes. -/
def Machine.sameFrame (m m' : Machine) : Prop :=
  m'.context.mSheepScript = m.context.mSheepScript ∧
  m'.context.mReferenceCount = m.context.mReferenceCount ∧
  m'.thread.mContext = m.thread.mContext ∧
  m'.thread.mWaitCallback = m.thread.mWaitCallback ∧
  m'.thread.mFunctionName = m.thread.mFunctionName ∧
  m'.thread.mFunctionStartOffset = m.thread.mFunctionStartOffset ∧
  m'.reader.data = m.reader.data

/-- The code `LoadI(0); PushI(1); AddI; StoreI(0); ReturnV` under the numbering of a host. -/
def counterCode (host : Host) : List Nat :=
  [host.opcode .LoadI, 0, 0, 0, 0, host.opcode .PushI, 1, 0, 0, 0, host.opcode .AddI,
   host.opcode .StoreI, 0, 0, 0, 0, host.opcode .ReturnV]


/-- The call `Execute(script, bytecodeOffset, finishCallback)` made `k` times in a row. -/
def SheepVM.ExecuteTimes (host : Host) (fuel : Nat) (script : Option SheepScript)
    (bytecodeOffset : Int) (finishCallback : Option Nat) : Nat → SheepVM → Except Fault SheepVM
  | 0, vm => .ok vm
  | k + 1, vm =>
    match vm.Execute host fuel script bytecodeOffset finishCallback with
    | .error e => .error e
    | .ok vm1 => SheepVM.ExecuteTimes host fuel script bytecodeOffset finishCallback k vm1

/-- The calls a client makes on the machine. -/
inductive Call
  | getInstance (script : Option SheepScript)
  | execute (script : Option SheepScript) (bytecodeOffset : Int) (finishCallback : Option Nat)
  | executeFunction (script : Option SheepScript) (functionName : String)
      (finishCallback : Option Nat)
  | evaluate (script : Option SheepScript) (n v : Int)

/-- State after one call. -/
def SheepVM.perform (host : Host) (fuel : Nat) (vm : SheepVM) : Call → Except Fault SheepVM
  | .getInstance script => .ok (vm.GetInstance script).2
  | .execute script bytecodeOffset finishCallback =>
    vm.Execute host fuel script bytecodeOffset finishCallback
  | .executeFunction script functionName finishCallback =>
    vm.ExecuteFunction host fuel script functionName finishCallback
  | .evaluate script n v =>
    match vm.Evaluate host fuel script n v with
    | .error e => .error e
    | .ok (_, vm1) => .ok vm1

/-- State after a sequence of calls, each with its own fuel. -/
def SheepVM.performAll (host : Host) : List (Nat × Call) → SheepVM → Except Fault SheepVM
  | [], vm => .ok vm
  | (fuel, call) :: rest, vm =>
    match vm.perform host fuel call with
    | .error e => .error e
    | .ok vm1 => SheepVM.performAll host rest vm1

/-- No two contexts of the pool are bound to the same script. -/
def SheepVM.uniqueContexts (vm : SheepVM) : Prop :=
  ∀ (i j : Nat) (a b : SheepInstance) (p : SheepScript), i ≠ j →
    vm.mSheepInstances[i]? = some a → vm.mSheepInstances[j]? = some b →
    a.mSheepScript = some p → b.mSheepScript ≠ some p

/-- The scripts the contexts of the pool are bound to, in pool order. -/
def SheepVM.scripts (vm : SheepVM) : List (Option SheepScript) :=
  vm.mSheepInstances.map (fun inst => inst.mSheepScript)


/-- Sample script consisting of `Yield` only. -/
def progYield : SheepScript := { addr := 4, mName := "Yield", mBytecode := some [1] }

/-- Sample sequence of calls: a run that stays suspended, a run to completion, an
evaluation and a lookup. -/
def sampleCalls : List (Nat × Call) :=
  [(10, Call.execute (some progYield) 0 none),
   (10, Call.execute (some progPushOne) 0 (some 1)),
   (10, Call.evaluate (some progReturn) 7 3),
   (10, Call.getInstance (some progPushOne))]

/-- Truth value `Evaluate` assigns to the value on top of the stack. -/
def SheepValue.truth (host : Host) (result : SheepValue) : Bool :=
  if result.type = SheepValueType.Int then decide (result.intValue ≠ 0)
  else if result.type = SheepValueType.Float then !host.AreEqual result.floatValue 0
  else if result.type = SheepValueType.String then !result.stringValue.isEmpty
  else false

/-- Sample script consisting of `PushI(1)` only. -/
def progPushIntOne : SheepScript := { addr := 5, mName := "One", mBytecode := some [18, 1, 0, 0, 0] }

/-- Sample script consisting of `PushI(0)` only. -/
def progPushIntZero : SheepScript :=
  { addr := 6, mName := "Zero", mBytecode := some [18, 0, 0, 0, 0] }

/-- Sample script `BeginWait; PushI(1); ReturnV`. -/
def progWaitPush : SheepScript :=
  { addr := 7, mName := "WaitPush", mBytecode := some [9, 18, 1, 0, 0, 0, 11] }

/-- Sample script `ReturnV` with a Float variable followed by two Int variables. -/
def progMixed : SheepScript :=
  { addr := 8, mName := "Mixed", mBytecode := some [11],
    mVariables := [{ type := SheepValueType.Float, floatValue := 5 },
                   { type := SheepValueType.Int, intValue := 0 },
                   { type := SheepValueType.Int, intValue := 9 }] }

/-- The four bytes that encode a C++ `int` as an operand: little-endian two's
complement. -/
def le32 (x : Int) : List Nat :=
  [(x % 4294967296).toNat % 256, (x % 4294967296).toNat / 256 % 256,
   (x % 4294967296).toNat / 65536 % 256, (x % 4294967296).toNat / 16777216 % 256]

/-- An instruction without operand, as it sits in the byte buffer. -/
def Host.op (host : Host) (i : SheepInstruction) : List Nat := [host.opcode i]

/-- An instruction with a 4-byte integer operand, as it sits in the byte buffer. -/
def Host.opInt (host : Host) (i : SheepInstruction) (operand : Int) : List Nat :=
  host.opcode i :: le32 operand

/-- The reader is OK and its cursor is on the first byte of `code`, which sits in the
buffer between `pre` and `post`. -/
def BinaryReader.pointsAt (r : BinaryReader) (pre code post : List Nat) : Prop :=
  r.ok = true ∧ r.pos = (pre.length : Int) ∧ r.data = pre ++ (code ++ post)

/-- The values of a C++ `int`. -/
def isInt32 (x : Int) : Prop := -2147483648 ≤ x ∧ x < 2147483648

/-- Sample machine about to run `StoreI(0); LoadI(0)` with Int 7 on the stack and one Int
variable. -/
def machineStoreLoad : Machine :=
  { reader := { data := [12, 0, 0, 0, 0, 15, 0, 0, 0, 0] },
    thread := { mRunning := true,
                mStack := { mStack := [{ type := SheepValueType.Int, intValue := 7 }] } },
    context := { mVariables := [{ type := SheepValueType.Int, intValue := 0 }] } }

/-- Sample machine about to run `PushI(5); PushI(0); DivideI` on an empty stack. -/
def machineDivide : Machine :=
  { reader := { data := [18, 5, 0, 0, 0, 18, 0, 0, 0, 0, 29] },
    thread := { mRunning := true }, context := {} }

/-- Sample script `PushI(5); PushI(0); Modulo; ReturnV`. -/
def progModuloZero : SheepScript :=
  { addr := 9, mName := "ModuloZero",
    mBytecode := some [18, 5, 0, 0, 0, 18, 0, 0, 0, 0, 47, 11] }

/-- Sample machine about to run `BeginWait; EndWait`. -/
def machineWait : Machine :=
  { reader := { data := [9, 10] }, thread := { mRunning := true }, context := {} }

/-- Sample script `BeginWait; EndWait; Yield`. -/
def progWaitPair : SheepScript :=
  { addr := 21, mName := "WaitPair", mBytecode := some [9, 10, 1] }

/-- Sample machine about to run `BeginWait; EndWait; Yield` on a thread that is blocked,
with no call outstanding. -/
def machineWaitBlocked : Machine :=
  { reader := { data := [9, 10, 1] }, thread := { mRunning := true, mBlocked := true },
    context := {} }

/-- Sample state: one thread that is running and blocked outside a wait block, with no
call outstanding, at the start of `progWaitPair`. -/
def vmBlockedFree : SheepVM :=
  { mSheepInstances := [{ mSheepScript := some progWaitPair, mReferenceCount := 1 }],
    mSheepThreads := [{ mContext := some 0, mRunning := true, mBlocked := true }] }

/-- Sample machine about to run `BranchIfZero(9)` with Int 0 on top of Int 4. -/
def machineBranchIfZero : Machine :=
  { reader := { data := [8, 9, 0, 0, 0, 11] },
    thread := { mRunning := true,
                mStack := { mStack := [{ type := SheepValueType.Int, intValue := 0 },
                                       { type := SheepValueType.Int, intValue := 4 }] } },
    context := {} }

/-- Sample machine about to run `Branch(6)`. -/
def machineBranch : Machine :=
  { reader := { data := [6, 6, 0, 0, 0, 0, 11] }, thread := { mRunning := true }, context := {} }

/-- The machine whose thread carries another saved code offset. The loop works on the
cursor of the reader; the field `mCodeOffset` is read before the loop and written after
it. -/
def Machine.atOffset (x : Int) (m : Machine) : Machine :=
  { m with thread := { m.thread with mCodeOffset := x } }

/-- Sample machine about to run `EndWait` inside a wait block with one call outstanding. -/
def machineEndWait : Machine :=
  { reader := { data := [10, 11] },
    thread := { mRunning := true, mInWaitBlock := true, mWaitCounter := 1 }, context := {} }

/-- Sample script `EndWait; PushI(1); ReturnV`. -/
def progAfterWait : SheepScript :=
  { addr := 10, mName := "AfterWait", mBytecode := some [10, 18, 1, 0, 0, 0, 11] }

/-- Sample state: one thread suspended at the `EndWait` of `progAfterWait` (running,
blocked, in its wait block, saved offset 1) with one call still outstanding. -/
def vmBlocked : SheepVM :=
  { mSheepInstances := [{ mSheepScript := some progAfterWait, mReferenceCount := 1 }],
    mSheepThreads := [{ mContext := some 0, mCodeOffset := 1, mRunning := true,
                        mBlocked := true, mInWaitBlock := true, mWaitCounter := 1 }] }

/-- Sample state: the thread of `vmBlocked` after its outstanding call has completed. -/
def vmReleased : SheepVM :=
  { mSheepInstances := [{ mSheepScript := some progAfterWait, mReferenceCount := 1 }],
    mSheepThreads := [{ mContext := some 0, mCodeOffset := 1, mRunning := true,
                        mBlocked := true, mInWaitBlock := true, mWaitCounter := 0 }] }

/-- A host with the numbering of `Host.sample` in which every import is declared as a
waitable function without arguments whose call leaves one completion outstanding. -/
def Host.waiting : Host :=
  { Host.sample with
    GetSysFuncDecl := fun imp => some { name := imp.name, argumentTypes := [], waitable := true }
    CallSysFunc := fun _ _ => { pending := 1 } }

/-- Sample script `BeginWait; Yield; PushI(0); CallSysFunctionV(0); Pop; EndWait; PushI(1);
ReturnV` with one import. -/
def progYieldInWait : SheepScript :=
  { addr := 11, mName := "YieldInWait",
    mBytecode := some [9, 1, 18, 0, 0, 0, 0, 2, 0, 0, 0, 0, 22, 10, 18, 1, 0, 0, 0, 11],
    mSysImports := [{ name := "StartAnimation" }] }

/-- The script `progYieldInWait` without its `Yield`. -/
def progNoYieldInWait : SheepScript :=
  { addr := 12, mName := "NoYieldInWait",
    mBytecode := some [9, 18, 0, 0, 0, 0, 2, 0, 0, 0, 0, 22, 10, 18, 1, 0, 0, 0, 11],
    mSysImports := [{ name := "StartAnimation" }] }

/-- Sample script `Yield; ReturnV`. -/
def progYieldReturn : SheepScript :=
  { addr := 13, mName := "YieldReturn", mBytecode := some [1, 11] }

/-- Sample machine about to run `Yield; ReturnV`. -/
def machineYield : Machine :=
  { reader := { data := [1, 11] }, thread := { mContext := some 0, mRunning := true },
    context := { mSheepScript := some progYieldReturn, mReferenceCount := 1 } }

/-- Sample state: the thread of `machineYield` as saved after its `Yield`. -/
def vmYielded : SheepVM :=
  { mSheepInstances := [{ mSheepScript := some progYieldReturn, mReferenceCount := 1 }],
    mSheepThreads := [{ mContext := some 0, mRunning := true, mCodeOffset := 1 }] }

/-- Sample machine about to run `ReturnV; PushI(1)` with Int 4 on the stack. -/
def machineReturn : Machine :=
  { reader := { data := [11, 18, 1, 0, 0, 0] },
    thread := { mRunning := true,
                mStack := { mStack := [{ type := SheepValueType.Int, intValue := 4 }] } },
    context := {} }

/-- Sample machine about to decode the byte 200, which numbers no instruction, followed by
`ReturnV`. -/
def machineUnknown : Machine :=
  { reader := { data := [200, 11] },
    thread := { mRunning := true,
                mStack := { mStack := [{ type := SheepValueType.Int, intValue := 4 }] } },
    context := {} }

/-- Sample script with an empty byte buffer. -/
def progEmpty : SheepScript := { addr := 14, mName := "Empty", mBytecode := some [] }

/-- Sample state: one unused context bound to `progEmpty`, no thread. -/
def vmEmpty : SheepVM := { mSheepInstances := [{ mSheepScript := some progEmpty }] }

/-- The machine on which a call of `progEmpty` at offset 0 with callback 7 enters the
loop. -/
def machineEmpty : Machine :=
  { reader := { data := [], pos := 0, ok := true },
    thread := { mContext := some 0, mWaitCallback := some 7, mFunctionName := "X$",
                mRunning := true },
    context := { mSheepScript := some progEmpty, mReferenceCount := 1 } }

/-- Sample script `PushI(-2147483648); PushI(-1); DivideI; ReturnV`. -/
def progDivideOverflow : SheepScript :=
  { addr := 15, mName := "DivideOverflow",
    mBytecode := some [18, 0, 0, 0, 128, 18, 255, 255, 255, 255, 29, 11] }

/-- Sample script `PushI(-2147483648); PushI(-1); Modulo; ReturnV`. -/
def progModuloOverflow : SheepScript :=
  { addr := 16, mName := "ModuloOverflow",
    mBytecode := some [18, 0, 0, 0, 128, 18, 255, 255, 255, 255, 47, 11] }

/-- Sample machine about to run `PushI(-7); PushI(2); DivideI; ReturnV`. -/
def machineArith : Machine :=
  { reader := { data := [18, 249, 255, 255, 255, 18, 2, 0, 0, 0, 29, 11] },
    thread := { mRunning := true }, context := {} }

/-- The machine as a binary Int instruction of one byte leaves it: the cursor is one byte
on and the Int `r` stands on the values `below` the two operands. -/
def Machine.afterBinary (m : Machine) (below : List SheepValue) (r : Int) : Machine :=
  { m with reader := { m.reader with pos := m.reader.pos + 1 },
           thread := { m.thread with
             mStack := { mStack := { type := SheepValueType.Int, intValue := r } :: below } } }

/-- Sample machine about to run `IsGreaterI; ReturnV` with Int 3 pushed first and Int -5 on
top of it, above Int 9. -/
def machineCompare : Machine :=
  { reader := { data := [37, 11] },
    thread := { mRunning := true,
                mStack := { mStack := [{ type := SheepValueType.Int, intValue := -5 },
                                       { type := SheepValueType.Int, intValue := 3 },
                                       { type := SheepValueType.Int, intValue := 9 }] } },
    context := {} }

/-- Sample machine about to run `Not; Not; Not; ReturnV` with Int 6 on the stack. -/
def machineNot : Machine :=
  { reader := { data := [50, 50, 50, 11] },
    thread := { mRunning := true,
                mStack := { mStack := [{ type := SheepValueType.Int, intValue := 6 }] } },
    context := {} }

/-- Sample machine about to run `IToF(1); ReturnV` with Int 2 on top of Int 7. -/
def machineConvert : Machine :=
  { reader := { data := [45, 1, 0, 0, 0, 11] },
    thread := { mRunning := true,
                mStack := { mStack := [{ type := SheepValueType.Int, intValue := 2 },
                                       { type := SheepValueType.Int, intValue := 7 }] } },
    context := {} }

/-- The conversion of one argument by its declared type code (1 = Int, 2 = Float,
otherwise String). -/
def marshalOne (host : Host) (argType : Int) (v : SheepValue) : Value :=
  if argType = 1 then Value.ofInt (v.GetInt host)
  else if argType = 2 then Value.ofFloat (v.GetFloat host)
  else Value.ofString v.GetString

/-- The argument list in the words of the specification: argument `i` is the value pushed
`i`-th (the deepest first), converted by declared type code `i`. -/
def marshalled (host : Host) (argumentTypes : List Int) (pushed : List SheepValue) :
    List Value :=
  List.zipWith (marshalOne host) argumentTypes pushed

/-- The machine as a system call instruction leaves it: the cursor is past the operand,
the completions a waitable call left outstanding are added to the wait counter, the error
flag is cleared, and `stack` is the stack of the thread. -/
def Machine.afterSysCall (m : Machine) (waitable : Bool) (result : SysCallResult)
    (stack : List SheepValue) : Machine :=
  { m with reader := { m.reader with pos := m.reader.pos + 5 },
           thread := { m.thread.AddWait waitable result.pending with
                       mStack := { mStack := stack } },
           mExecutionError := false }

/-- A host with the numbering of `Host.sample` in which every import is declared with two
Int arguments, and whose bridge returns the first argument minus the second. -/
def Host.subtracting : Host :=
  { Host.sample with
    GetSysFuncDecl := fun imp => some { name := imp.name, argumentTypes := [1, 1] }
    CallSysFunc := fun _ args =>
      match args with
      | [Value.ofInt a, Value.ofInt b] => { value := Value.ofInt (a - b) }
      | _ => {} }

/-- Sample script `CallSysFunctionI(0); ReturnV` with one import. -/
def progCall : SheepScript :=
  { addr := 17, mName := "Call", mBytecode := some [3, 0, 0, 0, 0, 11],
    mSysImports := [{ name := "Subtract" }] }

/-- Sample machine about to run `progCall` after `PushI(10); PushI(3); PushI(2)`: the
argument count 2 on top of the arguments 10 and 3, above Int 8. -/
def machineCall : Machine :=
  { reader := { data := [3, 0, 0, 0, 0, 11] },
    thread := { mRunning := true,
                mStack := { mStack := [{ type := SheepValueType.Int, intValue := 2 },
                                       { type := SheepValueType.Int, intValue := 3 },
                                       { type := SheepValueType.Int, intValue := 10 },
                                       { type := SheepValueType.Int, intValue := 8 }] } },
    context := {} }

/-- Sample script `CallSysFunctionV(0); Pop; ReturnV` with one import. -/
def progCallVoid : SheepScript :=
  { addr := 18, mName := "CallVoid", mBytecode := some [2, 0, 0, 0, 0, 22, 11],
    mSysImports := [{ name := "Subtract" }] }

/-- Sample machine about to run `progCallVoid`: the argument count 2 on top of the
arguments 10 and 3, above Int 8. -/
def machineCallVoid : Machine :=
  { reader := { data := [2, 0, 0, 0, 0, 22, 11] },
    thread := { mRunning := true,
                mStack := { mStack := [{ type := SheepValueType.Int, intValue := 2 },
                                       { type := SheepValueType.Int, intValue := 3 },
                                       { type := SheepValueType.Int, intValue := 10 },
                                       { type := SheepValueType.Int, intValue := 8 }] } },
    context := {} }

/-- The two instructions of a push/pop sequence. -/
inductive StackOp
  | PushI (x : Int)
  | Pop
  deriving DecidableEq, Repr

/-- The bytes of one instruction of a push/pop sequence. -/
def StackOp.encode (host : Host) : StackOp → List Nat
  | .PushI x => host.opInt .PushI x
  | .Pop => host.op .Pop

/-- The bytes of a push/pop sequence. -/
def encodeOps (host : Host) : List StackOp → List Nat
  | [] => []
  | op :: rest => op.encode host ++ encodeOps host rest

/-- Number of `PushI` in a sequence. -/
def pushes : List StackOp → Nat
  | [] => 0
  | .PushI _ :: rest => pushes rest + 1
  | .Pop :: rest => pushes rest

/-- Number of `Pop` in a sequence. -/
def pops : List StackOp → Nat
  | [] => 0
  | .PushI _ :: rest => pops rest
  | .Pop :: rest => pops rest + 1

/-- The stack a push/pop sequence is specified to leave: `PushI(x)` puts Int `x` on top,
`Pop` removes the top. -/
def applyOps : List StackOp → List SheepValue → List SheepValue
  | [], s => s
  | .PushI x :: rest, s => applyOps rest ({ type := SheepValueType.Int, intValue := x } :: s)
  | .Pop :: rest, s => applyOps rest s.tail

/-- Sample machine about to run `PushI(4); PushI(5); Pop; ReturnV` with Int 8 on the
stack. -/
def machinePushPop : Machine :=
  { reader := { data := [18, 4, 0, 0, 0, 18, 5, 0, 0, 0, 22, 11] },
    thread := { mRunning := true,
                mStack := { mStack := [{ type := SheepValueType.Int, intValue := 8 }] } },
    context := {} }

/-- Sample script `PushS(4); GetString; ReturnV` with the constant "hello" at offset 4. -/
def progString : SheepScript :=
  { addr := 19, mName := "String", mBytecode := some [20, 4, 0, 0, 0, 21, 11],
    mStringConsts := [(0, "abc"), (4, "hello")] }

/-- Sample machine about to run `progString` with Int 8 on the stack. -/
def machineString : Machine :=
  { reader := { data := [20, 4, 0, 0, 0, 21, 11] },
    thread := { mRunning := true,
                mStack := { mStack := [{ type := SheepValueType.Int, intValue := 8 }] } },
    context := {} }

/-- Sample machine about to run `StoreI(3); ReturnV` with Int 8 on the stack and a single
variable slot. -/
def machineStoreOut : Machine :=
  { reader := { data := [12, 3, 0, 0, 0, 11] },
    thread := { mRunning := true,
                mStack := { mStack := [{ type := SheepValueType.Int, intValue := 8 }] } },
    context := { mVariables := [{ type := SheepValueType.Int, intValue := 1 }] } }

/-- Sample machine about to run `CallSysFunctionI(5); ReturnV` with two values on the
stack; `progCall` has a single import. -/
def machineCallOut : Machine :=
  { reader := { data := [3, 5, 0, 0, 0, 11] },
    thread := { mRunning := true,
                mStack := { mStack := [{ type := SheepValueType.Int, intValue := 0 },
                                       { type := SheepValueType.Int, intValue := 8 }] } },
    context := {} }

/-- The declared shape of a list of variable slots: the type tags in slot order. -/
def shape (vars : List SheepValue) : List SheepValueType := vars.map (fun slot => slot.type)

/-- The variables of the second machine have the shape of those of the first. -/
def Machine.sameShape (m m' : Machine) : Prop :=
  shape m'.context.mVariables = shape m.context.mVariables

/-- Sample machine positioned on the operand of a Store or Load of slot 0, which is a Float
slot, with Int 8 on the stack. -/
def machineMismatch : Machine :=
  { reader := { data := [12, 0, 0, 0, 0, 11], pos := 1 },
    thread := { mRunning := true,
                mStack := { mStack := [{ type := SheepValueType.Int, intValue := 8 }] } },
    context := { mVariables := [{ type := SheepValueType.Float, floatValue := 5 }] } }

/-- Sample script without a byte buffer: the reader built over it is not OK. -/
def progNoBuffer : SheepScript := { addr := 20, mName := "NoBuffer", mBytecode := none }

/-- Modelled from the spec: the reader over the bytes of a file (`BinaryReader` on a file
stream, not among the sources). `canRead` is false when the file could not be opened.
Integers are little-endian; a byte beyond the end of the file reads as zero. -/
structure FileReader where
  data : List Nat := []
  pos : Nat := 0
  canRead : Bool := true
  deriving DecidableEq, Repr

/-- The byte at an index of the file (zero outside of it). -/
def FileReader.byteAt (r : FileReader) (i : Nat) : Nat := (r.data.getD i 0) % 256

/-- State test of the file reader. -/
def FileReader.CanRead (r : FileReader) : Bool := r.canRead

/-- Current position. -/
def FileReader.GetPosition (r : FileReader) : Nat := r.pos

/-- Absolute move of the position. -/
def FileReader.Seek (r : FileReader) (position : Nat) : FileReader := { r with pos := position }

/-- Read of one unsigned byte. -/
def FileReader.ReadUByte (r : FileReader) : Nat × FileReader :=
  (r.byteAt r.pos, { r with pos := r.pos + 1 })

/-- Read of a 4-byte unsigned integer. -/
def FileReader.ReadUInt (r : FileReader) : Nat × FileReader :=
  (r.byteAt r.pos + 256 * r.byteAt (r.pos + 1) + 65536 * r.byteAt (r.pos + 2)
      + 16777216 * r.byteAt (r.pos + 3),
    { r with pos := r.pos + 4 })

/-- Read of `count` bytes into a buffer. -/
def FileReader.Read (r : FileReader) (count : Nat) : List Nat × FileReader :=
  ((List.range count).map (fun i => r.byteAt (r.pos + i)), { r with pos := r.pos + count })

/-- The text of a zero-terminated `char` buffer, as its bytes. -/
def cString (buffer : List Nat) : List Nat := buffer.takeWhile (fun b => b != 0)

/-- Modelled from the spec: the constants that BarnFile.h declares (not among the
sources): the two identifiers of the header, the two entry types of the table of contents,
and the enumerator `CompressionType::None`. -/
structure BarnConstants where
  kGameIdentifier : Nat
  kBarnIdentifier : Nat
  kDDirIdentifier : Nat
  kDataIdentifier : Nat
  compressionNone : Nat
  deriving DecidableEq, Repr

/-- Modelled from the spec: an entry of the asset map (`BarnAsset`, declared in
BarnFile.h). Names are kept as bytes. -/
structure BarnAsset where
  name : List Nat := []
  barnFileName : List Nat := []
  offset : Nat := 0
  compressionType : Nat := 0
  compressedSize : Nat := 0
  uncompressedSize : Nat := 0
  deriving DecidableEq, Repr

/-- State of a `BarnFile` object: its reader, the offset of the data section and the asset
map, as a list of name and asset pairs in insertion order. -/
structure BarnFile where
  mReader : FileReader
  mDataOffset : Nat := 0
  mAssetMap : List (List Nat × BarnAsset) := []
  deriving DecidableEq, Repr

/-- The assignment `mAssetMap[name] = asset`. -/
def assetMapSet (map : List (List Nat × BarnAsset)) (name : List Nat) (asset : BarnAsset) :
    List (List Nat × BarnAsset) :=
  if map.any (fun entry => entry.1 == name) then
    map.map (fun entry => if entry.1 == name then (name, asset) else entry)
  else map ++ [(name, asset)]

/-- The loop over the entries of the table of contents: collects the header and data
offsets of the `DDir` entries and the data offset of the `Data` entry. -/
def readToc (k : BarnConstants) :
    Nat → FileReader → List Nat → List Nat → Nat → FileReader × List Nat × List Nat × Nat
  | 0, r, headerOffsets, dataOffsets, mDataOffset => (r, headerOffsets, dataOffsets, mDataOffset)
  | count + 1, r, headerOffsets, dataOffsets, mDataOffset =>
    let (type, r1) := r.ReadUInt
    let r2 := (r1.ReadUInt).2
    let r3 := (r2.ReadUInt).2
    let r4 := (r3.ReadUInt).2
    let r5 := (r4.ReadUInt).2
    let (headerOffset, r6) := r5.ReadUInt
    let (dataOffset, r7) := r6.ReadUInt
    if type = k.kDDirIdentifier then
      readToc k count r7 (headerOffsets ++ [headerOffset]) (dataOffsets ++ [dataOffset])
        mDataOffset
    else if type = k.kDataIdentifier then
      readToc k count r7 headerOffsets dataOffsets headerOffset
    else readToc k count r7 headerOffsets dataOffsets mDataOffset

/-- The loop over the assets of one directory. -/
def readAssets (k : BarnConstants) (barnFileName : List Nat) (mDataOffset : Nat) :
    Nat → FileReader → List (List Nat × BarnAsset) → FileReader × List (List Nat × BarnAsset)
  | 0, r, map => (r, map)
  | count + 1, r, map =>
    let (assetSize, r1) := r.ReadUInt
    let (offset, r2) := r1.ReadUInt
    let r3 := (r2.ReadUInt).2
    let r4 := (r3.ReadUByte).2
    let (compression, r5) := r4.ReadUByte
    let compressionType := if compression = 3 then k.compressionNone else compression
    let sized : BarnAsset × FileReader :=
      if compressionType = k.compressionNone then
        ({ barnFileName := barnFileName, offset := offset, compressionType := compressionType,
           compressedSize := assetSize, uncompressedSize := assetSize }, r5)
      else if barnFileName.isEmpty then
        ({ barnFileName := barnFileName, offset := offset, compressionType := compressionType,
           compressedSize := assetSize,
           uncompressedSize := ((r5.Seek (mDataOffset + offset)).ReadUInt).1 },
         ((r5.Seek (mDataOffset + offset)).ReadUInt).2.Seek r5.GetPosition)
      else
        ({ barnFileName := barnFileName, offset := offset, compressionType := compressionType,
           compressedSize := assetSize }, r5)
    let (assetNameLength, r6) := sized.2.ReadUByte
    let (assetName, r7) := r6.Read (assetNameLength + 1)
    readAssets k barnFileName mDataOffset count r7
      (assetMapSet map (cString assetName) { sized.1 with name := cString assetName })

/-- The loop over the directories: reads the header of each and then its assets. -/
def readDirectories (k : BarnConstants) (mDataOffset : Nat) :
    List Nat → List Nat → FileReader → List (List Nat × BarnAsset) →
      FileReader × List (List Nat × BarnAsset)
  | headerOffset :: headerOffsets, dataOffset :: dataOffsets, r, map =>
    let r1 := r.Seek headerOffset
    let (barnFileName, r2) := r1.Read 32
    let r3 := (r2.ReadUInt).2
    let r4 := (r3.Read 40).2
    let r5 := (r4.ReadUInt).2
    let (numAssets, r6) := r5.ReadUInt
    let r7 := r6.Seek dataOffset
    let (r8, map1) :=
      readAssets k (cString barnFileName) mDataOffset
        (if numAssets < 2147483648 then numAssets else 0) r7 map
    readDirectories k mDataOffset headerOffsets dataOffsets r8 map1
  | _, _, r, map => (r, map)

/-- `BarnFile::BarnFile(filePath)`, for the bytes of the file at the path (`none` when
the file cannot be opened). -/
def BarnFile.new (k : BarnConstants) (file : Option (List Nat)) : BarnFile :=
  match file with
  | none => { mReader := { canRead := false } }
  | some bytes =>
    let reader : FileReader := { data := bytes }
    let (gameIdentifier, r1) := reader.ReadUInt
    let (barnIdentifier, r2) := r1.ReadUInt
    if gameIdentifier ≠ k.kGameIdentifier ∧ barnIdentifier ≠ k.kBarnIdentifier then
      { mReader := r2 }
    else
      let r3 := (r2.ReadUInt).2
      let r4 := (r3.ReadUInt).2
      let r5 := (r4.ReadUInt).2
      let (tocOffset, r6) := r5.ReadUInt
      let r7 := r6.Seek tocOffset
      let (tocEntryCount, r8) := r7.ReadUInt
      let (r9, headerOffsets, dataOffsets, mDataOffset) := readToc k tocEntryCount r8 [] [] 0
      let (r10, map) := readDirectories k mDataOffset headerOffsets dataOffsets r9 []
      { mReader := r10, mDataOffset := mDataOffset, mAssetMap := map }

/-- The constants read as the text "GK3!", "Barn", "DDir" and "Data", with `None`
numbered 0. -/
def BarnConstants.sample : BarnConstants :=
  { kGameIdentifier := 557009735, kBarnIdentifier := 1852989762,
    kDDirIdentifier := 1919501380, kDataIdentifier := 1635017028, compressionNone := 0 }

/-- The bytes of a sample Barn file after the two identifiers: the rest of the header, a
table of contents with one `DDir` entry, and one directory with the single uncompressed
asset "A" of size 3. -/
def barnBody : List Nat :=
  [0, 0, 1, 0, 0, 0, 1, 0, 157, 0, 0, 0, 24, 0, 0, 0, 1, 0, 0, 0, 68, 68, 105, 114, 0, 0, 0,
   0, 0, 0, 0, 0, 0, 0, 0, 0, 0, 0, 0, 0, 56, 0, 0, 0, 140, 0, 0, 0, 0, 0, 0, 0, 0, 0, 0, 0,
   0, 0, 0, 0, 0, 0, 0, 0, 0, 0, 0, 0, 0, 0, 0, 0, 0, 0, 0, 0, 0, 0, 0, 0, 0, 0, 0, 0, 71,
   75, 51, 0, 0, 0, 0, 0, 0, 0, 0, 0, 0, 0, 0, 0, 0, 0, 0, 0, 0, 0, 0, 0, 0, 0, 0, 0, 0, 0,
   0, 0, 0, 0, 0, 0, 0, 0, 0, 0, 0, 0, 0, 0, 1, 0, 0, 0, 3, 0, 0, 0, 0, 0, 0, 0, 0, 0, 0, 0,
   0, 0, 1, 65, 0]

/-- Sample file whose game identifier is the expected one and whose barn identifier is
not. -/
def barnWrongBarnId : List Nat := [71, 75, 51, 33, 0, 0, 0, 0] ++ barnBody

/-- Sample file whose barn identifier is the expected one and whose game identifier is
not. -/
def barnWrongGameId : List Nat := [0, 0, 0, 0, 66, 97, 114, 110] ++ barnBody

/-- Sample file in which both identifiers differ from the expected ones. -/
def barnWrongBoth : List Nat := [0, 0, 0, 0, 0, 0, 0, 0] ++ barnBody

/-- `str.substr(pos, count)` for a position inside the string. -/
def substr (str : List Char) (pos count : Nat) : List Char := (str.drop pos).take count

/-- The body of the inner loop of the constructor for the index `i` and one split
character: on a match the field before `i` is kept as a token when `i - startIndex > 1`
(a comparison of `int` values), and the next field starts after `i`. -/
def splitStep (str : List Char) (i : Nat) (state : Nat × List (List Char)) (splitChar : Char) :
    Nat × List (List Char) :=
  if str[i]? = some splitChar then
    (i + 1,
      if (i : Int) - (state.1 : Int) > 1 then state.2 ++ [substr str state.1 (i - state.1)]
      else state.2)
  else state

/-- The two nested loops of the constructor: the start index of the current field and the
tokens found, after all indices of the string. -/
def splitLoop (str : List Char) (splitChars : List Char) : Nat × List (List Char) :=
  (List.range str.length).foldl (fun state i => splitChars.foldl (splitStep str i) state) (0, [])

/-- The `StringTokenizer` object: its tokens and the index of the next one
(StringTokenizer.h is not among the sources). -/
structure StringTokenizer where
  mTokens : List (List Char) := []
  mIndex : Nat := 0
  deriving DecidableEq, Repr

/-- The statement after the loops: the field after the last split character is kept as
a token when `str.size() - startIndex > 1`, an unsigned difference of 64 bits. -/
def lastField (str : List Char) (state : Nat × List (List Char)) : List (List Char) :=
  if (str.length + 18446744073709551616 - state.1) % 18446744073709551616 > 1 then
    state.2 ++ [substr str state.1 (str.length - state.1)]
  else state.2

/-- `StringTokenizer::StringTokenizer(str, splitChars)`. -/
def StringTokenizer.new (str : List Char) (splitChars : List Char) : StringTokenizer :=
  { mTokens := lastField str (splitLoop str splitChars) }

/-- `StringTokenizer::GetNext`: the next token and the new state, the empty string when
there is none left. -/
def StringTokenizer.GetNext (t : StringTokenizer) : List Char × StringTokenizer :=
  match t.mTokens[t.mIndex]? with
  | some token => (token, { t with mIndex := t.mIndex + 1 })
  | none => ([], t)

/-- The results of `n` successive calls of `GetNext`. -/
def StringTokenizer.nexts : Nat → StringTokenizer → List (List Char)
  | 0, _ => []
  | n + 1, t => (t.GetNext).1 :: StringTokenizer.nexts n (t.GetNext).2

/-- In the words of the specification: the maximal runs of characters that are not split
characters (the non-empty fields between split characters), of length at least 2, from
left to right. -/
def longRuns (str : List Char) (splitChars : List Char) : List (List Char) :=
  (str.splitOnP (fun c => decide (c ∈ splitChars))).filter (fun run => decide (2 ≤ run.length))

/-- The scan of the rest of the string with the current field `cur` and the tokens found
so far. -/
def scanFrom (splitChars : List Char) : List Char → List Char → List (List Char) →
    List (List Char)
  | [], cur, tokens => if 1 < cur.length then tokens ++ [cur] else tokens
  | c :: rest, cur, tokens =>
    if c ∈ splitChars then
      scanFrom splitChars rest [] (if 1 < cur.length then tokens ++ [cur] else tokens)
    else scanFrom splitChars rest (cur ++ [c]) tokens

/-- Whether the thread is running and bound to the context with pool index `c`. -/
def SheepThread.uses (thread : SheepThread) (c : Nat) : Bool :=
  thread.mRunning && thread.mContext == some c

/-- Number of pooled threads that are running and bound to the context with pool index `c`. -/
def SheepVM.users (vm : SheepVM) (c : Nat) : Nat :=
  vm.mSheepThreads.countP (fun thread => thread.uses c)

/-- The reference count of every context of the pool is the number of running threads
bound to it, and every running thread is bound to a context of the pool. -/
def poolsAgree (instances : List SheepInstance) (threads : List SheepThread) : Prop :=
  (∀ (c : Nat) (context : SheepInstance), instances[c]? = some context →
    context.mReferenceCount = ((threads.countP (fun thread => thread.uses c) : Nat) : Int)) ∧
  (∀ thread ∈ threads, thread.mRunning = true →
    ∃ c, thread.mContext = some c ∧ c < instances.length)

/-- What happens to the machine between two moments of rest: a call of a client, or a
re-drive `ExecuteInternal(thread)` of the pooled thread with index `t`. -/
inductive Action
  | call (c : Call)
  | redrive (t : Nat)

/-- Whether the pooled thread with index `t` is suspended: it exists and is running while no
call is in progress. -/
def SheepVM.suspended (vm : SheepVM) (t : Nat) : Bool :=
  match vm.mSheepThreads[t]? with
  | some thread => thread.mRunning
  | none => false

/-- State after one action. Only suspended threads are re-driven: a re-drive of any other
thread is not made. -/
def SheepVM.act (host : Host) (fuel : Nat) (vm : SheepVM) : Action → Except Fault SheepVM
  | .call c => vm.perform host fuel c
  | .redrive t => if vm.suspended t then vm.ExecuteInternalThread host fuel t else .ok vm

/-- State after a sequence of actions, each with its own fuel. -/
def SheepVM.actAll (host : Host) : List (Nat × Action) → SheepVM → Except Fault SheepVM
  | [], vm => .ok vm
  | (fuel, action) :: rest, vm =>
    match vm.act host fuel action with
    | .error e => .error e
    | .ok vm1 => SheepVM.actAll host rest vm1

/-- Sample sequence of actions: two runs of the yielding script that stay suspended in one
context, an evaluation in a second context, a re-drive that ends the first thread, and a
re-drive of a thread that does not exist. -/
def sampleActions : List (Nat × Action) :=
  [(10, Action.call (Call.execute (some progYield) 0 none)),
   (10, Action.call (Call.execute (some progYield) 0 (some 4))),
   (10, Action.call (Call.evaluate (some progPushOne) 7 3)),
   (10, Action.redrive 0),
   (10, Action.redrive 5)]

/-- The state the sample sequence of actions leaves: the second thread is still suspended
in the first context. -/
def vmAfterActions : SheepVM :=
  { mSheepInstances :=
      [{ mSheepScript := some progYield, mReferenceCount := 1 },
       { mSheepScript := some progPushOne, mReferenceCount := 0 }],
    mSheepThreads :=
      [{ mContext := some 0, mCodeOffset := 1, mFunctionName := "X$" },
       { mContext := some 0, mWaitCallback := some 4, mCodeOffset := 1, mFunctionName := "X$",
         mRunning := true },
       { mContext := some 1, mCodeOffset := 6, mFunctionName := "X$" }] }

/-! ## Theorems -/

/-! ### Auxiliary facts about lists -/

theorem findIdx?_some_spec {α : Type} {xs : List α} {p : α → Bool} {i : Nat}
    (h : xs.findIdx? p = some i) :
    ∃ a, xs[i]? = some a ∧ p a = true ∧ ∀ j b, j < i → xs[j]? = some b → p b = false := by
  rw [List.findIdx?_eq_some_iff_getElem] at h
  obtain ⟨hi, hp, hlt⟩ := h
  refine ⟨xs[i], by simp [hi], hp, ?_⟩
  intro j b hj hb
  have hjl : j < xs.length := Nat.lt_trans hj hi
  have := hlt j hj
  rw [List.getElem?_eq_getElem hjl] at hb
  cases hb
  simpa using this

theorem findIdx?_none_spec {α : Type} {xs : List α} {p : α → Bool}
    (h : xs.findIdx? p = none) : ∀ a ∈ xs, p a = false := by
  rw [List.findIdx?_eq_none_iff] at h
  exact h

/-! ### Resolution failures -/

/-- C1: `Execute` by function name with an absent script or with a name whose offset is
negative, and `Execute` by offset with an absent script, return the state unchanged
except that the completion callback, when there is one, has been invoked once: both
pools, every reference count and the current thread are those of before the call. -/
theorem execute_unresolved_only_calls_back (host : Host) (fuel : Nat) (vm : SheepVM)
    (script : Option SheepScript) (functionName : String) (bytecodeOffset : Int)
    (finishCallback : Option Nat)
    (h : script = none ∨ ∃ s, script = some s ∧ s.GetFunctionOffset functionName < 0) :
    vm.ExecuteFunction host fuel script functionName finishCallback
        = .ok { vm with invoked := vm.invoked ++ finishCallback.toList }
      ∧ vm.Execute host fuel none bytecodeOffset finishCallback
        = .ok { vm with invoked := vm.invoked ++ finishCallback.toList } := by
  have hfin : vm.finish finishCallback
      = { vm with invoked := vm.invoked ++ finishCallback.toList } := by
    cases finishCallback <;> simp [SheepVM.finish, SheepVM.call]
  refine ⟨?_, ?_⟩
  · rcases h with h | ⟨s, hs, hneg⟩
    · subst h
      simp [SheepVM.ExecuteFunction, hfin]
    · subst hs
      simp [SheepVM.ExecuteFunction, hneg, hfin]
  · simp [SheepVM.Execute, SheepVM.ExecuteInternalScript, SheepVM.GetInstance,
      SheepVM.ExecuteInternal, hfin]

theorem execute_unresolved_only_calls_back_witness :
    (progPushOne.GetFunctionOffset "Missing$" < 0) ∧
    (({} : SheepVM).ExecuteFunction Host.sample 0 (some progPushOne) "Missing$" (some 7)
        = .ok { ({} : SheepVM) with invoked := [7] }) ∧
    (({} : SheepVM).Execute Host.sample 0 none 0 (some 7)
        = .ok { ({} : SheepVM) with invoked := [7] }) :=
  ⟨by decide,
   (execute_unresolved_only_calls_back Host.sample 0 {} (some progPushOne) "Missing$" 0 (some 7)
      (Or.inr ⟨progPushOne, rfl, by decide⟩)).1,
   (execute_unresolved_only_calls_back Host.sample 0 {} (some progPushOne) "Missing$" 0 (some 7)
      (Or.inr ⟨progPushOne, rfl, by decide⟩)).2⟩

/-! ### The context pool -/

/-- C4: when a context of the pool is bound to the script, `GetInstance` returns the first
such context and leaves the whole state as it was. -/
theorem getInstance_bound_returns_it_unchanged (vm : SheepVM) (p : SheepScript)
    (h : ∃ inst ∈ vm.mSheepInstances, inst.mSheepScript = some p) :
    ∃ i inst, vm.GetInstance (some p) = (some i, vm) ∧
      vm.mSheepInstances[i]? = some inst ∧ inst.mSheepScript = some p ∧
      ∀ j other, j < i → vm.mSheepInstances[j]? = some other → other.mSheepScript ≠ some p := by
  cases hf : vm.mSheepInstances.findIdx? (fun inst => inst.mSheepScript == some p) with
  | none =>
    obtain ⟨inst, hmem, hb⟩ := h
    have := findIdx?_none_spec hf inst hmem
    simp [hb] at this
  | some i =>
    obtain ⟨inst, hget, hp, hfirst⟩ := findIdx?_some_spec hf
    refine ⟨i, inst, ?_, hget, by simpa using hp, ?_⟩
    · simp [SheepVM.GetInstance, hf]
    · intro j other hj hother
      simpa using hfirst j other hj hother

theorem getInstance_bound_returns_it_unchanged_witness :
    (∃ inst ∈ vmTwoContexts.mSheepInstances, inst.mSheepScript = some progPushOne) ∧
    ∃ i inst, vmTwoContexts.GetInstance (some progPushOne) = (some i, vmTwoContexts) ∧
      vmTwoContexts.mSheepInstances[i]? = some inst ∧ inst.mSheepScript = some progPushOne ∧
      ∀ j other, j < i → vmTwoContexts.mSheepInstances[j]? = some other →
        other.mSheepScript ≠ some progPushOne :=
  ⟨⟨{ mSheepScript := some progPushOne, mReferenceCount := 1 }, by simp [vmTwoContexts], rfl⟩,
   getInstance_bound_returns_it_unchanged vmTwoContexts progPushOne
    ⟨{ mSheepScript := some progPushOne, mReferenceCount := 1 }, by simp [vmTwoContexts], rfl⟩⟩

/-- C5: when no context of the pool is bound to the script, `GetInstance` returns a
context bound to it whose variables are the declared variables of the script with their
defaults. If some context of the pool has reference count zero, the context returned is
the first of these and the pool keeps its size; otherwise it is a new context appended
to the pool. Every other context, and the rest of the state, is unchanged. -/
theorem getInstance_unbound_rebinds_or_allocates (vm : SheepVM) (p : SheepScript)
    (h : ∀ inst ∈ vm.mSheepInstances, inst.mSheepScript ≠ some p) :
    ∃ i vm' inst,
      vm.GetInstance (some p) = (some i, vm') ∧
      vm'.mSheepInstances[i]? = some inst ∧
      inst.mSheepScript = some p ∧ inst.mVariables = p.GetVariables ∧
      (∀ j, j ≠ i → vm'.mSheepInstances[j]? = vm.mSheepInstances[j]?) ∧
      ((∃ idle ∈ vm.mSheepInstances, idle.mReferenceCount = 0) →
        (∃ old, vm.mSheepInstances[i]? = some old ∧ old.mReferenceCount = 0 ∧
          inst.mReferenceCount = 0 ∧
          ∀ j b, j < i → vm.mSheepInstances[j]? = some b → b.mReferenceCount ≠ 0) ∧
        vm'.mSheepInstances.length = vm.mSheepInstances.length) ∧
      ((∀ busy ∈ vm.mSheepInstances, busy.mReferenceCount ≠ 0) →
        i = vm.mSheepInstances.length ∧ vm'.mSheepInstances = vm.mSheepInstances ++ [inst] ∧
        inst.mReferenceCount = 0) ∧
      vm'.mSheepThreads = vm.mSheepThreads ∧ vm'.mCurrentThread = vm.mCurrentThread ∧
      vm'.mExecutionError = vm.mExecutionError ∧ vm'.invoked = vm.invoked := by
  have hb : vm.mSheepInstances.findIdx? (fun inst => inst.mSheepScript == some p) = none := by
    rw [List.findIdx?_eq_none_iff]
    intro x hx
    simpa using h x hx
  cases hf : vm.mSheepInstances.findIdx? (fun inst => inst.mReferenceCount == 0) with
  | some i =>
    obtain ⟨old, hget, hp, hfirst⟩ := findIdx?_some_spec hf
    have hz : old.mReferenceCount = 0 := by simpa using hp
    refine ⟨i, { vm with
      mSheepInstances := vm.mSheepInstances.modify (fun context => context.rebind p) i },
      old.rebind p, ?_, ?_, rfl, rfl, ?_, ?_, ?_, rfl, rfl, rfl, rfl⟩
    · simp [SheepVM.GetInstance, hb, hf]
    · simp [hget]
    · intro j hj
      simp [List.getElem?_modify_ne _ _ (Ne.symm hj)]
    · intro _
      refine ⟨⟨old, hget, hz, hz, ?_⟩, by simp⟩
      intro j b hj hbj
      simpa using hfirst j b hj hbj
    · intro hbusy
      have hmem : old ∈ vm.mSheepInstances := List.getElem?_mem hget
      exact absurd hz (hbusy old hmem)
  | none =>
    have hnone := findIdx?_none_spec hf
    refine ⟨vm.mSheepInstances.length,
      { vm with mSheepInstances := vm.mSheepInstances ++ [({} : SheepInstance).rebind p] },
      ({} : SheepInstance).rebind p, ?_, ?_, rfl, rfl, ?_, ?_, ?_, rfl, rfl, rfl, rfl⟩
    · simp [SheepVM.GetInstance, hb, hf]
    · simp
    · intro j hj
      rcases Nat.lt_or_gt_of_ne hj with hlt | hgt
      · simp [List.getElem?_append_left hlt]
      · have h1 : (vm.mSheepInstances ++ [({} : SheepInstance).rebind p]).length ≤ j := by
          simp; omega
        rw [List.getElem?_eq_none h1, List.getElem?_eq_none (by omega)]
    · rintro ⟨idle, hmem, hidle⟩
      have := hnone idle hmem
      simp [hidle] at this
    · intro _
      exact ⟨rfl, rfl, rfl⟩

theorem getInstance_unbound_rebinds_or_allocates_witness :
    (∀ inst ∈ vmTwoContexts.mSheepInstances, inst.mSheepScript ≠ some progCounter) ∧
    ∃ i vm' inst,
      vmTwoContexts.GetInstance (some progCounter) = (some i, vm') ∧
      vm'.mSheepInstances[i]? = some inst ∧
      inst.mSheepScript = some progCounter ∧ inst.mVariables = progCounter.GetVariables ∧
      (∀ j, j ≠ i → vm'.mSheepInstances[j]? = vmTwoContexts.mSheepInstances[j]?) ∧
      ((∃ idle ∈ vmTwoContexts.mSheepInstances, idle.mReferenceCount = 0) →
        (∃ old, vmTwoContexts.mSheepInstances[i]? = some old ∧ old.mReferenceCount = 0 ∧
          inst.mReferenceCount = 0 ∧
          ∀ j b, j < i → vmTwoContexts.mSheepInstances[j]? = some b → b.mReferenceCount ≠ 0) ∧
        vm'.mSheepInstances.length = vmTwoContexts.mSheepInstances.length) ∧
      ((∀ busy ∈ vmTwoContexts.mSheepInstances, busy.mReferenceCount ≠ 0) →
        i = vmTwoContexts.mSheepInstances.length ∧
        vm'.mSheepInstances = vmTwoContexts.mSheepInstances ++ [inst] ∧
        inst.mReferenceCount = 0) ∧
      vm'.mSheepThreads = vmTwoContexts.mSheepThreads ∧
      vm'.mCurrentThread = vmTwoContexts.mCurrentThread ∧
      vm'.mExecutionError = vmTwoContexts.mExecutionError ∧
      vm'.invoked = vmTwoContexts.invoked :=
  ⟨by decide,
   getInstance_unbound_rebinds_or_allocates vmTwoContexts progCounter (by decide)⟩

/-! ### Fields no instruction writes -/

theorem sameFrame_refl (m : Machine) : m.sameFrame m := by
  simp [Machine.sameFrame]

theorem sameFrame_trans {a b c : Machine} (h1 : a.sameFrame b) (h2 : b.sameFrame c) :
    a.sameFrame c := by
  simp only [Machine.sameFrame] at *
  obtain ⟨a1, a2, a3, a4, a5, a6, a7⟩ := h1
  obtain ⟨b1, b2, b3, b4, b5, b6, b7⟩ := h2
  exact ⟨b1.trans a1, b2.trans a2, b3.trans a3, b4.trans a4, b5.trans a5, b6.trans a6,
    b7.trans a7⟩

theorem readInt_data (r : BinaryReader) : (r.ReadInt).2.data = r.data := by
  unfold BinaryReader.ReadInt; split <;> rfl

theorem readFloat_data (r : BinaryReader) : (r.ReadFloat).2.data = r.data := by
  unfold BinaryReader.ReadFloat; split <;> rfl

theorem readUByte_data (r : BinaryReader) : (r.ReadUByte).2.data = r.data := by
  unfold BinaryReader.ReadUByte; split <;> rfl

theorem intBinary_sameFrame {m m' : Machine} {f : Int → Int → Except Fault Int}
    (h : m.intBinary f = .ok m') : m.sameFrame m' := by
  unfold Machine.intBinary at h
  repeat' split at h
  all_goals first
    | contradiction
    | (cases h; simp [Machine.sameFrame, Machine.setStack])

theorem floatBinary_sameFrame {m m' : Machine} {f : Nat → Nat → Nat}
    (h : m.floatBinary f = .ok m') : m.sameFrame m' := by
  unfold Machine.floatBinary at h
  repeat' split at h
  all_goals first
    | contradiction
    | (cases h; simp [Machine.sameFrame, Machine.setStack])

theorem floatCompare_sameFrame {m m' : Machine} {f : Nat → Nat → Bool}
    (h : m.floatCompare f = .ok m') : m.sameFrame m' := by
  unfold Machine.floatCompare at h
  repeat' split at h
  all_goals first
    | contradiction
    | (cases h; simp [Machine.sameFrame, Machine.setStack])

theorem onTop_sameFrame {m m' : Machine} {f : SheepValue → SheepValue}
    (h : m.onTop f = .ok m') : m.sameFrame m' := by
  unfold Machine.onTop at h
  repeat' split at h
  all_goals first
    | contradiction
    | (cases h; simp [Machine.sameFrame, Machine.setStack])

theorem callSysFunc_sameFrame {host : Host} {m m' : Machine} {imp : SysImport} {value : Value}
    (h : CallSysFunc host m imp = .ok (value, m')) : m.sameFrame m' := by
  unfold CallSysFunc at h
  dsimp only at h
  repeat' split at h
  all_goals first
    | contradiction
    | (cases h; simp only [Machine.sameFrame, Machine.setStack, SheepThread.AddWait]
       split <;> simp)
    | (cases h; simp [Machine.sameFrame, Machine.setStack])

theorem sysCall_sameFrame {host : Host} {script : SheepScript} {m m' : Machine}
    {push : SheepStack → Value → SheepStack}
    (h : m.sysCall host script push = .ok m') : m.sameFrame m' := by
  unfold Machine.sysCall at h
  simp only [Machine.readInt] at h
  split at h
  · cases h; simp [Machine.sameFrame, readInt_data]
  · split at h
    · contradiction
    · rename_i value m2 hc
      cases h
      have := callSysFunc_sameFrame hc
      simp only [Machine.sameFrame, Machine.setStack] at *
      simpa [readInt_data] using this

theorem store_sameFrame {m m' : Machine} {ty : SheepValueType}
    {write : SheepValue → SheepValue → SheepValue}
    (h : m.store ty write = .ok m') : m.sameFrame m' := by
  unfold Machine.store at h
  simp only [Machine.readInt] at h
  repeat' split at h
  all_goals first
    | contradiction
    | (cases h; simp [Machine.sameFrame, Machine.setStack, Machine.setVariables, readInt_data])

theorem load_sameFrame {m m' : Machine} {ty : SheepValueType}
    {push : SheepStack → SheepValue → SheepStack}
    (h : m.load ty push = .ok m') : m.sameFrame m' := by
  unfold Machine.load at h
  simp only [Machine.readInt] at h
  repeat' split at h
  all_goals first
    | contradiction
    | (cases h; simp [Machine.sameFrame, Machine.setStack, Machine.setVariables, readInt_data])

theorem execInstruction_sameFrame {host : Host} {script : SheepScript} {m m' : Machine}
    {ins : Option SheepInstruction}
    (h : execInstruction host script m ins = .ok m') : m.sameFrame m' := by
  cases ins with
  | none =>
    simp only [execInstruction] at h
    cases h
    exact sameFrame_refl _
  | some i =>
    cases i <;> simp only [execInstruction] at h
    all_goals first
      | exact intBinary_sameFrame h
      | exact floatBinary_sameFrame h
      | exact floatCompare_sameFrame h
      | exact onTop_sameFrame h
      | exact sysCall_sameFrame h
      | exact store_sameFrame h
      | exact load_sameFrame h
      | (try simp only [Machine.readInt, Machine.readFloat] at h
         repeat' split at h
         all_goals first
           | contradiction
           | (cases h
              simp [Machine.sameFrame, Machine.setStack, BinaryReader.Seek, readInt_data,
                readFloat_data]))

theorem runLoop_sameFrame {host : Host} {script : SheepScript} :
    ∀ (fuel : Nat) {m m' : Machine}, runLoop host script fuel m = .ok m' → m.sameFrame m'
  | 0, _, _, h => by simp [runLoop] at h
  | fuel + 1, m, m', h => by
    unfold runLoop at h
    split at h
    · cases h
      exact sameFrame_refl _
    · dsimp only at h
      split at h
      · cases h
        simp [Machine.sameFrame, readUByte_data]
      · split at h
        · contradiction
        · rename_i m1 hstep
          have h0 : m.sameFrame { m with reader := (m.reader.ReadUByte).2 } := by
            simp [Machine.sameFrame, readUByte_data]
          exact sameFrame_trans h0
            (sameFrame_trans (execInstruction_sameFrame hstep) (runLoop_sameFrame fuel h))

/-! ### Unfolding of a call -/

theorem getThread_spec (vm : SheepVM) :
    ∃ thread, (vm.GetThread).2.mSheepThreads[(vm.GetThread).1]? = some thread ∧
      thread.mRunning = false ∧
      (vm.GetThread).2.mSheepInstances = vm.mSheepInstances ∧
      (vm.GetThread).2.mCurrentThread = vm.mCurrentThread ∧
      (vm.GetThread).2.mExecutionError = vm.mExecutionError ∧
      (vm.GetThread).2.invoked = vm.invoked := by
  unfold SheepVM.GetThread
  cases hf : vm.mSheepThreads.findIdx? (fun thread => !thread.mRunning) with
  | some i =>
    obtain ⟨a, hget, hp, -⟩ := findIdx?_some_spec hf
    exact ⟨a, by simpa using hget, by simpa using hp, rfl, rfl, rfl, rfl⟩
  | none =>
    exact ⟨{}, by simp, rfl, rfl, rfl, rfl, rfl⟩

theorem modify_eq_set_of_getElem? {α : Type} {l : List α} {i : Nat} {a : α} (f : α → α)
    (h : l[i]? = some a) : l.modify f i = l.set i (f a) := by
  rw [List.modify_eq_set_get? f i l, List.get?_eq_getElem?, h]
  rfl

theorem start_fields (thread : SheepThread) :
    thread.start.mContext = thread.mContext ∧ thread.start.mCodeOffset = thread.mCodeOffset ∧
    thread.start.mWaitCallback = thread.mWaitCallback ∧ thread.start.mStack = thread.mStack ∧
    thread.start.mWaitCounter = thread.mWaitCounter := by
  unfold SheepThread.start
  split
  · simp
  · split <;> simp

theorem finish_eq (vm : SheepVM) (cb : Option Nat) :
    vm.finish cb = { vm with invoked := vm.invoked ++ cb.toList } := by
  cases cb <;> simp [SheepVM.finish, SheepVM.call]

theorem executeInternal_run (host : Host) (fuel : Nat) {vm : SheepVM} {c : Nat} {off : Int}
    {name : String} {cb : Option Nat} {m0 m : Machine} {script : SheepScript}
    (hentry : vm.entryMachine c off name cb = some m0)
    (hs : m0.context.mSheepScript = some script)
    (hb : script.mBytecode ≠ none)
    (hrun : runLoop host script fuel m0 = .ok m) :
    vm.ExecuteInternal host fuel (some c) off name cb = .ok (some (vm.GetThread).1,
      { mSheepThreads := (vm.GetThread).2.mSheepThreads.set (vm.GetThread).1 m.exitThread,
        mSheepInstances := vm.mSheepInstances.set c
          (if m.exitThread.mRunning then m.context
           else { m.context with mReferenceCount := m.context.mReferenceCount - 1 }),
        mCurrentThread := vm.mCurrentThread,
        mExecutionError := m.mExecutionError,
        invoked := if m.exitThread.mRunning then vm.invoked
          else vm.invoked ++ m.exitThread.mWaitCallback.toList }) := by
  obtain ⟨thread0, hT, hrun0, hI, hC, hE, hV⟩ := getThread_spec vm
  unfold SheepVM.entryMachine at hentry
  rw [hT] at hentry
  rcases hg : vm.GetThread with ⟨t, vmT⟩
  simp only [hg] at hT hI hC hE hV hentry ⊢
  cases hctx : vm.mSheepInstances[c]? with
  | none => simp [hctx] at hentry
  | some context =>
    simp only [hctx] at hentry
    cases hsc : context.mSheepScript with
    | none => simp [hsc] at hentry
    | some script' =>
      simp only [hsc, Option.some.injEq] at hentry
      subst hentry
      simp only [hsc, Option.some.injEq] at hs
      subst hs
      obtain ⟨bytes, hbytes⟩ := Option.ne_none_iff_exists'.mp hb
      have hT' := modify_eq_set_of_getElem? (fun thread => thread.assign c off name cb) hT
      have hI' := modify_eq_set_of_getElem?
        (fun context : SheepInstance =>
          { context with mReferenceCount := context.mReferenceCount + 1 }) hctx
      have htl : t < vmT.mSheepThreads.length := by
        rcases Nat.lt_or_ge t vmT.mSheepThreads.length with h | h
        · exact h
        · rw [List.getElem?_eq_none h] at hT; cases hT
      have hcl : c < vm.mSheepInstances.length := by
        rcases Nat.lt_or_ge c vm.mSheepInstances.length with h | h
        · exact h
        · rw [List.getElem?_eq_none h] at hctx; cases hctx
      simp only [BinaryReader.new, hbytes] at hrun
      simp only [SheepVM.ExecuteInternal, hg, SheepVM.ExecuteInternalThread, SheepVM.retain, hT',
        hI, hI']
      simp only [List.getElem?_set_self htl, (start_fields _).1, SheepThread.assign,
        List.getElem?_set_self hcl, hbytes, BinaryReader.new, BinaryReader.OK,
        (start_fields _).2.1, hE, List.set_set, hsc]
      simp only [SheepThread.assign] at hrun
      simp only [Bool.not_true, Bool.false_eq_true, ↓reduceIte, hrun, SheepVM.finishRun,
        List.set_set, finish_eq, SheepVM.release]
      cases hr : m.exitThread.mRunning
      · simp [hC, hV, modify_eq_set_of_getElem? _ (List.getElem?_set_self hcl)]
      · simp [hC, hV]

/-! ### A call that runs to completion -/

theorem getInstance_spec {vm vm1 : SheepVM} {p : SheepScript} {c : Nat}
    (h : vm.GetInstance (some p) = (some c, vm1)) :
    ∃ ctx, vm1.mSheepInstances[c]? = some ctx ∧ ctx.mSheepScript = some p ∧
      (∀ old, vm.mSheepInstances[c]? = some old → ctx.mReferenceCount = old.mReferenceCount) ∧
      (vm.mSheepInstances[c]? = none → ctx.mReferenceCount = 0) ∧
      (∀ j, j ≠ c → vm1.mSheepInstances[j]? = vm.mSheepInstances[j]?) ∧
      vm1.mSheepThreads = vm.mSheepThreads ∧ vm1.mCurrentThread = vm.mCurrentThread ∧
      vm1.mExecutionError = vm.mExecutionError ∧ vm1.invoked = vm.invoked := by
  unfold SheepVM.GetInstance at h
  dsimp only at h
  cases hf : vm.mSheepInstances.findIdx? (fun inst => inst.mSheepScript == some p) with
  | some i =>
    simp only [hf, Prod.mk.injEq, Option.some.injEq] at h
    obtain ⟨rfl, rfl⟩ := h
    obtain ⟨a, hget, hp, -⟩ := findIdx?_some_spec hf
    refine ⟨a, hget, by simpa using hp, ?_, ?_, fun _ _ => rfl, rfl, rfl, rfl, rfl⟩
    · intro old hold
      rw [hget] at hold
      cases hold
      rfl
    · intro hn
      rw [hget] at hn
      cases hn
  | none =>
    simp only [hf] at h
    cases hz : vm.mSheepInstances.findIdx? (fun inst => inst.mReferenceCount == 0) with
    | some i =>
      simp only [hz, Prod.mk.injEq, Option.some.injEq] at h
      obtain ⟨rfl, rfl⟩ := h
      obtain ⟨a, hget, hp, -⟩ := findIdx?_some_spec hz
      refine ⟨a.rebind p, by simp [hget], rfl, ?_, ?_, ?_, rfl, rfl, rfl, rfl⟩
      · intro old hold
        rw [hget] at hold
        cases hold
        rfl
      · intro hn
        rw [hget] at hn
        cases hn
      · intro j hj
        simp [List.getElem?_modify_ne _ _ (Ne.symm hj)]
    | none =>
      simp only [hz, Prod.mk.injEq, Option.some.injEq] at h
      obtain ⟨rfl, rfl⟩ := h
      refine ⟨({} : SheepInstance).rebind p, by simp, rfl, ?_, fun _ => rfl, ?_, rfl, rfl, rfl,
        rfl⟩
      · intro old hold
        simp at hold
      · intro j hj
        rcases Nat.lt_or_gt_of_ne hj with hlt | hgt
        · simp [List.getElem?_append_left hlt]
        · have h1 : (vm.mSheepInstances ++ [({} : SheepInstance).rebind p]).length ≤ j := by
            simp; omega
          simp only []
          rw [List.getElem?_eq_none h1, List.getElem?_eq_none (by omega)]

/-- C2: a call of `Execute` on a script whose dispatch loop ends by `ReturnV` or by a
failed read (thread not running, or reader not OK, when the loop is left) returns with
the reference count of the bound context back at its value from before the call, one
less than during the run, with the thread used not running, and with the completion
callback, when there is one, invoked once. -/
theorem execute_finished_run_releases_context (host : Host) (fuel : Nat) (vm vm1 : SheepVM)
    (p : SheepScript) (bytecodeOffset : Int) (finishCallback : Option Nat) (c : Nat)
    (m0 m : Machine)
    (hinst : vm.GetInstance (some p) = (some c, vm1))
    (hbytes : p.mBytecode ≠ none)
    (hentry : vm1.entryMachine c bytecodeOffset "X$" finishCallback = some m0)
    (hrun : runLoop host p fuel m0 = .ok m)
    (hdone : m.thread.mRunning = false ∨ m.reader.OK = false) :
    ∃ vm' ctx thread,
      vm.Execute host fuel (some p) bytecodeOffset finishCallback = .ok vm' ∧
      vm'.mSheepInstances[c]? = some ctx ∧ ctx.mSheepScript = some p ∧
      (∀ old, vm.mSheepInstances[c]? = some old → ctx.mReferenceCount = old.mReferenceCount) ∧
      (vm.mSheepInstances[c]? = none → ctx.mReferenceCount = 0) ∧
      m0.context.mReferenceCount = ctx.mReferenceCount + 1 ∧
      vm'.mSheepThreads[(vm1.GetThread).1]? = some thread ∧ thread.mRunning = false ∧
      vm'.invoked = vm.invoked ++ finishCallback.toList := by
  obtain ⟨ctx1, hc1, hs1, hold, hnew, -, -, -, -, hinv⟩ := getInstance_spec hinst
  obtain ⟨thread0, hT, -, -, -, -, -⟩ := getThread_spec vm1
  have hm0 : m0.context.mSheepScript = some p ∧
      m0.context.mReferenceCount = ctx1.mReferenceCount + 1 ∧
      m0.thread.mWaitCallback = finishCallback := by
    unfold SheepVM.entryMachine at hentry
    simp only [hT, hc1, hs1, Option.some.injEq] at hentry
    subst hentry
    exact ⟨rfl, rfl, by simp [(start_fields _).2.2.1, SheepThread.assign]⟩
  obtain ⟨hfs, hfr, -, hfc, -⟩ := runLoop_sameFrame fuel hrun
  have hexit : m.exitThread.mRunning = false := by
    unfold Machine.exitThread
    rcases hdone with h | h
    · split <;> simp [h]
    · simp [h]
  have hcb : m.exitThread.mWaitCallback = finishCallback := by
    unfold Machine.exitThread
    split <;> simp [hfc, hm0.2.2]
  have htl : (vm1.GetThread).1 < (vm1.GetThread).2.mSheepThreads.length := by
    rcases Nat.lt_or_ge (vm1.GetThread).1 (vm1.GetThread).2.mSheepThreads.length with h | h
    · exact h
    · rw [List.getElem?_eq_none h] at hT; cases hT
  have hcl : c < vm1.mSheepInstances.length := by
    rcases Nat.lt_or_ge c vm1.mSheepInstances.length with h | h
    · exact h
    · rw [List.getElem?_eq_none h] at hc1; cases hc1
  refine ⟨
    { mSheepThreads := (vm1.GetThread).2.mSheepThreads.set (vm1.GetThread).1 m.exitThread,
      mSheepInstances := vm1.mSheepInstances.set c
        (if m.exitThread.mRunning then m.context
         else { m.context with mReferenceCount := m.context.mReferenceCount - 1 }),
      mCurrentThread := vm1.mCurrentThread,
      mExecutionError := m.mExecutionError,
      invoked := if m.exitThread.mRunning then vm1.invoked
        else vm1.invoked ++ m.exitThread.mWaitCallback.toList },
    { m.context with mReferenceCount := m.context.mReferenceCount - 1 }, m.exitThread,
    ?_, ?_, ?_, ?_, ?_, ?_, ?_, hexit, ?_⟩
  · simp only [SheepVM.Execute, SheepVM.ExecuteInternalScript, hinst,
      executeInternal_run host fuel hentry hm0.1 hbytes hrun]
  · simp [hexit, hcl]
  · simpa [hfs] using hm0.1
  · intro old ho
    simp only [hfr, hm0.2.1, hold old ho]
    omega
  · intro hn
    simp only [hfr, hm0.2.1, hnew hn]
    omega
  · simp only [hfr]
    omega
  · simp [htl]
  · simp [hexit, hcb, hinv]

theorem execute_finished_run_releases_context_witness :
    progPushOne.mBytecode ≠ none ∧
    ∃ vm' ctx thread,
      ({} : SheepVM).Execute Host.sample 10 (some progPushOne) 0 (some 5) = .ok vm' ∧
      vm'.mSheepInstances[0]? = some ctx ∧ ctx.mSheepScript = some progPushOne ∧
      (∀ old, ({} : SheepVM).mSheepInstances[0]? = some old →
        ctx.mReferenceCount = old.mReferenceCount) ∧
      (({} : SheepVM).mSheepInstances[0]? = none → ctx.mReferenceCount = 0) ∧
      (1 : Int) = ctx.mReferenceCount + 1 ∧
      vm'.mSheepThreads[0]? = some thread ∧ thread.mRunning = false ∧
      vm'.invoked = ({} : SheepVM).invoked ++ (some 5 : Option Nat).toList :=
  ⟨by decide,
   execute_finished_run_releases_context Host.sample 10 {}
    { mSheepInstances := [{ mSheepScript := some progPushOne }] } progPushOne 0 (some 5) 0
    { reader := { data := [18, 1, 0, 0, 0, 11], pos := 0, ok := true },
      thread := { mContext := some 0, mWaitCallback := some 5, mFunctionName := "X$",
                  mRunning := true },
      context := { mSheepScript := some progPushOne, mReferenceCount := 1 } }
    { reader := { data := [18, 1, 0, 0, 0, 11], pos := 6, ok := true },
      thread := { mContext := some 0, mWaitCallback := some 5, mFunctionName := "X$",
                  mRunning := false,
                  mStack := { mStack := [{ type := SheepValueType.Int, intValue := 1 }] } },
      context := { mSheepScript := some progPushOne, mReferenceCount := 1 },
      stopReading := true }
    (by decide) (by decide) (by decide) rfl (Or.inl rfl)⟩

/-! ### Stepping through instructions -/

theorem mem_all (i : SheepInstruction) : i ∈ SheepInstruction.all := by
  cases i <;> simp [SheepInstruction.all]

theorem decode_opcode {host : Host} (hinj : Function.Injective host.opcode)
    (i : SheepInstruction) : host.decode (host.opcode i) = some i := by
  unfold Host.decode
  cases h : SheepInstruction.all.find? (fun j => host.opcode j == host.opcode i) with
  | none =>
    have := List.find?_eq_none.mp h i (mem_all i)
    simp at this
  | some j =>
    have := List.find?_some h
    simp only [beq_iff_eq] at this
    rw [hinj this]

theorem wrap32_succ (a : Int) : wrap32 (wrap32 a + 1) = wrap32 (a + 1) := by
  unfold wrap32
  omega

theorem runLoop_step {host : Host} {script : SheepScript} {fuel : Nat} {m m1 : Machine}
    {byte : Nat} {r1 : BinaryReader} (ins : Option SheepInstruction)
    (hstop : m.stopReading = false)
    (hread : m.reader.ReadUByte = (byte, r1)) (hok : r1.ok = true)
    (hdec : host.decode byte = ins)
    (hexec : execInstruction host script { m with reader := r1 } ins = .ok m1) :
    runLoop host script (fuel + 1) m = runLoop host script fuel m1 := by
  rw [runLoop]
  simp only [hstop] at hexec
  simp only [hstop, hread, BinaryReader.OK, hok, hdec, hexec]
  simp

theorem runLoop_stopped {host : Host} {script : SheepScript} {fuel : Nat} {m : Machine}
    (hstop : m.stopReading = true) : runLoop host script (fuel + 1) m = .ok m := by
  rw [runLoop]
  simp [hstop]

theorem readUByte_at {r : BinaryReader} {k : Nat} {b : Nat} (hok : r.ok = true)
    (hpos : r.pos = (k : Int)) (hb : r.data[k]? = some b) (hlt : b < 256) :
    r.ReadUByte = (b, { r with pos := (k : Int) + 1 }) := by
  have hk : k < r.data.length := by
    rcases Nat.lt_or_ge k r.data.length with h | h
    · exact h
    · rw [List.getElem?_eq_none h] at hb; cases hb
  unfold BinaryReader.ReadUByte BinaryReader.byteAt
  have hc : r.ok = true ∧ 0 ≤ r.pos ∧ r.pos + 1 ≤ (r.data.length : Int) := by
    refine ⟨hok, by omega, by omega⟩
  rw [if_pos hc, hpos]
  simp [List.getD_eq_getElem?_getD, hb, Nat.mod_eq_of_lt hlt]

theorem readInt_at {r : BinaryReader} {k : Nat} (b0 b1 b2 b3 : Nat) (hok : r.ok = true)
    (hpos : r.pos = (k : Int))
    (h0 : r.data[k]? = some b0) (h1 : r.data[k + 1]? = some b1)
    (h2 : r.data[k + 2]? = some b2) (h3 : r.data[k + 3]? = some b3)
    (hl0 : b0 < 256) (hl1 : b1 < 256) (hl2 : b2 < 256) (hl3 : b3 < 256) :
    r.ReadInt = (wrap32 ((b0 + 256 * b1 + 65536 * b2 + 16777216 * b3 : Nat) : Int),
      { r with pos := (k : Int) + 4 }) := by
  have hk : k + 3 < r.data.length := by
    rcases Nat.lt_or_ge (k + 3) r.data.length with h | h
    · exact h
    · rw [List.getElem?_eq_none h] at h3; cases h3
  unfold BinaryReader.ReadInt BinaryReader.word BinaryReader.byteAt
  have hc : r.ok = true ∧ 0 ≤ r.pos ∧ r.pos + 4 ≤ (r.data.length : Int) := by
    refine ⟨hok, by omega, by omega⟩
  rw [if_pos hc, hpos]
  simp [List.getD_eq_getElem?_getD, h0, h1, h2, h3, Nat.mod_eq_of_lt hl0, Nat.mod_eq_of_lt hl1,
    Nat.mod_eq_of_lt hl2, Nat.mod_eq_of_lt hl3]

theorem exec_PushI {host : Host} {script : SheepScript} {m : Machine} {x : Int}
    {r1 : BinaryReader} (hread : m.reader.ReadInt = (x, r1)) :
    execInstruction host script m (some .PushI)
      = .ok { m with reader := r1,
                     thread := { m.thread with mStack := m.thread.mStack.PushInt x } } := by
  simp [execInstruction, Machine.readInt, hread, Machine.setStack]

theorem exec_LoadI {host : Host} {script : SheepScript} {m : Machine} {k : Nat}
    {r1 : BinaryReader} (slot : SheepValue) (hread : m.reader.ReadInt = ((k : Int), r1))
    (hslot : m.context.mVariables[k]? = some slot) (ht : slot.type = SheepValueType.Int) :
    execInstruction host script m (some .LoadI)
      = .ok { m with reader := r1,
                     thread := { m.thread with
                       mStack := m.thread.mStack.PushInt slot.intValue } } := by
  have hk : k < m.context.mVariables.length := by
    rcases Nat.lt_or_ge k m.context.mVariables.length with h | h
    · exact h
    · rw [List.getElem?_eq_none h] at hslot; cases hslot
  simp [execInstruction, Machine.load, Machine.readInt, hread, Machine.setStack, hk, hslot, ht]

theorem exec_StoreI {host : Host} {script : SheepScript} {m : Machine} {k : Nat}
    {r1 : BinaryReader} {value : SheepValue} (slot : SheepValue) (below : List SheepValue)
    (hread : m.reader.ReadInt = ((k : Int), r1))
    (hslot : m.context.mVariables[k]? = some slot) (ht : slot.type = SheepValueType.Int)
    (hstack : m.thread.mStack.mStack = value :: below) :
    execInstruction host script m (some .StoreI)
      = .ok { m with reader := r1,
                     thread := { m.thread with mStack := { mStack := below } },
                     context := { m.context with
                       mVariables := m.context.mVariables.set k
                         { slot with intValue := value.intValue } } } := by
  have hk : k < m.context.mVariables.length := by
    rcases Nat.lt_or_ge k m.context.mVariables.length with h | h
    · exact h
    · rw [List.getElem?_eq_none h] at hslot; cases hslot
  simp [execInstruction, Machine.store, Machine.readInt, hread, Machine.setStack, hk, hslot, ht,
    SheepStack.Pop, hstack, Machine.setVariables]

theorem intBinary_cons {m : Machine} {f : Int → Int → Except Fault Int}
    {v1 v2 : SheepValue} {below : List SheepValue}
    (hstack : m.thread.mStack.mStack = v2 :: v1 :: below) :
    m.intBinary f =
      match f v1.intValue v2.intValue with
      | .ok r => .ok (m.setStack (SheepStack.PushInt { mStack := below } r))
      | .error e => .error e := by
  have h1 : ¬ ((below.length : Int) + 1 + 1 < 2) := by omega
  have h2 : (2 : Int) ≤ (below.length : Int) + 1 + 1 := by omega
  simp [Machine.intBinary, SheepStack.Size, SheepStack.Peek, SheepStack.PopN, hstack, h1, h2]

theorem exec_AddI {host : Host} {script : SheepScript} {m : Machine}
    {v1 v2 : SheepValue} (below : List SheepValue)
    (hstack : m.thread.mStack.mStack = v2 :: v1 :: below) :
    execInstruction host script m (some .AddI)
      = .ok { m with thread := { m.thread with
                mStack := SheepStack.PushInt { mStack := below }
                  (wrap32 (v1.intValue + v2.intValue)) } } := by
  simp [execInstruction, intBinary_cons hstack, Machine.setStack]

theorem exec_ReturnV {host : Host} {script : SheepScript} {m : Machine} :
    execInstruction host script m (some .ReturnV)
      = .ok { m with thread := { m.thread with mRunning := false }, stopReading := true } := by
  simp [execInstruction]

theorem runLoop_counter {host : Host} (hinj : Function.Injective host.opcode)
    (hbyte : ∀ i, host.opcode i < 256) (p : SheepScript) (n : Nat) (th : SheepThread)
    (ctx : SheepInstance) (v0 : SheepValue) (rest : List SheepValue) (e : Bool)
    (hv : ctx.mVariables = v0 :: rest) (ht : v0.type = SheepValueType.Int) :
    runLoop host p (n + 6)
      { reader := { data := counterCode host, pos := 0, ok := true }, thread := th,
        context := ctx, stopReading := false, mExecutionError := e }
      = .ok
        { reader := { data := counterCode host, pos := 17, ok := true },
          thread := { th with mRunning := false },
          context := { ctx with
            mVariables := { v0 with intValue := wrap32 (v0.intValue + 1) } :: rest },
          stopReading := true, mExecutionError := e } := by
  have hslot : ctx.mVariables[0]? = some v0 := by simp [hv]
  rw [runLoop_step (some .LoadI) rfl
      (readUByte_at (k := 0) rfl rfl (by simp [counterCode]) (hbyte _)) rfl (decode_opcode hinj _)
      (exec_LoadI (k := 0) v0
        (readInt_at (k := 1) 0 0 0 0 rfl rfl
          (by simp [counterCode]) (by simp [counterCode]) (by simp [counterCode])
          (by simp [counterCode]) (by omega) (by omega) (by omega) (by omega))
        hslot ht)]
  rw [runLoop_step (some .PushI) rfl
      (readUByte_at (k := 5) rfl rfl (by simp [counterCode]) (hbyte _)) rfl (decode_opcode hinj _)
      (exec_PushI
        (readInt_at (k := 6) 1 0 0 0 rfl rfl
          (by simp [counterCode]) (by simp [counterCode]) (by simp [counterCode])
          (by simp [counterCode]) (by omega) (by omega) (by omega) (by omega)))]
  rw [runLoop_step (some .AddI) rfl
      (readUByte_at (k := 10) rfl rfl (by simp [counterCode]) (hbyte _)) rfl
      (decode_opcode hinj _)
      (exec_AddI th.mStack.mStack rfl)]
  rw [runLoop_step (some .StoreI) rfl
      (readUByte_at (k := 11) rfl rfl (by simp [counterCode]) (hbyte _)) rfl
      (decode_opcode hinj _)
      (exec_StoreI (k := 0) v0 th.mStack.mStack
        (readInt_at (k := 12) 0 0 0 0 rfl rfl
          (by simp [counterCode]) (by simp [counterCode]) (by simp [counterCode])
          (by simp [counterCode]) (by omega) (by omega) (by omega) (by omega))
        hslot ht rfl)]
  rw [runLoop_step (some .ReturnV) rfl
      (readUByte_at (k := 16) rfl rfl (by simp [counterCode]) (hbyte _)) rfl
      (decode_opcode hinj _) exec_ReturnV]
  rw [runLoop_stopped rfl]
  simp [hv, wrap32]

/-! ### Persistence of the variables of a context -/

theorem lt_length_of_getElem? {α : Type} {l : List α} {i : Nat} {a : α} (h : l[i]? = some a) :
    i < l.length := by
  rcases Nat.lt_or_ge i l.length with h1 | h1
  · exact h1
  · rw [List.getElem?_eq_none h1] at h; cases h

theorem findIdx?_eq_some_of {α : Type} {l : List α} {q : α → Bool} {c : Nat} {a : α}
    (hget : l[c]? = some a) (hq : q a = true)
    (hfirst : ∀ j b, j < c → l[j]? = some b → q b = false) : l.findIdx? q = some c := by
  rw [List.findIdx?_eq_some_iff_getElem]
  have hc := lt_length_of_getElem? hget
  refine ⟨hc, ?_, ?_⟩
  · rw [List.getElem?_eq_getElem hc] at hget
    cases hget
    exact hq
  · intro j hj
    have := hfirst j l[j] hj (List.getElem?_eq_getElem (Nat.lt_trans hj hc))
    simp [this]

theorem getInstance_of_findIdx {vm : SheepVM} {p : SheepScript} {c : Nat}
    (h : vm.mSheepInstances.findIdx? (fun inst => inst.mSheepScript == some p) = some c) :
    vm.GetInstance (some p) = (some c, vm) := by
  simp [SheepVM.GetInstance, h]

theorem getInstance_findIdx {vm vm1 : SheepVM} {p : SheepScript} {c : Nat}
    (h : vm.GetInstance (some p) = (some c, vm1)) :
    vm1.mSheepInstances.findIdx? (fun inst => inst.mSheepScript == some p) = some c := by
  unfold SheepVM.GetInstance at h
  dsimp only at h
  cases hf : vm.mSheepInstances.findIdx? (fun inst => inst.mSheepScript == some p) with
  | some i =>
    simp only [hf, Prod.mk.injEq, Option.some.injEq] at h
    obtain ⟨rfl, rfl⟩ := h
    exact hf
  | none =>
    have hnone := findIdx?_none_spec hf
    simp only [hf] at h
    cases hz : vm.mSheepInstances.findIdx? (fun inst => inst.mReferenceCount == 0) with
    | some i =>
      simp only [hz, Prod.mk.injEq, Option.some.injEq] at h
      obtain ⟨rfl, rfl⟩ := h
      obtain ⟨a, hget, -, -⟩ := findIdx?_some_spec hz
      refine findIdx?_eq_some_of (a := a.rebind p) (by simp [hget]) (by simp [SheepInstance.rebind])
        ?_
      intro j b hj hb
      rw [List.getElem?_modify_ne _ _ (Nat.ne_of_gt hj)] at hb
      exact hnone b (List.getElem?_mem hb)
    | none =>
      simp only [hz, Prod.mk.injEq, Option.some.injEq] at h
      obtain ⟨rfl, rfl⟩ := h
      refine findIdx?_eq_some_of (a := ({} : SheepInstance).rebind p) (by simp)
        (by simp [SheepInstance.rebind]) ?_
      intro j b hj hb
      rw [List.getElem?_append_left hj] at hb
      exact hnone b (List.getElem?_mem hb)

theorem execute_counter_once {host : Host} (hinj : Function.Injective host.opcode)
    (hbyte : ∀ i, host.opcode i < 256) {p : SheepScript}
    (hcode : p.mBytecode = some (counterCode host)) {vm : SheepVM} {c : Nat}
    {ctx : SheepInstance} {v0 : SheepValue} {rest : List SheepValue} (n : Nat) (cb : Option Nat)
    (hfind : vm.mSheepInstances.findIdx? (fun inst => inst.mSheepScript == some p) = some c)
    (hctx : vm.mSheepInstances[c]? = some ctx) (hv : ctx.mVariables = v0 :: rest)
    (ht : v0.type = SheepValueType.Int) :
    ∃ vm', vm.Execute host (n + 6) (some p) 0 cb = .ok vm' ∧
      vm'.mSheepInstances = vm.mSheepInstances.set c
        { ctx with mVariables := { v0 with intValue := wrap32 (v0.intValue + 1) } :: rest } := by
  obtain ⟨a, hget, hp, -⟩ := findIdx?_some_spec hfind
  rw [hctx] at hget
  cases hget
  have hs : ctx.mSheepScript = some p := by simpa using hp
  obtain ⟨thread0, hT, -, -, -, -, -⟩ := getThread_spec vm
  have hentry : vm.entryMachine c 0 "X$" cb = some
      { reader := { data := counterCode host, pos := 0, ok := true },
        thread := (thread0.assign c 0 "X$" cb).start,
        context := { ctx with mReferenceCount := ctx.mReferenceCount + 1 },
        stopReading := false, mExecutionError := vm.mExecutionError } := by
    simp [SheepVM.entryMachine, hT, hctx, hs, hcode, BinaryReader.new, BinaryReader.Skip]
  have hrun := runLoop_counter hinj hbyte p n (thread0.assign c 0 "X$" cb).start
    { ctx with mReferenceCount := ctx.mReferenceCount + 1 } v0 rest vm.mExecutionError hv ht
  have hex := executeInternal_run host (n + 6) hentry hs
    (by rw [hcode]; simp) hrun
  simp only [SheepVM.Execute, SheepVM.ExecuteInternalScript, getInstance_of_findIdx hfind, hex]
  refine ⟨_, rfl, ?_⟩
  simp [Machine.exitThread, BinaryReader.OK]

theorem wrap32_add_wrap32 (a b : Int) : wrap32 (wrap32 a + b) = wrap32 (a + b) := by
  unfold wrap32
  omega

theorem wrap32_idem (a : Int) : wrap32 (wrap32 a) = wrap32 a := by
  unfold wrap32
  omega

theorem executeTimes_counter {host : Host} (hinj : Function.Injective host.opcode)
    (hbyte : ∀ i, host.opcode i < 256) {p : SheepScript}
    (hcode : p.mBytecode = some (counterCode host)) (n : Nat) (cb : Option Nat) :
    ∀ (k : Nat) (vm : SheepVM) (c : Nat) (ctx : SheepInstance) (v0 : SheepValue)
      (rest : List SheepValue),
      vm.mSheepInstances.findIdx? (fun inst => inst.mSheepScript == some p) = some c →
      vm.mSheepInstances[c]? = some ctx → ctx.mVariables = v0 :: rest →
      v0.type = SheepValueType.Int → wrap32 v0.intValue = v0.intValue →
      ∃ vm' ctx', SheepVM.ExecuteTimes host (n + 6) (some p) 0 cb k vm = .ok vm' ∧
        vm'.mSheepInstances.findIdx? (fun inst => inst.mSheepScript == some p) = some c ∧
        vm'.mSheepInstances[c]? = some ctx' ∧
        ctx'.mVariables = { v0 with intValue := wrap32 (v0.intValue + k) } :: rest
  | 0, vm, c, ctx, v0, rest, hfind, hctx, hv, _, hx => by
    refine ⟨vm, ctx, rfl, hfind, hctx, ?_⟩
    simp [hx, hv]
  | k + 1, vm, c, ctx, v0, rest, hfind, hctx, hv, ht, _ => by
    obtain ⟨vm1, hex, hinst⟩ := execute_counter_once hinj hbyte hcode n cb hfind hctx hv ht
    obtain ⟨a, hget, hp, hfirst⟩ := findIdx?_some_spec hfind
    rw [hctx] at hget
    cases hget
    have hcl := lt_length_of_getElem? hctx
    have hfind1 : vm1.mSheepInstances.findIdx? (fun inst => inst.mSheepScript == some p)
        = some c := by
      rw [hinst]
      refine findIdx?_eq_some_of (List.getElem?_set_self hcl) (by simpa using hp) ?_
      intro j b hj hb
      rw [List.getElem?_set_ne (Nat.ne_of_gt hj)] at hb
      exact hfirst j b hj hb
    have hctx1 : vm1.mSheepInstances[c]? = some
        { ctx with mVariables := { v0 with intValue := wrap32 (v0.intValue + 1) } :: rest } := by
      rw [hinst]
      exact List.getElem?_set_self hcl
    obtain ⟨vm', ctx', hk, hf', hc', hv'⟩ := executeTimes_counter hinj hbyte hcode n cb k vm1 c _
      { v0 with intValue := wrap32 (v0.intValue + 1) } rest hfind1 hctx1 rfl ht
      (wrap32_idem _)
    refine ⟨vm', ctx', ?_, hf', hc', ?_⟩
    · simp only [SheepVM.ExecuteTimes, hex, hk]
    · rw [hv']
      simp only [wrap32_add_wrap32]
      have : v0.intValue + 1 + (k : Int) = v0.intValue + ((k + 1 : Nat) : Int) := by
        push_cast; ring
      rw [this]

theorem getInstance_fresh {vm : SheepVM} {p : SheepScript}
    (hfresh : ∀ inst ∈ vm.mSheepInstances, inst.mSheepScript ≠ some p) :
    ∃ c vm1 ctx, vm.GetInstance (some p) = (some c, vm1) ∧
      vm1.mSheepInstances[c]? = some ctx ∧ ctx.mVariables = p.GetVariables := by
  have hb : vm.mSheepInstances.findIdx? (fun inst => inst.mSheepScript == some p) = none := by
    rw [List.findIdx?_eq_none_iff]
    intro x hx
    simpa using hfresh x hx
  cases hz : vm.mSheepInstances.findIdx? (fun inst => inst.mReferenceCount == 0) with
  | some i =>
    obtain ⟨a, hget, -, -⟩ := findIdx?_some_spec hz
    exact ⟨i, { vm with
        mSheepInstances := vm.mSheepInstances.modify (fun context => context.rebind p) i },
      a.rebind p, by simp [SheepVM.GetInstance, hb, hz], by simp [hget], rfl⟩
  | none =>
    exact ⟨vm.mSheepInstances.length,
      { vm with mSheepInstances := vm.mSheepInstances ++ [({} : SheepInstance).rebind p] },
      ({} : SheepInstance).rebind p, by simp [SheepVM.GetInstance, hb, hz], by simp, rfl⟩

/-- C3: for a script whose first declared variable is an Int `counter` with default 0 and
whose code is `LoadI(counter); PushI(1); AddI; StoreI(counter); ReturnV`, `k ≥ 1`
successive calls of `Execute` on a machine in which the script has no context yet all
return, and leave `counter = k` (as a 32-bit value) in the context bound to the script;
after two calls the counter is 2. -/
theorem counter_persists_across_runs (host : Host) (hinj : Function.Injective host.opcode)
    (hbyte : ∀ i, host.opcode i < 256) (p : SheepScript) (counter : SheepValue)
    (rest : List SheepValue) (hcode : p.mBytecode = some (counterCode host))
    (hvars : p.mVariables = counter :: rest) (hty : counter.type = SheepValueType.Int)
    (hdef : counter.intValue = 0) (vm : SheepVM)
    (hfresh : ∀ inst ∈ vm.mSheepInstances, inst.mSheepScript ≠ some p)
    (fuel : Nat) (hfuel : 6 ≤ fuel) (cb : Option Nat) (k : Nat) (hk : 1 ≤ k) :
    ∃ vm' c ctx,
      SheepVM.ExecuteTimes host fuel (some p) 0 cb k vm = .ok vm' ∧
      vm'.GetInstance (some p) = (some c, vm') ∧
      vm'.mSheepInstances[c]? = some ctx ∧
      ctx.mVariables = { counter with intValue := wrap32 k } :: rest ∧
      wrap32 k % 4294967296 = (k : Int) % 4294967296 ∧
      (k = 2 → ctx.mVariables = { counter with intValue := 2 } :: rest) := by
  obtain ⟨c, vm1, ctx1, hinst, hc1, hv1⟩ := getInstance_fresh hfresh
  have hfind1 := getInstance_findIdx hinst
  obtain ⟨n, rfl⟩ : ∃ n, fuel = n + 6 := ⟨fuel - 6, by omega⟩
  obtain ⟨k', rfl⟩ : ∃ k', k = k' + 1 := ⟨k - 1, by omega⟩
  have hsame : vm.Execute host (n + 6) (some p) 0 cb = vm1.Execute host (n + 6) (some p) 0 cb := by
    simp only [SheepVM.Execute, SheepVM.ExecuteInternalScript, hinst,
      getInstance_of_findIdx hfind1]
  obtain ⟨vm', ctx', hex, hf', hc', hv'⟩ := executeTimes_counter hinj hbyte hcode n cb (k' + 1) vm1
    c ctx1 counter rest hfind1 hc1 (by rw [hv1, SheepScript.GetVariables, hvars]) hty
    (by rw [hdef]; rfl)
  have hval : ctx'.mVariables = { counter with intValue := wrap32 ((k' + 1 : Nat) : Int) } :: rest := by
    rw [hv', hdef]
    simp
  refine ⟨vm', c, ctx', ?_, getInstance_of_findIdx hf', hc', hval, ?_, ?_⟩
  · rw [SheepVM.ExecuteTimes, hsame]
    rw [SheepVM.ExecuteTimes] at hex
    exact hex
  · unfold wrap32
    omega
  · intro h2
    rw [hval, h2]
    rfl

theorem sample_opcode_injective : Function.Injective Host.sample.opcode := by
  intro a b h
  have key : ∀ i : SheepInstruction,
      SheepInstruction.all.getD (Host.sample.opcode i) SheepInstruction.SitnSpin = i := by
    intro i
    cases i <;> rfl
  rw [← key a, ← key b, h]

theorem sample_opcode_byte (i : SheepInstruction) : Host.sample.opcode i < 256 := by
  cases i <;> decide

theorem counter_persists_across_runs_witness :
    ∃ vm' c ctx,
      SheepVM.ExecuteTimes Host.sample 6 (some progCounter) 0 none 2 {} = .ok vm' ∧
      vm'.GetInstance (some progCounter) = (some c, vm') ∧
      vm'.mSheepInstances[c]? = some ctx ∧
      ctx.mVariables
        = [{ ({ type := SheepValueType.Int, intValue := 0 } : SheepValue) with
              intValue := wrap32 (2 : Nat) }] ∧
      wrap32 (2 : Nat) % 4294967296 = ((2 : Nat) : Int) % 4294967296 ∧
      (2 = 2 → ctx.mVariables
        = [{ ({ type := SheepValueType.Int, intValue := 0 } : SheepValue) with intValue := 2 }]) :=
  counter_persists_across_runs Host.sample sample_opcode_injective sample_opcode_byte progCounter
    { type := SheepValueType.Int, intValue := 0 } [] rfl rfl rfl rfl {} (by simp) 6 (by decide)
    none 2 (by decide)

/-! ### Contexts are bound to distinct scripts -/

theorem scripts_getElem? {vm : SheepVM} {i : Nat} {a : SheepInstance}
    (h : vm.mSheepInstances[i]? = some a) : vm.scripts[i]? = some a.mSheepScript := by
  simp [SheepVM.scripts, h]

theorem unique_of_scripts_eq {vm vm' : SheepVM} (hs : vm'.scripts = vm.scripts)
    (hu : vm.uniqueContexts) : vm'.uniqueContexts := by
  intro i j a b p hij ha hb hap hbp
  have h1 := scripts_getElem? ha
  have h2 := scripts_getElem? hb
  rw [hs] at h1 h2
  simp only [SheepVM.scripts, List.getElem?_map, Option.map_eq_some'] at h1 h2
  obtain ⟨a0, ha0, hsa⟩ := h1
  obtain ⟨b0, hb0, hsb⟩ := h2
  exact hu i j a0 b0 p hij ha0 hb0 (hsa.trans hap) (hsb.trans hbp)

theorem map_script_set {l : List SheepInstance} {c : Nat} {a a' : SheepInstance}
    (h : l[c]? = some a) (hs : a'.mSheepScript = a.mSheepScript) :
    (l.set c a').map (fun inst => inst.mSheepScript) = l.map (fun inst => inst.mSheepScript) := by
  apply List.ext_getElem?
  intro i
  by_cases hic : c = i
  · subst hic
    rw [List.getElem?_map, List.getElem?_map, List.getElem?_set_self (lt_length_of_getElem? h), h]
    simp [hs]
  · simp [List.getElem?_map, List.getElem?_set_ne hic]

theorem map_script_modify {l : List SheepInstance} {c : Nat} {f : SheepInstance → SheepInstance}
    (hf : ∀ a, (f a).mSheepScript = a.mSheepScript) :
    (l.modify f c).map (fun inst => inst.mSheepScript) = l.map (fun inst => inst.mSheepScript) := by
  apply List.ext_getElem?
  intro i
  by_cases hic : c = i
  · subst hic
    cases h : l[c]? <;> simp [List.getElem?_map, h, hf]
  · simp [List.getElem?_map, List.getElem?_modify_ne _ _ hic]

theorem executeInternalThread_scripts {host : Host} {fuel : Nat} {vm vm' : SheepVM} {t : Nat}
    (h : vm.ExecuteInternalThread host fuel t = .ok vm') : vm'.scripts = vm.scripts := by
  unfold SheepVM.ExecuteInternalThread at h
  dsimp only at h
  repeat' split at h
  all_goals first
    | contradiction
    | (cases h; rfl)
    | skip
  rename_i thread0 _ c _ context hctx _ script hscript _ _ m hrun
  cases h
  have hfr := runLoop_sameFrame fuel hrun
  have hms : m.context.mSheepScript = context.mSheepScript := hfr.1
  unfold SheepVM.finishRun SheepVM.scripts
  dsimp only
  split
  · simp only [finish_eq, SheepVM.release]
    rw [map_script_modify
      (f := fun context : SheepInstance =>
        { context with mReferenceCount := context.mReferenceCount - 1 }) (fun _ => rfl),
      map_script_set hctx hms]
  · rw [map_script_set hctx hms]

theorem getThread_instances (vm : SheepVM) :
    (vm.GetThread).2.mSheepInstances = vm.mSheepInstances := by
  unfold SheepVM.GetThread
  split <;> rfl

theorem executeInternal_scripts {host : Host} {fuel : Nat} {vm vm' : SheepVM} {inst : Option Nat}
    {off : Int} {name : String} {cb : Option Nat} {t : Option Nat}
    (h : vm.ExecuteInternal host fuel inst off name cb = .ok (t, vm')) :
    vm'.scripts = vm.scripts := by
  unfold SheepVM.ExecuteInternal at h
  cases inst with
  | none =>
    simp only [Except.ok.injEq, Prod.mk.injEq] at h
    rw [← h.2, finish_eq]
    rfl
  | some c =>
    dsimp only at h
    split at h
    · contradiction
    · rename_i vm4 h4
      simp only [Except.ok.injEq, Prod.mk.injEq] at h
      rw [← h.2, executeInternalThread_scripts h4]
      simp only [SheepVM.scripts, SheepVM.retain, getThread_instances]
      exact map_script_modify (fun _ => rfl)

theorem getInstance_cases {vm vm1 : SheepVM} {p : SheepScript} {c : Nat}
    (h : vm.GetInstance (some p) = (some c, vm1)) :
    vm1 = vm ∨
      ((∀ inst ∈ vm.mSheepInstances, inst.mSheepScript ≠ some p) ∧
        ∃ ctx, vm1.mSheepInstances[c]? = some ctx ∧ ctx.mSheepScript = some p ∧
          ∀ j, j ≠ c → vm1.mSheepInstances[j]? = vm.mSheepInstances[j]?) := by
  obtain ⟨ctx, hc, hs, -, -, hothers, -, -, -, -⟩ := getInstance_spec h
  unfold SheepVM.GetInstance at h
  dsimp only at h
  cases hf : vm.mSheepInstances.findIdx? (fun inst => inst.mSheepScript == some p) with
  | some i =>
    simp only [hf, Prod.mk.injEq, Option.some.injEq] at h
    exact Or.inl h.2.symm
  | none =>
    refine Or.inr ⟨?_, ctx, hc, hs, hothers⟩
    intro inst hmem
    simpa using findIdx?_none_spec hf inst hmem

theorem getInstance_unique {vm : SheepVM} (script : Option SheepScript)
    (hu : vm.uniqueContexts) : (vm.GetInstance script).2.uniqueContexts := by
  cases script with
  | none => exact hu
  | some p =>
    have hres : ∃ c, vm.GetInstance (some p) = (some c, (vm.GetInstance (some p)).2) := by
      unfold SheepVM.GetInstance
      dsimp only
      split
      · exact ⟨_, rfl⟩
      · split <;> exact ⟨_, rfl⟩
    obtain ⟨c, hc⟩ := hres
    rcases getInstance_cases hc with h | ⟨hfresh, ctx, hctx, hs, hothers⟩
    · rw [h]; exact hu
    · intro i j a b q hij ha hb haq hbq
      by_cases hi : i = c
      · subst hi
        rw [hctx] at ha
        cases ha
        rw [hs] at haq
        cases haq
        rw [hothers j (Ne.symm hij)] at hb
        exact hfresh b (List.getElem?_mem hb) hbq
      · rw [hothers i hi] at ha
        by_cases hj : j = c
        · subst hj
          rw [hctx] at hb
          cases hb
          rw [hs] at hbq
          cases hbq
          exact hfresh a (List.getElem?_mem ha) haq
        · rw [hothers j hj] at hb
          exact hu i j a b q hij ha hb haq hbq

theorem evaluate_scripts {host : Host} {fuel : Nat} {vm vm' : SheepVM}
    {script : Option SheepScript} {n v : Int} {b : Bool}
    (h : vm.Evaluate host fuel script n v = .ok (b, vm')) :
    vm'.scripts = (vm.GetInstance script).2.scripts := by
  unfold SheepVM.Evaluate at h
  dsimp only at h
  split at h
  · contradiction
  · rename_i c hinst
    split at h
    · contradiction
    · contradiction
    · rename_i t vm3 hex
      split at h
      · contradiction
      · split at h
        · contradiction
        · cases h
          have h3 := executeInternal_scripts hex
          simp only [SheepVM.scripts, SheepVM.seed] at h3 ⊢
          rw [h3]
          exact map_script_modify (fun _ => rfl)

theorem perform_unique {host : Host} {fuel : Nat} {vm vm' : SheepVM} {call : Call}
    (h : vm.perform host fuel call = .ok vm') (hu : vm.uniqueContexts) : vm'.uniqueContexts := by
  cases call with
  | getInstance script =>
    simp only [SheepVM.perform, Except.ok.injEq] at h
    rw [← h]
    exact getInstance_unique script hu
  | execute script off cb =>
    simp only [SheepVM.perform, SheepVM.Execute, SheepVM.ExecuteInternalScript] at h
    split at h
    · contradiction
    · rename_i t vm1 h1
      cases h
      exact unique_of_scripts_eq (executeInternal_scripts h1) (getInstance_unique script hu)
  | executeFunction script name cb =>
    cases script with
    | none =>
      simp only [SheepVM.perform, SheepVM.ExecuteFunction, Except.ok.injEq] at h
      rw [← h, finish_eq]
      exact hu
    | some s =>
      simp only [SheepVM.perform, SheepVM.ExecuteFunction] at h
      split at h
      · cases h
        rw [finish_eq]
        exact hu
      · simp only [SheepVM.ExecuteInternalScript] at h
        split at h
        · contradiction
        · rename_i t vm1 h1
          cases h
          exact unique_of_scripts_eq (executeInternal_scripts h1) (getInstance_unique (some s) hu)
  | evaluate script n v =>
    simp only [SheepVM.perform] at h
    split at h
    · contradiction
    · rename_i b vm1 hev
      cases h
      exact unique_of_scripts_eq (evaluate_scripts hev) (getInstance_unique script hu)

/-- C6: in every state reached from the empty machine by a sequence of `GetInstance`,
`Execute` and `Evaluate` calls, no two contexts of the pool are bound to the same
script. -/
theorem contexts_bound_to_distinct_scripts (host : Host) (calls : List (Nat × Call))
    (vm : SheepVM) (h : SheepVM.performAll host calls {} = .ok vm) : vm.uniqueContexts := by
  have key : ∀ (calls : List (Nat × Call)) (vm0 vm : SheepVM), vm0.uniqueContexts →
      SheepVM.performAll host calls vm0 = .ok vm → vm.uniqueContexts := by
    intro calls
    induction calls with
    | nil =>
      intro vm0 vm hu h
      simp only [SheepVM.performAll, Except.ok.injEq] at h
      rw [← h]
      exact hu
    | cons head rest ih =>
      intro vm0 vm hu h
      obtain ⟨fuel, call⟩ := head
      simp only [SheepVM.performAll] at h
      split at h
      · contradiction
      · rename_i vm1 h1
        exact ih vm1 vm (perform_unique h1 hu) h
  refine key calls {} vm ?_ h
  intro i j a b p _ ha
  simp at ha

theorem contexts_bound_to_distinct_scripts_witness :
    ∃ vm, SheepVM.performAll Host.sample sampleCalls {} = .ok vm ∧
      vm.mSheepInstances.length = 2 ∧ vm.uniqueContexts :=
  ⟨_, rfl, rfl, contexts_bound_to_distinct_scripts Host.sample sampleCalls _ rfl⟩

/-! ### Evaluate -/

theorem evaluateResult_nil (host : Host) (stack : SheepStack) (h : stack.mStack = []) :
    evaluateResult host stack = .ok (false, stack) := by
  simp [evaluateResult, SheepStack.Size, h]

theorem evaluateResult_cons (host : Host) (stack : SheepStack) (top : SheepValue)
    (below : List SheepValue) (h : stack.mStack = top :: below) :
    evaluateResult host stack = .ok (top.truth host, { mStack := below }) := by
  have h1 : ¬ ((below.length : Int) + 1 = 0) := by omega
  unfold evaluateResult SheepValue.truth
  simp only [SheepStack.Size, h, List.length_cons, Nat.cast_add, Nat.cast_one, h1, ↓reduceIte,
    SheepStack.Pop]
  split
  · rfl
  · split
    · rfl
    · split <;> rfl

theorem truth_iff (host : Host) (top : SheepValue) :
    top.truth host = true ↔
      (top.type = SheepValueType.Int ∧ top.intValue ≠ 0) ∨
      (top.type = SheepValueType.Float ∧ host.AreEqual top.floatValue 0 = false) ∨
      (top.type = SheepValueType.String ∧ top.stringValue.isEmpty = false) := by
  unfold SheepValue.truth
  cases ht : top.type <;> simp

/-- C8: when the run started by `Evaluate` on a script returns from the dispatch loop,
`Evaluate` returns, and its result is true exactly when the thread's stack at the end of
the run is non-empty with, on top, an Int with nonzero payload, a Float that is not
`AreEqual` to zero, or a String that is not empty; in particular it is false for an
empty stack. -/
theorem evaluate_reads_top_of_stack (host : Host) (fuel : Nat) (vm vm1 : SheepVM)
    (p : SheepScript) (n v : Int) (c : Nat) (m0 m : Machine)
    (hinst : vm.GetInstance (some p) = (some c, vm1))
    (hbytes : p.mBytecode ≠ none)
    (hentry : (vm1.seed c n v).entryMachine c 0 "X$" none = some m0)
    (hrun : runLoop host p fuel m0 = .ok m) :
    ∃ b vm', vm.Evaluate host fuel (some p) n v = .ok (b, vm') ∧
      (b = true ↔ ∃ top below, m.thread.mStack.mStack = top :: below ∧
        ((top.type = SheepValueType.Int ∧ top.intValue ≠ 0) ∨
         (top.type = SheepValueType.Float ∧ host.AreEqual top.floatValue 0 = false) ∨
         (top.type = SheepValueType.String ∧ top.stringValue.isEmpty = false))) ∧
      (m.thread.mStack.mStack = [] → b = false) := by
  obtain ⟨ctx1, hc1, hs1, -, -, -, -, -, -, -⟩ := getInstance_spec hinst
  obtain ⟨thread0, hT, -, -, -, -, -⟩ := getThread_spec (vm1.seed c n v)
  have hm0 : m0.context.mSheepScript = some p := by
    have hcs : (vm1.seed c n v).mSheepInstances[c]?
        = some { ctx1 with mVariables := seedVariables ctx1.mVariables n v } := by
      simp [SheepVM.seed, hc1]
    unfold SheepVM.entryMachine at hentry
    rw [hT, hcs] at hentry
    simp only [hs1, Option.some.injEq] at hentry
    subst hentry
    rfl
  have htl := lt_length_of_getElem? hT
  have hex := executeInternal_run host fuel hentry hm0 hbytes hrun
  have hstack : m.exitThread.mStack = m.thread.mStack := by
    unfold Machine.exitThread
    split <;> rfl
  unfold SheepVM.Evaluate
  simp only [hinst, hex, List.getElem?_set_self htl, hstack]
  cases hst : m.thread.mStack.mStack with
  | nil =>
    rw [evaluateResult_nil host _ hst]
    refine ⟨false, _, rfl, ?_, fun _ => rfl⟩
    simp
  | cons top below =>
    rw [evaluateResult_cons host _ top below hst]
    refine ⟨top.truth host, _, rfl, ?_, ?_⟩
    · rw [truth_iff]
      constructor
      · intro h
        exact ⟨top, below, rfl, h⟩
      · rintro ⟨top', below', heq, h⟩
        cases heq
        exact h
    · intro h
      cases h

theorem evaluate_reads_top_of_stack_witness :
    (({} : SheepVM).Evaluate Host.sample 10 (some progPushIntOne) 7 3).toOption.map Prod.fst
      = some true ∧
    (({} : SheepVM).Evaluate Host.sample 10 (some progPushIntZero) 7 3).toOption.map Prod.fst
      = some false ∧
    ∃ b vm', ({} : SheepVM).Evaluate Host.sample 10 (some progPushIntOne) 7 3 = .ok (b, vm') ∧
      (b = true ↔ ∃ top below,
        [({ type := SheepValueType.Int, intValue := 1 } : SheepValue)] = top :: below ∧
        ((top.type = SheepValueType.Int ∧ top.intValue ≠ 0) ∨
         (top.type = SheepValueType.Float ∧ Host.sample.AreEqual top.floatValue 0 = false) ∨
         (top.type = SheepValueType.String ∧ top.stringValue.isEmpty = false))) ∧
      ([({ type := SheepValueType.Int, intValue := 1 } : SheepValue)] = [] → b = false) :=
  ⟨by rfl, by rfl,
   evaluate_reads_top_of_stack Host.sample 10 {}
    { mSheepInstances := [{ mSheepScript := some progPushIntOne }] } progPushIntOne 7 3 0
    { reader := { data := [18, 1, 0, 0, 0], pos := 0, ok := true },
      thread := { mContext := some 0, mFunctionName := "X$", mRunning := true },
      context := { mSheepScript := some progPushIntOne, mReferenceCount := 1 } }
    { reader := { data := [18, 1, 0, 0, 0], pos := 5, ok := false },
      thread := { mContext := some 0, mFunctionName := "X$", mRunning := true,
                  mStack := { mStack := [{ type := SheepValueType.Int, intValue := 1 }] } },
      context := { mSheepScript := some progPushIntOne, mReferenceCount := 1 } }
    (by decide) (by decide) (by decide) rfl⟩

theorem seedVariables_spec (vars : List SheepValue) (n v : Int) :
    (seedVariables vars n v).length = vars.length ∧
    (∀ i : Nat, ((seedVariables vars n v)[i]?).map (fun s : SheepValue => s.type)
        = (vars[i]?).map (fun s : SheepValue => s.type)) ∧
    (∀ i : Nat, 2 ≤ i → (seedVariables vars n v)[i]? = vars[i]?) ∧
    (∀ slot, vars[0]? = some slot → (seedVariables vars n v)[0]?
        = some (if slot.type = SheepValueType.Int then { slot with intValue := n } else slot)) ∧
    (∀ slot, vars[1]? = some slot → (seedVariables vars n v)[1]?
        = some (if slot.type = SheepValueType.Int then { slot with intValue := v } else slot)) := by
  match vars with
  | [] => simp [seedVariables]
  | [a] =>
    by_cases ha : a.type = SheepValueType.Int
    · refine ⟨by simp [seedVariables, ha], ?_, ?_, ?_, ?_⟩
      · intro i
        cases i <;> simp [seedVariables, ha]
      · intro i hi
        obtain ⟨j, rfl⟩ : ∃ j, i = j + 2 := ⟨i - 2, by omega⟩
        simp [seedVariables, ha]
      · intro slot hs
        simp at hs
        subst hs
        simp [seedVariables, ha]
      · intro slot hs
        simp at hs
    · refine ⟨by simp [seedVariables, ha], ?_, ?_, ?_, ?_⟩
      · intro i
        cases i <;> simp [seedVariables, ha]
      · intro i hi
        obtain ⟨j, rfl⟩ : ∃ j, i = j + 2 := ⟨i - 2, by omega⟩
        simp [seedVariables, ha]
      · intro slot hs
        simp at hs
        subst hs
        simp [seedVariables, ha]
      · intro slot hs
        simp at hs
  | a :: b :: rest =>
    by_cases ha : a.type = SheepValueType.Int <;> by_cases hb : b.type = SheepValueType.Int
    all_goals
      refine ⟨by simp [seedVariables, ha, hb], ?_, ?_, ?_, ?_⟩
      · intro i
        match i with
        | 0 => simp [seedVariables, ha, hb]
        | 1 => simp [seedVariables, ha, hb]
        | j + 2 => simp [seedVariables, ha, hb]
      · intro i hi
        obtain ⟨j, rfl⟩ : ∃ j, i = j + 2 := ⟨i - 2, by omega⟩
        simp [seedVariables, ha, hb]
      · intro slot hs
        simp at hs
        subst hs
        simp [seedVariables, ha, hb]
      · intro slot hs
        simp at hs
        subst hs
        simp [seedVariables, ha, hb]

/-- C10: on the machine on which `Evaluate(script, n, v)` starts its run, the variables of
the context are those it had after `GetInstance` except that slot 0 holds `n` if it
exists and is of type Int, and slot 1 holds `v` if it exists and is of type Int, each
independently of the other; a slot that is not of type Int, every slot of index 2 or
more, the number of slots and every type tag are unchanged. -/
theorem evaluate_seeds_only_int_slots (vm vm1 : SheepVM) (p : SheepScript) (n v : Int) (c : Nat)
    (ctx : SheepInstance) (m0 : Machine)
    (hinst : vm.GetInstance (some p) = (some c, vm1))
    (hctx : vm1.mSheepInstances[c]? = some ctx)
    (hentry : (vm1.seed c n v).entryMachine c 0 "X$" none = some m0) :
    m0.context.mSheepScript = some p ∧
    m0.context.mVariables = seedVariables ctx.mVariables n v ∧
    m0.context.mVariables.length = ctx.mVariables.length ∧
    (∀ i : Nat, (m0.context.mVariables[i]?).map (fun s : SheepValue => s.type)
        = (ctx.mVariables[i]?).map (fun s : SheepValue => s.type)) ∧
    (∀ i : Nat, 2 ≤ i → m0.context.mVariables[i]? = ctx.mVariables[i]?) ∧
    (∀ slot, ctx.mVariables[0]? = some slot → m0.context.mVariables[0]?
        = some (if slot.type = SheepValueType.Int then { slot with intValue := n } else slot)) ∧
    (∀ slot, ctx.mVariables[1]? = some slot → m0.context.mVariables[1]?
        = some (if slot.type = SheepValueType.Int then { slot with intValue := v } else slot)) := by
  obtain ⟨ctx1, hc1, hs1, -, -, -, -, -, -, -⟩ := getInstance_spec hinst
  rw [hctx] at hc1
  cases hc1
  obtain ⟨thread0, hT, -, -, -, -, -⟩ := getThread_spec (vm1.seed c n v)
  have hcs : (vm1.seed c n v).mSheepInstances[c]?
      = some { ctx with mVariables := seedVariables ctx.mVariables n v } := by
    simp [SheepVM.seed, hctx]
  unfold SheepVM.entryMachine at hentry
  rw [hT, hcs] at hentry
  simp only [hs1, Option.some.injEq] at hentry
  subst hentry
  obtain ⟨h1, h2, h3, h4, h5⟩ := seedVariables_spec ctx.mVariables n v
  exact ⟨rfl, rfl, h1, h2, h3, h4, h5⟩

theorem evaluate_seeds_only_int_slots_witness :
    ∃ m0 : Machine,
      m0.context.mVariables
        = [{ type := SheepValueType.Float, floatValue := 5 },
           { type := SheepValueType.Int, intValue := 3 },
           { type := SheepValueType.Int, intValue := 9 }] ∧
      m0.context.mSheepScript = some progMixed ∧
      m0.context.mVariables = seedVariables progMixed.mVariables 7 3 ∧
      m0.context.mVariables.length = progMixed.mVariables.length ∧
      (∀ i : Nat, (m0.context.mVariables[i]?).map (fun s : SheepValue => s.type)
          = (progMixed.mVariables[i]?).map (fun s : SheepValue => s.type)) ∧
      (∀ i : Nat, 2 ≤ i → m0.context.mVariables[i]? = progMixed.mVariables[i]?) ∧
      (∀ slot, progMixed.mVariables[0]? = some slot → m0.context.mVariables[0]?
          = some (if slot.type = SheepValueType.Int then { slot with intValue := 7 } else slot)) ∧
      (∀ slot, progMixed.mVariables[1]? = some slot → m0.context.mVariables[1]?
          = some (if slot.type = SheepValueType.Int then { slot with intValue := 3 } else slot)) :=
  ⟨{ reader := { data := [11], pos := 0, ok := true },
     thread := { mContext := some 0, mFunctionName := "X$", mRunning := true },
     context := { mSheepScript := some progMixed,
                  mVariables := [{ type := SheepValueType.Float, floatValue := 5 },
                                 { type := SheepValueType.Int, intValue := 3 },
                                 { type := SheepValueType.Int, intValue := 9 }],
                  mReferenceCount := 1 } },
   rfl,
   evaluate_seeds_only_int_slots {}
    { mSheepInstances := [{ mSheepScript := some progMixed, mVariables := progMixed.mVariables }] }
    progMixed 7 3 0 { mSheepScript := some progMixed, mVariables := progMixed.mVariables } _
    (by decide) (by decide) (by decide)⟩

/-- C7: after `Execute` of `BeginWait; PushI(1); ReturnV` on the empty machine, the thread
with which the next call starts its dispatch loop is the recycled thread of that run: it
still holds the value 1 on its operand stack and its in-wait-block flag is still set. -/
theorem recycled_thread_keeps_stack_and_wait_flag :
    ∃ vm1 m0,
      ({} : SheepVM).Execute Host.sample 10 (some progWaitPush) 0 none = .ok vm1 ∧
      (vm1.GetInstance (some progReturn)).2.entryMachine 0 0 "X$" none = some m0 ∧
      m0.thread.mStack.mStack = [{ type := SheepValueType.Int, intValue := 1 }] ∧
      m0.thread.mInWaitBlock = true :=
  ⟨{ mSheepInstances := [{ mSheepScript := some progWaitPush }],
     mSheepThreads := [{ mContext := some 0, mCodeOffset := 7, mFunctionName := "X$",
                         mInWaitBlock := true,
                         mStack := { mStack := [{ type := SheepValueType.Int, intValue := 1 }] } }] },
   { reader := { data := [11], pos := 0, ok := true },
     thread := { mContext := some 0, mFunctionName := "X$", mRunning := true,
                 mInWaitBlock := true,
                 mStack := { mStack := [{ type := SheepValueType.Int, intValue := 1 }] } },
     context := { mSheepScript := some progReturn, mReferenceCount := 1 } },
   rfl, by decide, rfl, rfl⟩

/-- C9: after `Execute` of `PushI(1); ReturnV` on the empty machine, `Evaluate` of the
script `ReturnV`, which pushes nothing, returns true: it reads the value the earlier run
left on the recycled thread's stack. -/
theorem evaluate_of_empty_script_after_leftover_is_true :
    ∃ vm1 vm2,
      ({} : SheepVM).Execute Host.sample 10 (some progPushOne) 0 none = .ok vm1 ∧
      vm1.Evaluate Host.sample 10 (some progReturn) 7 3 = .ok (true, vm2) :=
  ⟨{ mSheepInstances := [{ mSheepScript := some progPushOne }],
     mSheepThreads := [{ mContext := some 0, mCodeOffset := 6, mFunctionName := "X$",
                         mStack := { mStack := [{ type := SheepValueType.Int, intValue := 1 }] } }] },
   { mSheepInstances := [{ mSheepScript := some progReturn }],
     mSheepThreads := [{ mContext := some 0, mCodeOffset := 1, mFunctionName := "X$" }] },
   rfl, rfl⟩

/-! ### Instruction sequences in the byte buffer -/

theorem getElem?_middle (pre code post : List Nat) {i : Nat} (h : i < code.length) :
    (pre ++ (code ++ post))[pre.length + i]? = code[i]? := by
  rw [List.getElem?_append_right (by omega)]
  simp [List.getElem?_append_left h]

theorem le32_word (x : Int) (hx : isInt32 x) :
    wrap32 (((x % 4294967296).toNat % 256 + 256 * ((x % 4294967296).toNat / 256 % 256)
      + 65536 * ((x % 4294967296).toNat / 65536 % 256)
      + 16777216 * ((x % 4294967296).toNat / 16777216 % 256) : Nat) : Int) = x := by
  obtain ⟨h1, h2⟩ := hx
  have hu : (x % 4294967296).toNat < 4294967296 := by omega
  have hsum : (x % 4294967296).toNat % 256 + 256 * ((x % 4294967296).toNat / 256 % 256)
      + 65536 * ((x % 4294967296).toNat / 65536 % 256)
      + 16777216 * ((x % 4294967296).toNat / 16777216 % 256) = (x % 4294967296).toNat := by
    omega
  rw [hsum]
  unfold wrap32
  omega

theorem pointsAt_readUByte {r : BinaryReader} {pre code post : List Nat} {b : Nat}
    (h : r.pointsAt pre (b :: code) post) (hb : b < 256) :
    r.ReadUByte = (b, { r with pos := r.pos + 1 }) ∧
      BinaryReader.pointsAt { r with pos := r.pos + 1 } (pre ++ [b]) code post := by
  obtain ⟨hok, hpos, hdata⟩ := h
  refine ⟨?_, hok, by simp [hpos], by simp [hdata]⟩
  have := readUByte_at (r := r) (k := pre.length) (b := b) hok hpos
    (by rw [hdata]; simpa using getElem?_middle pre (b :: code) post (i := 0) (by simp)) hb
  rw [this, hpos]

theorem pointsAt_readInt {r : BinaryReader} {pre code post : List Nat} {x : Int}
    (h : r.pointsAt pre (le32 x ++ code) post) (hx : isInt32 x) :
    r.ReadInt = (x, { r with pos := r.pos + 4 }) ∧
      BinaryReader.pointsAt { r with pos := r.pos + 4 } (pre ++ le32 x) code post := by
  obtain ⟨hok, hpos, hdata⟩ := h
  refine ⟨?_, hok, by simp [hpos, le32], by simp [hdata]⟩
  have hget : ∀ i : Nat, i < 4 → r.data[pre.length + i]? = (le32 x)[i]? := by
    intro i hi
    rw [hdata]
    have := getElem?_middle pre (le32 x ++ code) post (i := i) (by simp [le32]; omega)
    rw [this, List.getElem?_append_left (by simp [le32]; omega)]
  have h0 := hget 0 (by omega)
  have h1 := hget 1 (by omega)
  have h2 := hget 2 (by omega)
  have h3 := hget 3 (by omega)
  simp only [le32, Nat.add_zero, List.getElem?_cons_zero, List.getElem?_cons_succ] at h0 h1 h2 h3
  have := readInt_at (r := r) (k := pre.length) _ _ _ _ hok hpos h0 h1 h2 h3
    (Nat.mod_lt _ (by decide)) (Nat.mod_lt _ (by decide)) (Nat.mod_lt _ (by decide))
    (Nat.mod_lt _ (by decide))
  rw [this, le32_word x hx, hpos]

theorem loop_step {host : Host} (hinj : Function.Injective host.opcode)
    (hbyte : ∀ i, host.opcode i < 256) {script : SheepScript} {fuel : Nat} {m m1 : Machine}
    {pre code post : List Nat} (i : SheepInstruction)
    (hstop : m.stopReading = false)
    (hat : m.reader.pointsAt pre (host.opcode i :: code) post)
    (hexec : execInstruction host script
      { m with reader := { m.reader with pos := m.reader.pos + 1 } } (some i) = .ok m1) :
    runLoop host script (fuel + 1) m = runLoop host script fuel m1 :=
  runLoop_step (some i) hstop (pointsAt_readUByte hat (hbyte i)).1 hat.1 (decode_opcode hinj i)
    hexec

theorem loop_fault {host : Host} (hinj : Function.Injective host.opcode)
    (hbyte : ∀ i, host.opcode i < 256) {script : SheepScript} {fuel : Nat} {m : Machine}
    {pre code post : List Nat} {e : Fault} (i : SheepInstruction)
    (hstop : m.stopReading = false)
    (hat : m.reader.pointsAt pre (host.opcode i :: code) post)
    (hexec : execInstruction host script
      { m with reader := { m.reader with pos := m.reader.pos + 1 } } (some i) = .error e) :
    runLoop host script (fuel + 1) m = .error e := by
  rw [runLoop]
  simp only [hstop, (pointsAt_readUByte hat (hbyte i)).1, BinaryReader.OK, hat.1,
    decode_opcode hinj i] at hexec ⊢
  simp [hexec]

theorem pointsAt_op {r : BinaryReader} {pre code post : List Nat} (b : Nat)
    (h : r.pointsAt pre (b :: code) post) :
    BinaryReader.pointsAt { r with pos := r.pos + 1 } (pre ++ [b]) code post := by
  obtain ⟨hok, hpos, hdata⟩ := h
  exact ⟨hok, by simp [hpos], by simp [hdata]⟩

theorem pointsAt_opInt {host : Host} (i : SheepInstruction) (x : Int) {r : BinaryReader}
    {pre code post : List Nat} (h : r.pointsAt pre (host.opInt i x ++ code) post) :
    BinaryReader.pointsAt { r with pos := r.pos + 5 } (pre ++ host.opInt i x) code post := by
  obtain ⟨hok, hpos, hdata⟩ := h
  exact ⟨hok, by simp [hpos, Host.opInt, le32], by simp [hdata]⟩

theorem opInt_reads {host : Host} (i : SheepInstruction) {x : Int} (hx : isInt32 x)
    {r : BinaryReader} {pre code post : List Nat}
    (h : r.pointsAt pre (host.opInt i x ++ code) post) :
    BinaryReader.ReadInt { r with pos := r.pos + 1 } = (x, { r with pos := r.pos + 5 }) := by
  have h1 := pointsAt_op (host.opcode i)
    (show r.pointsAt pre (host.opcode i :: (le32 x ++ code)) post from h)
  rw [(pointsAt_readInt h1 hx).1]
  simp only [Prod.mk.injEq, BinaryReader.mk.injEq, true_and, and_true]
  omega

theorem loop_PushI {host : Host} (hinj : Function.Injective host.opcode)
    (hbyte : ∀ i, host.opcode i < 256) {script : SheepScript} {fuel : Nat} {m : Machine}
    {pre code post : List Nat} {x : Int} (hx : isInt32 x)
    (hstop : m.stopReading = false)
    (hat : m.reader.pointsAt pre (host.opInt .PushI x ++ code) post) :
    runLoop host script (fuel + 1) m = runLoop host script fuel
      { m with reader := { m.reader with pos := m.reader.pos + 5 },
               thread := { m.thread with mStack := m.thread.mStack.PushInt x } } :=
  loop_step hinj hbyte .PushI hstop hat (exec_PushI (opInt_reads .PushI hx hat))

theorem store_ok {m : Machine} {k : Nat} {r1 : BinaryReader} {value : SheepValue}
    (ty : SheepValueType) (write : SheepValue → SheepValue → SheepValue)
    (slot : SheepValue) (below : List SheepValue)
    (hread : m.reader.ReadInt = ((k : Int), r1))
    (hslot : m.context.mVariables[k]? = some slot) (ht : slot.type = ty)
    (hstack : m.thread.mStack.mStack = value :: below) :
    m.store ty write
      = .ok { m with reader := r1,
                     thread := { m.thread with mStack := { mStack := below } },
                     context := { m.context with
                       mVariables := m.context.mVariables.set k (write slot value) } } := by
  have hk := lt_length_of_getElem? hslot
  simp [Machine.store, Machine.readInt, hread, Machine.setStack, hk, hslot, ht,
    SheepStack.Pop, hstack, Machine.setVariables]

theorem load_ok {m : Machine} {k : Nat} {r1 : BinaryReader}
    (ty : SheepValueType) (push : SheepStack → SheepValue → SheepStack) (slot : SheepValue)
    (hread : m.reader.ReadInt = ((k : Int), r1))
    (hslot : m.context.mVariables[k]? = some slot) (ht : slot.type = ty) :
    m.load ty push
      = .ok { m with reader := r1,
                     thread := { m.thread with mStack := push m.thread.mStack slot } } := by
  have hk := lt_length_of_getElem? hslot
  simp [Machine.load, Machine.readInt, hread, Machine.setStack, hk, hslot, ht]

theorem pos_add_eq {r : BinaryReader} {a b : Int} (h : a = b) :
    ({ r with pos := a } : BinaryReader) = { r with pos := b } := by
  rw [h]

theorem loop_store_load {host : Host} (hinj : Function.Injective host.opcode)
    (hbyte : ∀ i, host.opcode i < 256) {script : SheepScript} {fuel : Nat} {m : Machine}
    {pre post : List Nat} {k : Nat} (hk : isInt32 k) (st ld : SheepInstruction)
    (ty : SheepValueType) (write : SheepValue → SheepValue → SheepValue)
    (push : SheepStack → SheepValue → SheepStack)
    (hst : ∀ m', execInstruction host script m' (some st) = m'.store ty write)
    (hld : ∀ m', execInstruction host script m' (some ld) = m'.load ty push)
    (hw : ∀ s v, (write s v).type = s.type)
    (slot top : SheepValue) (below : List SheepValue)
    (hstop : m.stopReading = false)
    (hslot : m.context.mVariables[k]? = some slot) (ht : slot.type = ty)
    (hstack : m.thread.mStack.mStack = top :: below)
    (hat : m.reader.pointsAt pre (host.opInt st k ++ host.opInt ld k) post) :
    runLoop host script (fuel + 2) m = runLoop host script fuel
      { m with reader := { m.reader with pos := m.reader.pos + 10 },
               thread := { m.thread with
                 mStack := push { mStack := below } (write slot top) },
               context := { m.context with
                 mVariables := m.context.mVariables.set k (write slot top) } } := by
  have hat1 : BinaryReader.pointsAt { m.reader with pos := m.reader.pos + 5 }
      (pre ++ host.opInt st k) (host.opInt ld k ++ []) post := by
    simpa using pointsAt_opInt st k hat
  have hslot' : (m.context.mVariables.set k (write slot top))[k]? = some (write slot top) :=
    List.getElem?_set_self (lt_length_of_getElem? hslot)
  rw [loop_step hinj hbyte st hstop hat
    ((hst _).trans (store_ok ty write slot below (opInt_reads st hk hat) hslot ht hstack))]
  rw [loop_step hinj hbyte ld
    (m := { m with
      reader := { m.reader with pos := m.reader.pos + 5 },
      thread := { m.thread with mStack := { mStack := below } },
      context := { m.context with
        mVariables := m.context.mVariables.set k (write slot top) } })
    hstop hat1
    ((hld _).trans (load_ok ty push (write slot top) (opInt_reads ld hk hat1) hslot'
      ((hw _ _).trans ht)))]
  congr 2
  exact pos_add_eq (by simp only; omega)

/-- C11: with a valid variable index `k` and a value on top of the stack, `StoreI(k)`
followed by `LoadI(k)` on an Int slot leaves the slot holding the Int payload of that
value, and the stack at the same depth with that payload on top as an Int and the slots
below untouched; the loop then goes on with the next instruction. The same holds for
`StoreF`/`LoadF` on a Float slot and `StoreS`/`LoadS` on a String slot. When the value on
top is an Int (Float, String) as the machine pushes it, the stack is exactly the one
from before the Store. -/
theorem store_then_load_round_trip (host : Host) (hinj : Function.Injective host.opcode)
    (hbyte : ∀ i, host.opcode i < 256) (script : SheepScript) (fuel : Nat) (m : Machine)
    (pre post : List Nat) (k : Nat) (hk : isInt32 k) (slot top : SheepValue)
    (below : List SheepValue)
    (hstop : m.stopReading = false)
    (hslot : m.context.mVariables[k]? = some slot)
    (hstack : m.thread.mStack.mStack = top :: below) :
    (slot.type = SheepValueType.Int →
      m.reader.pointsAt pre (host.opInt .StoreI k ++ host.opInt .LoadI k) post →
      runLoop host script (fuel + 2) m = runLoop host script fuel
        { m with reader := { m.reader with pos := m.reader.pos + 10 },
                 thread := { m.thread with
                   mStack := SheepStack.PushInt { mStack := below } top.intValue },
                 context := { m.context with
                   mVariables := m.context.mVariables.set k
                     { slot with intValue := top.intValue } } }) ∧
    (slot.type = SheepValueType.Float →
      m.reader.pointsAt pre (host.opInt .StoreF k ++ host.opInt .LoadF k) post →
      runLoop host script (fuel + 2) m = runLoop host script fuel
        { m with reader := { m.reader with pos := m.reader.pos + 10 },
                 thread := { m.thread with
                   mStack := SheepStack.PushFloat { mStack := below } top.floatValue },
                 context := { m.context with
                   mVariables := m.context.mVariables.set k
                     { slot with floatValue := top.floatValue } } }) ∧
    (slot.type = SheepValueType.String →
      m.reader.pointsAt pre (host.opInt .StoreS k ++ host.opInt .LoadS k) post →
      runLoop host script (fuel + 2) m = runLoop host script fuel
        { m with reader := { m.reader with pos := m.reader.pos + 10 },
                 thread := { m.thread with
                   mStack := SheepStack.PushString { mStack := below } top.stringValue },
                 context := { m.context with
                   mVariables := m.context.mVariables.set k
                     { slot with stringValue := top.stringValue } } }) ∧
    (top = { type := SheepValueType.Int, intValue := top.intValue } →
      SheepStack.PushInt { mStack := below } top.intValue = m.thread.mStack) ∧
    (top = { type := SheepValueType.Float, floatValue := top.floatValue } →
      SheepStack.PushFloat { mStack := below } top.floatValue = m.thread.mStack) ∧
    (top = { type := SheepValueType.String, stringValue := top.stringValue } →
      SheepStack.PushString { mStack := below } top.stringValue = m.thread.mStack) := by
  refine ⟨?_, ?_, ?_, ?_, ?_, ?_⟩
  · intro ht hat
    exact loop_store_load hinj hbyte hk .StoreI .LoadI SheepValueType.Int
      (fun slot value => { slot with intValue := value.intValue })
      (fun s slot => s.PushInt slot.intValue) (fun _ => rfl) (fun _ => rfl) (fun _ _ => rfl)
      slot top below hstop hslot ht hstack hat
  · intro ht hat
    exact loop_store_load hinj hbyte hk .StoreF .LoadF SheepValueType.Float
      (fun slot value => { slot with floatValue := value.floatValue })
      (fun s slot => s.PushFloat slot.floatValue) (fun _ => rfl) (fun _ => rfl)
      (fun _ _ => rfl) slot top below hstop hslot ht hstack hat
  · intro ht hat
    exact loop_store_load hinj hbyte hk .StoreS .LoadS SheepValueType.String
      (fun slot value => { slot with stringValue := value.stringValue })
      (fun s slot => s.PushString slot.stringValue) (fun _ => rfl) (fun _ => rfl)
      (fun _ _ => rfl) slot top below hstop hslot ht hstack hat
  · intro h
    cases hm : m.thread.mStack with
    | mk l =>
      rw [hm] at hstack
      simp only at hstack
      rw [hstack, SheepStack.PushInt, ← h]
  · intro h
    cases hm : m.thread.mStack with
    | mk l =>
      rw [hm] at hstack
      simp only at hstack
      rw [hstack, SheepStack.PushFloat, ← h]
  · intro h
    cases hm : m.thread.mStack with
    | mk l =>
      rw [hm] at hstack
      simp only at hstack
      rw [hstack, SheepStack.PushString, ← h]

theorem store_then_load_round_trip_witness :
    runLoop Host.sample progReturn (1 + 2) machineStoreLoad = runLoop Host.sample progReturn 1
      { machineStoreLoad with
        reader := { machineStoreLoad.reader with pos := 10 },
        context := { machineStoreLoad.context with
          mVariables := [{ type := SheepValueType.Int, intValue := 7 }] } } :=
  (store_then_load_round_trip Host.sample sample_opcode_injective sample_opcode_byte progReturn 1
    machineStoreLoad [] [] 0 ⟨by decide, by decide⟩ { type := SheepValueType.Int, intValue := 0 }
    { type := SheepValueType.Int, intValue := 7 } [] rfl rfl rfl).1 rfl ⟨rfl, rfl, rfl⟩

theorem exec_DivideI {host : Host} {script : SheepScript} {m : Machine}
    {v1 v2 : SheepValue} (below : List SheepValue)
    (hstack : m.thread.mStack.mStack = v2 :: v1 :: below) :
    execInstruction host script m (some .DivideI)
      = match (if v2.intValue ≠ 0 then divInt v1.intValue v2.intValue else .ok 0) with
        | .ok r => .ok (m.setStack (SheepStack.PushInt { mStack := below } r))
        | .error e => .error e := by
  simp only [execInstruction, intBinary_cons hstack]

theorem exec_Modulo {host : Host} {script : SheepScript} {m : Machine}
    {v1 v2 : SheepValue} (below : List SheepValue)
    (hstack : m.thread.mStack.mStack = v2 :: v1 :: below) :
    execInstruction host script m (some .Modulo)
      = match modInt v1.intValue v2.intValue with
        | .ok r => .ok (m.setStack (SheepStack.PushInt { mStack := below } r))
        | .error e => .error e := by
  simp only [execInstruction, intBinary_cons hstack]

theorem exec_DivideI_zero {host : Host} {script : SheepScript} {m : Machine}
    {v1 v2 : SheepValue} (below : List SheepValue)
    (hstack : m.thread.mStack.mStack = v2 :: v1 :: below) (hz : v2.intValue = 0) :
    execInstruction host script m (some .DivideI)
      = .ok { m with thread := { m.thread with
                mStack := SheepStack.PushInt { mStack := below } 0 } } := by
  simp [exec_DivideI below hstack, hz, Machine.setStack]

/-- C12: for every Int `a`, the sequence `PushI(a); PushI(0); DivideI` leaves the stack one
deeper than before with Int 0 on top, changes nothing else of the thread (it is still
running) or of the context, and the loop goes on with the instruction that follows
`DivideI`. -/
theorem divide_by_zero_pushes_zero (host : Host) (hinj : Function.Injective host.opcode)
    (hbyte : ∀ i, host.opcode i < 256) (script : SheepScript) (fuel : Nat) (m : Machine)
    (pre post : List Nat) (a : Int) (ha : isInt32 a)
    (hstop : m.stopReading = false)
    (hat : m.reader.pointsAt pre
      (host.opInt .PushI a ++ (host.opInt .PushI 0 ++ host.op .DivideI)) post) :
    runLoop host script (fuel + 3) m = runLoop host script fuel
        { m with reader := { m.reader with pos := m.reader.pos + 11 },
                 thread := { m.thread with mStack := m.thread.mStack.PushInt 0 } } ∧
      BinaryReader.pointsAt { m.reader with pos := m.reader.pos + 11 }
        (pre ++ host.opInt .PushI a ++ host.opInt .PushI 0 ++ host.op .DivideI) [] post := by
  have h0 : isInt32 0 := ⟨by decide, by decide⟩
  have hat1 := pointsAt_opInt .PushI a hat
  have hat2 := pointsAt_opInt .PushI 0 hat1
  have hat3 := pointsAt_op (host.opcode .DivideI) hat2
  refine ⟨?_, ?_⟩
  · rw [loop_PushI hinj hbyte ha hstop hat]
    rw [loop_PushI hinj hbyte h0
      (m := { m with reader := { m.reader with pos := m.reader.pos + 5 },
                     thread := { m.thread with mStack := m.thread.mStack.PushInt a } })
      hstop hat1]
    rw [loop_step hinj hbyte .DivideI
      (m := { m with reader := { m.reader with pos := m.reader.pos + 5 + 5 },
                     thread := { m.thread with
                       mStack := (m.thread.mStack.PushInt a).PushInt 0 } })
      hstop hat2 (exec_DivideI_zero m.thread.mStack.mStack rfl rfl)]
    congr 2
    exact pos_add_eq (by simp only; omega)
  · have h : m.reader.pos + 5 + 5 + 1
        = ((pre ++ host.opInt .PushI a ++ host.opInt .PushI 0 ++
            [host.opcode .DivideI]).length : Int) := hat3.2.1
    refine ⟨hat3.1, ?_, hat3.2.2⟩
    show m.reader.pos + 11 = _
    unfold Host.op
    omega

theorem divide_by_zero_pushes_zero_witness :
    runLoop Host.sample progReturn (1 + 3) machineDivide = runLoop Host.sample progReturn 1
        { machineDivide with
          reader := { machineDivide.reader with pos := machineDivide.reader.pos + 11 },
          thread := { machineDivide.thread with
            mStack := machineDivide.thread.mStack.PushInt 0 } } ∧
      BinaryReader.pointsAt
        { machineDivide.reader with pos := machineDivide.reader.pos + 11 }
        ([] ++ Host.sample.opInt .PushI 5 ++ Host.sample.opInt .PushI 0
          ++ Host.sample.op .DivideI) [] [] :=
  divide_by_zero_pushes_zero Host.sample sample_opcode_injective sample_opcode_byte progReturn 1
    machineDivide [] [] 5 ⟨by decide, by decide⟩ rfl ⟨rfl, rfl, rfl⟩

/-- C13: `Execute` of `PushI(5); PushI(0); Modulo; ReturnV` does not return a state: the
`Modulo` case evaluates `int1 % int2` with a zero divisor, which C++ leaves undefined,
where the `DivideI` case tests the divisor and pushes 0. -/
theorem modulo_by_zero_is_undefined :
    ({} : SheepVM).Execute Host.sample 10 (some progModuloZero) 0 none
      = .error Fault.undefinedBehaviour := rfl

theorem exec_BeginWait {host : Host} {script : SheepScript} {m : Machine} :
    execInstruction host script m (some .BeginWait)
      = .ok { m with thread := { m.thread with mInWaitBlock := true } } := rfl

theorem exec_EndWait_through {host : Host} {script : SheepScript} {m : Machine}
    (h : m.thread.mWaitCounter ≤ 0) :
    execInstruction host script m (some .EndWait)
      = .ok { m with thread := { m.thread with mInWaitBlock := false } } := by
  have h' : ¬ (m.thread.mWaitCounter > 0) := by omega
  simp [execInstruction, h']

theorem exec_EndWait_block {host : Host} {script : SheepScript} {m : Machine}
    (h : m.thread.mWaitCounter > 0) :
    execInstruction host script m (some .EndWait)
      = .ok { m with thread := { m.thread with mBlocked := true }, stopReading := true } := by
  simp [execInstruction, h]

/-- C14: the counterexample. A thread that is running, blocked, outside a wait block and
with pending-wait counter zero is driven over `BeginWait; EndWait; Yield`: the head of
`ExecuteInternal` leaves the blocked flag as it is, `EndWait` falls through, and the thread
comes out suspended at the `Yield` with blocked still true and in-wait-block false. The
same holds for the loop alone. -/
theorem blocked_thread_stays_blocked_over_empty_wait_block :
    vmBlockedFree.mSheepThreads
      = [{ mContext := some 0, mRunning := true, mBlocked := true, mInWaitBlock := false,
           mWaitCounter := 0 }] ∧
    vmBlockedFree.ExecuteInternalThread Host.sample 10 0
      = .ok { vmBlockedFree with
              mSheepThreads := [{ mContext := some 0, mCodeOffset := 3, mRunning := true,
                                  mBlocked := true, mInWaitBlock := false,
                                  mWaitCounter := 0 }] } ∧
    runLoop Host.sample progWaitPair 10 machineWaitBlocked
      = .ok { machineWaitBlocked with
              reader := { machineWaitBlocked.reader with pos := 3 },
              thread := { mRunning := true, mBlocked := true, mInWaitBlock := false,
                          mWaitCounter := 0 },
              stopReading := true } :=
  ⟨rfl, rfl, rfl⟩

/-- C14: for every thread whose pending-wait counter is zero, `BeginWait` immediately
followed by `EndWait` leaves in-wait-block false and the blocked flag as it was before the
pair (so false for a thread that was not blocked), does not stop the loop and changes
neither the stack nor the variables: the loop goes on with the instruction after
`EndWait`. -/
theorem empty_wait_block_clears_only_in_wait_block (host : Host)
    (hinj : Function.Injective host.opcode)
    (hbyte : ∀ i, host.opcode i < 256) (script : SheepScript) (fuel : Nat) (m : Machine)
    (pre post : List Nat)
    (hstop : m.stopReading = false)
    (hcount : m.thread.mWaitCounter = 0)
    (hat : m.reader.pointsAt pre (host.op .BeginWait ++ host.op .EndWait) post) :
    runLoop host script (fuel + 2) m = runLoop host script fuel
        { m with reader := { m.reader with pos := m.reader.pos + 2 },
                 thread := { m.thread with mInWaitBlock := false },
                 stopReading := false } ∧
      (m.thread.mBlocked = false →
        runLoop host script (fuel + 2) m = runLoop host script fuel
          { m with reader := { m.reader with pos := m.reader.pos + 2 },
                   thread := { m.thread with mBlocked := false, mInWaitBlock := false },
                   stopReading := false }) ∧
      BinaryReader.pointsAt { m.reader with pos := m.reader.pos + 2 }
        (pre ++ host.op .BeginWait ++ host.op .EndWait) [] post := by
  have hat1 := pointsAt_op (host.opcode .BeginWait) hat
  have hat2 := pointsAt_op (host.opcode .EndWait) hat1
  have hrun : runLoop host script (fuel + 2) m = runLoop host script fuel
      { m with reader := { m.reader with pos := m.reader.pos + 2 },
               thread := { m.thread with mInWaitBlock := false },
               stopReading := false } := by
    rw [loop_step hinj hbyte .BeginWait hstop hat exec_BeginWait]
    rw [loop_step hinj hbyte .EndWait
      (m := { m with reader := { m.reader with pos := m.reader.pos + 1 },
                     thread := { m.thread with mInWaitBlock := true } })
      hstop hat1 (exec_EndWait_through (by simp [hcount]))]
    congr 1
    simp only [Machine.mk.injEq, true_and, and_true, hstop]
    exact pos_add_eq (by omega)
  refine ⟨hrun, ?_, ?_⟩
  · intro hnb
    rw [hrun]
    congr 2
    simp [← hnb]
  · have h : m.reader.pos + 1 + 1
        = ((pre ++ [host.opcode .BeginWait] ++ [host.opcode .EndWait]).length : Int) :=
      hat2.2.1
    refine ⟨hat2.1, ?_, hat2.2.2⟩
    show m.reader.pos + 2 = _
    unfold Host.op
    omega

theorem empty_wait_block_clears_only_in_wait_block_witness :
    runLoop Host.sample progReturn (1 + 2) machineWait = runLoop Host.sample progReturn 1
        { machineWait with
          reader := { machineWait.reader with pos := machineWait.reader.pos + 2 },
          thread := { machineWait.thread with mInWaitBlock := false },
          stopReading := false } ∧
      (machineWait.thread.mBlocked = false →
        runLoop Host.sample progReturn (1 + 2) machineWait
          = runLoop Host.sample progReturn 1
            { machineWait with
              reader := { machineWait.reader with pos := machineWait.reader.pos + 2 },
              thread := { machineWait.thread with mBlocked := false, mInWaitBlock := false },
              stopReading := false }) ∧
      BinaryReader.pointsAt { machineWait.reader with pos := machineWait.reader.pos + 2 }
        ([] ++ Host.sample.op .BeginWait ++ Host.sample.op .EndWait) [] [] :=
  empty_wait_block_clears_only_in_wait_block Host.sample sample_opcode_injective
    sample_opcode_byte progReturn 1 machineWait [] [] rfl rfl ⟨rfl, rfl, rfl⟩

/-! ### Branches -/

theorem exec_Branch {host : Host} {script : SheepScript} {m : Machine} {x : Int}
    {r : BinaryReader} (hread : m.reader.ReadInt = (x, r)) :
    execInstruction host script m (some .Branch)
      = .ok { m with reader := { r with pos := x } } := by
  simp [execInstruction, Machine.readInt, hread, BinaryReader.Seek]

theorem exec_BranchGoto {host : Host} {script : SheepScript} {m : Machine} {x : Int}
    {r : BinaryReader} (hread : m.reader.ReadInt = (x, r)) :
    execInstruction host script m (some .BranchGoto)
      = .ok { m with reader := { r with pos := x } } := by
  simp [execInstruction, Machine.readInt, hread, BinaryReader.Seek]

theorem exec_BranchIfZero {host : Host} {script : SheepScript} {m : Machine} {x : Int}
    {r : BinaryReader} {top : SheepValue} (below : List SheepValue)
    (hread : m.reader.ReadInt = (x, r)) (hstack : m.thread.mStack.mStack = top :: below) :
    execInstruction host script m (some .BranchIfZero)
      = .ok { m with reader := { r with pos := if top.intValue = 0 then x else r.pos },
                     thread := { m.thread with mStack := { mStack := below } } } := by
  by_cases hz : top.intValue = 0 <;>
    simp [execInstruction, Machine.readInt, hread, BinaryReader.Seek, SheepStack.Pop, hstack,
      Machine.setStack, hz]

/-- C18: with the opcode of `BranchIfZero` at cursor position `p` followed by the 4-byte
operand `A`, and a stack with at least one value, the instruction removes exactly the top
value and leaves the cursor at `A` if the Int payload of that value is zero and at `p + 5`
otherwise; the rest of the stack, the variables and the flags are unchanged and the loop
goes on from there. -/
theorem branchIfZero_consumes_operand_and_pops (host : Host)
    (hinj : Function.Injective host.opcode) (hbyte : ∀ i, host.opcode i < 256)
    (script : SheepScript) (fuel : Nat) (m : Machine) (pre code post : List Nat) (A : Int)
    (hA : isInt32 A) (top : SheepValue) (below : List SheepValue)
    (hstop : m.stopReading = false)
    (hstack : m.thread.mStack.mStack = top :: below)
    (hat : m.reader.pointsAt pre (host.opInt .BranchIfZero A ++ code) post) :
    runLoop host script (fuel + 1) m = runLoop host script fuel
        { m with reader := { m.reader with
                   pos := if top.intValue = 0 then A else m.reader.pos + 5 },
                 thread := { m.thread with mStack := { mStack := below } } } := by
  rw [loop_step hinj hbyte .BranchIfZero hstop hat
    (exec_BranchIfZero below (opInt_reads .BranchIfZero hA hat) hstack)]

theorem branchIfZero_consumes_operand_and_pops_witness :
    runLoop Host.sample progReturn (1 + 1) machineBranchIfZero
      = runLoop Host.sample progReturn 1
        { machineBranchIfZero with
          reader := { machineBranchIfZero.reader with
            pos := if (0 : Int) = 0 then 9 else machineBranchIfZero.reader.pos + 5 },
          thread := { machineBranchIfZero.thread with
            mStack := { mStack := [{ type := SheepValueType.Int, intValue := 4 }] } } } :=
  branchIfZero_consumes_operand_and_pops Host.sample sample_opcode_injective sample_opcode_byte
    progReturn 1 machineBranchIfZero [] [11] [] 9 ⟨by decide, by decide⟩
    { type := SheepValueType.Int, intValue := 0 }
    [{ type := SheepValueType.Int, intValue := 4 }] rfl rfl ⟨rfl, rfl, rfl⟩

/-- C19: `Branch` and `BranchGoto` with the 4-byte operand `A` leave the cursor at the
absolute offset `A`, whatever the position of the instruction; stack, variables and flags
are unchanged and the loop goes on from there. -/
theorem branch_moves_cursor_to_operand (host : Host) (hinj : Function.Injective host.opcode)
    (hbyte : ∀ i, host.opcode i < 256) (script : SheepScript) (fuel : Nat) (m : Machine)
    (pre code post : List Nat) (A : Int) (hA : isInt32 A)
    (hstop : m.stopReading = false) :
    (m.reader.pointsAt pre (host.opInt .Branch A ++ code) post →
      runLoop host script (fuel + 1) m = runLoop host script fuel
        { m with reader := { m.reader with pos := A } }) ∧
    (m.reader.pointsAt pre (host.opInt .BranchGoto A ++ code) post →
      runLoop host script (fuel + 1) m = runLoop host script fuel
        { m with reader := { m.reader with pos := A } }) := by
  refine ⟨?_, ?_⟩
  · intro hat
    have h : execInstruction host script
        { m with reader := { m.reader with pos := m.reader.pos + 1 } } (some .Branch)
          = .ok { m with reader := { m.reader with pos := A } } :=
      exec_Branch (r := { m.reader with pos := m.reader.pos + 5 }) (opInt_reads .Branch hA hat)
    exact loop_step hinj hbyte .Branch hstop hat h
  · intro hat
    have h : execInstruction host script
        { m with reader := { m.reader with pos := m.reader.pos + 1 } } (some .BranchGoto)
          = .ok { m with reader := { m.reader with pos := A } } :=
      exec_BranchGoto (r := { m.reader with pos := m.reader.pos + 5 }) (opInt_reads .BranchGoto hA hat)
    exact loop_step hinj hbyte .BranchGoto hstop hat h

theorem branch_moves_cursor_to_operand_witness :
    runLoop Host.sample progReturn (1 + 1) machineBranch = runLoop Host.sample progReturn 1
      { machineBranch with reader := { machineBranch.reader with pos := 6 } } :=
  (branch_moves_cursor_to_operand Host.sample sample_opcode_injective sample_opcode_byte
    progReturn 1 machineBranch [] [0, 11] [] 6 ⟨by decide, by decide⟩ rfl).1 ⟨rfl, rfl, rfl⟩

/-! ### Independence of the saved code offset -/

theorem intBinary_atOffset (x : Int) (m : Machine) (f : Int → Int → Except Fault Int) :
    (m.atOffset x).intBinary f = (m.intBinary f).map (Machine.atOffset x) := by
  unfold Machine.intBinary
  simp only [Machine.atOffset]
  split
  · rfl
  · split
    · split <;> rfl
    · rfl

theorem floatBinary_atOffset (x : Int) (m : Machine) (f : Nat → Nat → Nat) :
    (m.atOffset x).floatBinary f = (m.floatBinary f).map (Machine.atOffset x) := by
  unfold Machine.floatBinary
  simp only [Machine.atOffset]
  split
  · rfl
  · split <;> rfl

theorem floatCompare_atOffset (x : Int) (m : Machine) (f : Nat → Nat → Bool) :
    (m.atOffset x).floatCompare f = (m.floatCompare f).map (Machine.atOffset x) := by
  unfold Machine.floatCompare
  simp only [Machine.atOffset]
  split
  · rfl
  · split <;> rfl

theorem onTop_atOffset (x : Int) (m : Machine) (f : SheepValue → SheepValue) :
    (m.atOffset x).onTop f = (m.onTop f).map (Machine.atOffset x) := by
  unfold Machine.onTop
  simp only [Machine.atOffset]
  split
  · rfl
  · split <;> rfl

theorem addWait_atOffset (x : Int) (thread : SheepThread) (waitable : Bool) (pending : Nat) :
    SheepThread.AddWait { thread with mCodeOffset := x } waitable pending
      = { thread.AddWait waitable pending with mCodeOffset := x } := by
  unfold SheepThread.AddWait
  split <;> rfl

theorem callSysFunc_atOffset (host : Host) (x : Int) (m : Machine) (imp : SysImport) :
    CallSysFunc host (m.atOffset x) imp
      = (CallSysFunc host m imp).map (fun p => (p.1, p.2.atOffset x)) := by
  unfold CallSysFunc
  simp only [Machine.atOffset]
  repeat' split
  all_goals first
    | rfl
    | (simp only [Except.map, SheepThread.AddWait]
       split <;> rfl)

theorem sysCall_atOffset (host : Host) (script : SheepScript) (x : Int) (m : Machine)
    (push : SheepStack → Value → SheepStack) :
    (m.atOffset x).sysCall host script push
      = (m.sysCall host script push).map (Machine.atOffset x) := by
  unfold Machine.sysCall
  have h : (m.atOffset x).readInt = ((m.readInt).1, (m.readInt).2.atOffset x) := rfl
  rw [h]
  dsimp only
  split
  · rfl
  · rw [callSysFunc_atOffset]
    cases CallSysFunc host (m.readInt).2 _ <;> rfl

theorem store_atOffset (x : Int) (m : Machine) (ty : SheepValueType)
    (write : SheepValue → SheepValue → SheepValue) :
    (m.atOffset x).store ty write = (m.store ty write).map (Machine.atOffset x) := by
  unfold Machine.store
  simp only [Machine.atOffset, Machine.readInt]
  repeat' split
  all_goals rfl

theorem load_atOffset (x : Int) (m : Machine) (ty : SheepValueType)
    (push : SheepStack → SheepValue → SheepStack) :
    (m.atOffset x).load ty push = (m.load ty push).map (Machine.atOffset x) := by
  unfold Machine.load
  simp only [Machine.atOffset, Machine.readInt]
  repeat' split
  all_goals rfl

theorem execInstruction_atOffset (host : Host) (script : SheepScript) (x : Int) (m : Machine)
    (ins : Option SheepInstruction) :
    execInstruction host script (m.atOffset x) ins
      = (execInstruction host script m ins).map (Machine.atOffset x) := by
  cases ins with
  | none => rfl
  | some i =>
    cases i <;> simp only [execInstruction]
    all_goals first
      | rfl
      | exact intBinary_atOffset x m _
      | exact floatBinary_atOffset x m _
      | exact floatCompare_atOffset x m _
      | exact onTop_atOffset x m _
      | exact sysCall_atOffset host script x m _
      | exact store_atOffset x m _ _
      | exact load_atOffset x m _ _
      | (simp only [Machine.atOffset, Machine.readInt, Machine.readFloat]
         repeat' split
         all_goals rfl)

theorem runLoop_atOffset (host : Host) (script : SheepScript) (x : Int) :
    ∀ (fuel : Nat) (m : Machine),
      runLoop host script fuel (m.atOffset x)
        = (runLoop host script fuel m).map (Machine.atOffset x)
  | 0, _ => rfl
  | fuel + 1, m => by
    rw [runLoop, runLoop]
    have h1 : (m.atOffset x).stopReading = m.stopReading := rfl
    have h2 : (m.atOffset x).reader = m.reader := rfl
    rw [h1, h2]
    split
    · rfl
    · dsimp only
      split
      · rfl
      · show (match execInstruction host script
            (Machine.atOffset x { m with reader := (m.reader.ReadUByte).2 })
            (host.decode (m.reader.ReadUByte).1) with
          | Except.error e => Except.error e
          | Except.ok m1 => runLoop host script fuel m1) = _
        rw [execInstruction_atOffset]
        cases execInstruction host script { m with reader := (m.reader.ReadUByte).2 }
          (host.decode (m.reader.ReadUByte).1) with
        | error e => rfl
        | ok m1 => exact runLoop_atOffset host script x fuel m1

theorem exitThread_atOffset (x : Int) (m : Machine) : (m.atOffset x).exitThread = m.exitThread := by
  unfold Machine.exitThread
  have h2 : (m.atOffset x).reader = m.reader := rfl
  rw [h2]
  split <;> rfl

theorem finishRun_atOffset (vm : SheepVM) (prev : Option Nat) (t c : Nat) (x : Int)
    (m : Machine) : vm.finishRun prev t c (m.atOffset x) = vm.finishRun prev t c m := by
  unfold SheepVM.finishRun
  rw [exitThread_atOffset]
  rfl

/-! ### Driving a thread that is already running -/

theorem executeInternalThread_unfold (host : Host) (fuel : Nat) {vm : SheepVM} {t c : Nat}
    {thread : SheepThread} {context : SheepInstance} {script : SheepScript}
    {bytes : List Nat}
    (ht : vm.mSheepThreads[t]? = some thread) (hc : thread.mContext = some c)
    (hi : vm.mSheepInstances[c]? = some context)
    (hs : context.mSheepScript = some script) (hb : script.mBytecode = some bytes) :
    vm.ExecuteInternalThread host fuel t
      = (runLoop host script fuel
          { reader := { data := bytes, pos := thread.mCodeOffset, ok := true },
            thread := thread.start, context := context, stopReading := false,
            mExecutionError := vm.mExecutionError }).map
          (fun m => SheepVM.finishRun
            { vm with mCurrentThread := some t,
                      mSheepThreads := vm.mSheepThreads.set t thread.start }
            vm.mCurrentThread t c m) := by
  unfold SheepVM.ExecuteInternalThread
  have hc1 : thread.start.mContext = some c := by rw [(start_fields thread).1, hc]
  have ho : thread.start.mCodeOffset = thread.mCodeOffset := (start_fields thread).2.1
  simp only [ht, hc1, hi, hs, hb, BinaryReader.new, BinaryReader.OK, BinaryReader.Skip, ho,
    zero_add, Bool.not_true, Bool.false_eq_true, if_false]
  cases runLoop host script fuel
    { reader := { data := bytes, pos := thread.mCodeOffset, ok := true },
      thread := thread.start, context := context, stopReading := false,
      mExecutionError := vm.mExecutionError } <;> rfl

theorem start_running_waiting {thread : SheepThread} (hr : thread.mRunning = true)
    (hw : thread.mInWaitBlock = true) :
    thread.start = { thread with mBlocked := false, mInWaitBlock := false } := by
  simp [SheepThread.start, hr, hw]

theorem start_running_free {thread : SheepThread} (hr : thread.mRunning = true)
    (hw : thread.mInWaitBlock = false) : thread.start = thread := by
  simp [SheepThread.start, hr, hw]

theorem exec_Yield {host : Host} {script : SheepScript} {m : Machine} :
    execInstruction host script m (some .Yield) = .ok { m with stopReading := true } := rfl

theorem finishRun_running {vm : SheepVM} {prev : Option Nat} {t c : Nat} {m : Machine}
    (hok : m.reader.ok = true) (hr : m.thread.mRunning = true) :
    vm.finishRun prev t c m =
      { vm with mSheepThreads := vm.mSheepThreads.set t { m.thread with mCodeOffset := m.reader.pos },
                mSheepInstances := vm.mSheepInstances.set c m.context,
                mExecutionError := m.mExecutionError,
                mCurrentThread := prev } := by
  simp [SheepVM.finishRun, Machine.exitThread, BinaryReader.OK, BinaryReader.GetPosition, hok, hr]

/-! ### Suspension at the end of a wait block -/

/-- C15: when `EndWait` is decoded by a running thread inside a wait block whose
pending-wait counter is positive, the loop stops there; the thread is saved blocked, still
in its wait block and still running, with the code offset just past the `EndWait` opcode;
the context is written back as it was (its reference count is not decremented) and no
callback is invoked. -/
theorem endWait_with_pending_calls_suspends (host : Host)
    (hinj : Function.Injective host.opcode) (hbyte : ∀ i, host.opcode i < 256)
    (script : SheepScript) (fuel : Nat) (m : Machine) (pre code post : List Nat)
    (hstop : m.stopReading = false) (hrun : m.thread.mRunning = true)
    (hwait : m.thread.mInWaitBlock = true) (hcount : m.thread.mWaitCounter > 0)
    (hat : m.reader.pointsAt pre (host.op .EndWait ++ code) post) :
    runLoop host script (fuel + 2) m
        = .ok { m with reader := { m.reader with pos := m.reader.pos + 1 },
                       thread := { m.thread with mBlocked := true }, stopReading := true } ∧
      ∀ (vm : SheepVM) (prev : Option Nat) (t c : Nat),
        vm.finishRun prev t c
            { m with reader := { m.reader with pos := m.reader.pos + 1 },
                     thread := { m.thread with mBlocked := true }, stopReading := true }
          = { mSheepThreads := vm.mSheepThreads.set t
                { m.thread with mRunning := true, mBlocked := true, mInWaitBlock := true,
                                mCodeOffset := (pre.length : Int) + 1 },
              mSheepInstances := vm.mSheepInstances.set c m.context,
              mCurrentThread := prev,
              mExecutionError := m.mExecutionError,
              invoked := vm.invoked } := by
  refine ⟨?_, ?_⟩
  · rw [loop_step hinj hbyte .EndWait hstop hat (exec_EndWait_block hcount)]
    exact runLoop_stopped rfl
  · intro vm prev t c
    rw [finishRun_running
      (m := { m with reader := { m.reader with pos := m.reader.pos + 1 },
                     thread := { m.thread with mBlocked := true }, stopReading := true })
      hat.1 hrun]
    simp only [SheepVM.mk.injEq, and_true, true_and]
    congr 1
    simp only [SheepThread.mk.injEq, true_and, and_true, hrun, hwait, hat.2.1]

theorem endWait_with_pending_calls_suspends_witness :
    runLoop Host.sample progReturn (0 + 2) machineEndWait
        = .ok { machineEndWait with
                reader := { machineEndWait.reader with pos := machineEndWait.reader.pos + 1 },
                thread := { machineEndWait.thread with mBlocked := true },
                stopReading := true } ∧
      ∀ (vm : SheepVM) (prev : Option Nat) (t c : Nat),
        vm.finishRun prev t c
            { machineEndWait with
              reader := { machineEndWait.reader with pos := machineEndWait.reader.pos + 1 },
              thread := { machineEndWait.thread with mBlocked := true }, stopReading := true }
          = { mSheepThreads := vm.mSheepThreads.set t
                { machineEndWait.thread with
                  mRunning := true, mBlocked := true, mInWaitBlock := true,
                  mCodeOffset := (([] : List Nat).length : Int) + 1 },
              mSheepInstances := vm.mSheepInstances.set c machineEndWait.context,
              mCurrentThread := prev,
              mExecutionError := machineEndWait.mExecutionError,
              invoked := vm.invoked } :=
  endWait_with_pending_calls_suspends Host.sample sample_opcode_injective sample_opcode_byte
    progReturn 0 machineEndWait [] [11] [] rfl rfl rfl (by decide) ⟨rfl, rfl, rfl⟩

/-! ### Effect of driving a thread -/

theorem finishRun_over (vm : SheepVM) (cur prev : Option Nat) (t c : Nat) (a : SheepThread)
    (m : Machine) :
    SheepVM.finishRun { vm with mCurrentThread := cur, mSheepThreads := vm.mSheepThreads.set t a }
      prev t c m = vm.finishRun prev t c m := by
  simp only [SheepVM.finishRun, SheepVM.release, finish_eq, List.set_set]
  split <;> rfl

theorem map_finishRun_atOffset (vm : SheepVM) (prev : Option Nat) (t c : Nat) (x : Int)
    (r : Except Fault Machine) :
    (r.map (Machine.atOffset x)).map (fun m => vm.finishRun prev t c m)
      = r.map (fun m => vm.finishRun prev t c m) := by
  cases r with
  | error e => rfl
  | ok m => exact congrArg Except.ok (finishRun_atOffset vm prev t c x m)

theorem executeInternalThread_drive (host : Host) (fuel : Nat) {vm : SheepVM} {t c : Nat}
    {thread : SheepThread} {context : SheepInstance} {script : SheepScript}
    {bytes : List Nat}
    (ht : vm.mSheepThreads[t]? = some thread) (hc : thread.mContext = some c)
    (hi : vm.mSheepInstances[c]? = some context)
    (hs : context.mSheepScript = some script) (hb : script.mBytecode = some bytes) :
    vm.ExecuteInternalThread host fuel t
      = (runLoop host script fuel
          { reader := { data := bytes, pos := thread.mCodeOffset, ok := true },
            thread := thread.start, context := context, stopReading := false,
            mExecutionError := vm.mExecutionError }).map
          (fun m => vm.finishRun vm.mCurrentThread t c m) := by
  rw [executeInternalThread_unfold host fuel ht hc hi hs hb]
  congr 1
  funext m
  exact finishRun_over vm (some t) vm.mCurrentThread t c thread.start m

/-! ### Driving a blocked thread -/

/-- C17, counterexample: the thread of `vmBlocked` is running, blocked and in a wait block
with pending-wait counter 1; driving its dispatch loop unblocks it and executes the
instructions after the `EndWait`: it ends not blocked, out of the wait block, finished,
with Int 1 pushed and the counter still 1. -/
theorem blocked_thread_is_released_by_a_drive :
    vmBlocked.mSheepThreads.map
        (fun th => (th.mRunning, th.mBlocked, th.mInWaitBlock, decide (th.mWaitCounter > 0)))
      = [(true, true, true, true)] ∧
    vmBlocked.ExecuteInternalThread Host.sample 10 0
      = .ok { mSheepInstances := [{ mSheepScript := some progAfterWait, mReferenceCount := 0 }],
              mSheepThreads := [{ mContext := some 0, mCodeOffset := 7, mRunning := false,
                                  mBlocked := false, mInWaitBlock := false, mWaitCounter := 1,
                                  mStack := { mStack := [{ type := SheepValueType.Int,
                                                           intValue := 1 }] } }] } :=
  ⟨rfl, rfl⟩

/-- C17, amended: `ExecuteInternal` on a thread does not test the pending-wait counter. For
every thread that is running and in a wait block, blocked or not and whatever its counter,
driving the dispatch loop clears blocked and in-wait-block and decodes from the saved code
offset with the stack and the variables as saved; the result of the call is the result of
that loop written back. -/
theorem drive_releases_whatever_the_counter (host : Host) (fuel : Nat) (vm : SheepVM)
    (t c : Nat) (thread : SheepThread) (context : SheepInstance) (script : SheepScript)
    (bytes : List Nat)
    (ht : vm.mSheepThreads[t]? = some thread) (hc : thread.mContext = some c)
    (hi : vm.mSheepInstances[c]? = some context)
    (hs : context.mSheepScript = some script) (hb : script.mBytecode = some bytes)
    (hr : thread.mRunning = true) (hw : thread.mInWaitBlock = true) :
    vm.ExecuteInternalThread host fuel t
      = (runLoop host script fuel
          { reader := { data := bytes, pos := thread.mCodeOffset, ok := true },
            thread := { thread with mBlocked := false, mInWaitBlock := false },
            context := context, stopReading := false,
            mExecutionError := vm.mExecutionError }).map
          (fun m => vm.finishRun vm.mCurrentThread t c m) := by
  rw [executeInternalThread_drive host fuel ht hc hi hs hb, start_running_waiting hr hw]

theorem drive_releases_whatever_the_counter_witness :
    vmBlocked.ExecuteInternalThread Host.sample 10 0
      = (runLoop Host.sample progAfterWait 10
          { reader := { data := [10, 18, 1, 0, 0, 0, 11], pos := 1, ok := true },
            thread := { mContext := some 0, mCodeOffset := 1, mRunning := true,
                        mBlocked := false, mInWaitBlock := false, mWaitCounter := 1 },
            context := { mSheepScript := some progAfterWait, mReferenceCount := 1 },
            stopReading := false,
            mExecutionError := vmBlocked.mExecutionError }).map
          (fun m => vmBlocked.finishRun vmBlocked.mCurrentThread 0 0 m) :=
  drive_releases_whatever_the_counter Host.sample 10 vmBlocked 0 0
    { mContext := some 0, mCodeOffset := 1, mRunning := true,
      mBlocked := true, mInWaitBlock := true, mWaitCounter := 1 }
    { mSheepScript := some progAfterWait, mReferenceCount := 1 } progAfterWait
    [10, 18, 1, 0, 0, 0, 11] rfl rfl rfl rfl rfl rfl rfl

/-! ### Resuming after a wait -/

/-- C16: a thread suspended at an `EndWait` (running, in its wait block, blocked or not,
saved offset just past the opcode) whose pending-wait counter is back to zero is re-driven with
blocked and in-wait-block cleared, decoding from the instruction after the `EndWait` with
the stack and the variables as saved; and the result is the one obtained when the same
thread, not blocked, decodes that `EndWait` with counter zero and falls through,
whatever code offset it had saved. -/
theorem resume_after_wait_equals_fall_through (host : Host)
    (hinj : Function.Injective host.opcode) (hbyte : ∀ i, host.opcode i < 256)
    (fuel : Nat) (vm : SheepVM) (t c : Nat) (thread : SheepThread) (context : SheepInstance)
    (script : SheepScript) (pre post : List Nat)
    (ht : vm.mSheepThreads[t]? = some thread) (hc : thread.mContext = some c)
    (hi : vm.mSheepInstances[c]? = some context)
    (hs : context.mSheepScript = some script)
    (hb : script.mBytecode = some (pre ++ (host.op .EndWait ++ post)))
    (hr : thread.mRunning = true) (hw : thread.mInWaitBlock = true) (hcount : thread.mWaitCounter = 0)
    (hoff : thread.mCodeOffset = (pre.length : Int) + 1) :
    vm.ExecuteInternalThread host fuel t
        = (runLoop host script fuel
            { reader := { data := pre ++ (host.op .EndWait ++ post),
                          pos := (pre.length : Int) + 1, ok := true },
              thread := { thread with mBlocked := false, mInWaitBlock := false },
              context := context, stopReading := false,
              mExecutionError := vm.mExecutionError }).map
            (fun m => vm.finishRun vm.mCurrentThread t c m) ∧
      ∀ x : Int,
        (runLoop host script (fuel + 1)
            { reader := { data := pre ++ (host.op .EndWait ++ post),
                          pos := (pre.length : Int), ok := true },
              thread := { thread with mBlocked := false, mCodeOffset := x },
              context := context, stopReading := false,
              mExecutionError := vm.mExecutionError }).map
            (fun m => vm.finishRun vm.mCurrentThread t c m)
          = vm.ExecuteInternalThread host fuel t := by
  have hdrive : vm.ExecuteInternalThread host fuel t
      = (runLoop host script fuel
          { reader := { data := pre ++ (host.op .EndWait ++ post),
                        pos := (pre.length : Int) + 1, ok := true },
            thread := { thread with mBlocked := false, mInWaitBlock := false },
            context := context, stopReading := false,
            mExecutionError := vm.mExecutionError }).map
          (fun m => vm.finishRun vm.mCurrentThread t c m) := by
    rw [executeInternalThread_drive host fuel ht hc hi hs hb, start_running_waiting hr hw,
      hoff]
  refine ⟨hdrive, ?_⟩
  intro x
  rw [hdrive]
  rw [loop_step hinj hbyte .EndWait
    (m := { reader := { data := pre ++ (host.op .EndWait ++ post),
                        pos := (pre.length : Int), ok := true },
            thread := { thread with mBlocked := false, mCodeOffset := x },
            context := context, stopReading := false,
            mExecutionError := vm.mExecutionError })
    rfl ⟨rfl, rfl, rfl⟩ (exec_EndWait_through (by simp [hcount]))]
  exact (congrArg (fun r => Except.map (fun m => vm.finishRun vm.mCurrentThread t c m) r)
    (runLoop_atOffset host script x fuel
      { reader := { data := pre ++ (host.op .EndWait ++ post),
                    pos := (pre.length : Int) + 1, ok := true },
        thread := { thread with mBlocked := false, mInWaitBlock := false },
        context := context, stopReading := false,
        mExecutionError := vm.mExecutionError })).trans
    (map_finishRun_atOffset vm vm.mCurrentThread t c x _)

theorem resume_after_wait_equals_fall_through_witness :
    vmReleased.ExecuteInternalThread Host.sample 10 0
        = (runLoop Host.sample progAfterWait 10
            { reader := { data := [] ++ (Host.sample.op .EndWait ++ [18, 1, 0, 0, 0, 11]),
                          pos := (([] : List Nat).length : Int) + 1, ok := true },
              thread := { mContext := some 0, mCodeOffset := 1, mRunning := true,
                          mBlocked := false, mInWaitBlock := false, mWaitCounter := 0 },
              context := { mSheepScript := some progAfterWait, mReferenceCount := 1 },
              stopReading := false,
              mExecutionError := vmReleased.mExecutionError }).map
            (fun m => vmReleased.finishRun vmReleased.mCurrentThread 0 0 m) ∧
      ∀ x : Int,
        (runLoop Host.sample progAfterWait (10 + 1)
            { reader := { data := [] ++ (Host.sample.op .EndWait ++ [18, 1, 0, 0, 0, 11]),
                          pos := (([] : List Nat).length : Int), ok := true },
              thread := { mContext := some 0, mCodeOffset := x, mRunning := true,
                          mBlocked := false, mInWaitBlock := true, mWaitCounter := 0 },
              context := { mSheepScript := some progAfterWait, mReferenceCount := 1 },
              stopReading := false,
              mExecutionError := vmReleased.mExecutionError }).map
            (fun m => vmReleased.finishRun vmReleased.mCurrentThread 0 0 m)
          = vmReleased.ExecuteInternalThread Host.sample 10 0 :=
  resume_after_wait_equals_fall_through Host.sample sample_opcode_injective
    sample_opcode_byte 10 vmReleased 0 0
    { mContext := some 0, mCodeOffset := 1, mRunning := true,
      mBlocked := true, mInWaitBlock := true, mWaitCounter := 0 }
    { mSheepScript := some progAfterWait, mReferenceCount := 1 } progAfterWait
    [] [18, 1, 0, 0, 0, 11] rfl rfl rfl rfl rfl rfl rfl rfl rfl

/-! ### Yield -/

/-- The thread as a drive finds it when it is already running: released from its wait
block if it was in one. -/
theorem start_running (thread : SheepThread) (hr : thread.mRunning = true) :
    thread.start = if thread.mInWaitBlock then
        { thread with mBlocked := false, mInWaitBlock := false } else thread := by
  cases hw : thread.mInWaitBlock
  · simp [SheepThread.start, hr, hw]
  · simp [SheepThread.start, hr, hw]

/-- C20, counterexample: with a `Yield` inside a wait block before a waitable call, running
the script and re-driving the thread once ends with Int 1 on the stack and the thread not
blocked, whereas the same script without the `Yield` ends its run blocked at `EndWait` with
an empty stack. -/
theorem yield_inside_wait_block_changes_the_run :
    ((({} : SheepVM).Execute Host.waiting 20 (some progYieldInWait) 0 none).bind
        (fun vm => vm.ExecuteInternalThread Host.waiting 20 0)).map
        (fun vm => vm.mSheepThreads.map (fun th => (th.mStack.mStack, th.mBlocked)))
      = .ok [([{ type := SheepValueType.Int, intValue := 1 }], false)] ∧
    (({} : SheepVM).Execute Host.waiting 20 (some progNoYieldInWait) 0 none).map
        (fun vm => vm.mSheepThreads.map (fun th => (th.mStack.mStack, th.mBlocked)))
      = .ok [([], true)] :=
  ⟨rfl, rfl⟩

/-- C20, amended: when `Yield` at offset `p` is decoded by a running thread the loop stops;
the thread is saved with code offset `p + 1` and otherwise unchanged (running, flags, stack),
the context is written back as it was and no callback is invoked. Re-driving the saved
thread decodes from `p + 1` with the same stack and variables: for a thread outside a wait
block this is the run of the machine that skipped the `Yield`, while a thread inside a wait
block is first released from it (blocked and in-wait-block cleared). -/
theorem yield_suspends_and_resumes_in_place (host : Host)
    (hinj : Function.Injective host.opcode) (hbyte : ∀ i, host.opcode i < 256)
    (script : SheepScript) (fuel : Nat) (m : Machine) (pre code post : List Nat)
    (hstop : m.stopReading = false) (hrun : m.thread.mRunning = true)
    (hat : m.reader.pointsAt pre (host.op .Yield ++ code) post) :
    runLoop host script (fuel + 2) m
        = .ok { m with reader := { m.reader with pos := m.reader.pos + 1 },
                       stopReading := true } ∧
      (∀ (vm : SheepVM) (prev : Option Nat) (t c : Nat),
        vm.finishRun prev t c
            { m with reader := { m.reader with pos := m.reader.pos + 1 },
                     stopReading := true }
          = { mSheepThreads := vm.mSheepThreads.set t
                { m.thread with mCodeOffset := (pre.length : Int) + 1 },
              mSheepInstances := vm.mSheepInstances.set c m.context,
              mCurrentThread := prev,
              mExecutionError := m.mExecutionError,
              invoked := vm.invoked }) ∧
      (∀ (vm : SheepVM) (t c : Nat),
        vm.mSheepThreads[t]? = some { m.thread with mCodeOffset := (pre.length : Int) + 1 } →
        m.thread.mContext = some c →
        vm.mSheepInstances[c]? = some m.context →
        m.context.mSheepScript = some script →
        script.mBytecode = some m.reader.data →
        vm.mExecutionError = m.mExecutionError →
        vm.ExecuteInternalThread host fuel t
          = (runLoop host script fuel
              { m with reader := { m.reader with pos := m.reader.pos + 1 },
                       thread := if m.thread.mInWaitBlock then
                           { m.thread with mBlocked := false, mInWaitBlock := false }
                         else m.thread }).map
              (fun m1 => vm.finishRun vm.mCurrentThread t c m1)) := by
  refine ⟨?_, ?_, ?_⟩
  · rw [loop_step hinj hbyte .Yield hstop hat exec_Yield]
    exact runLoop_stopped rfl
  · intro vm prev t c
    rw [finishRun_running
      (m := { m with reader := { m.reader with pos := m.reader.pos + 1 },
                     stopReading := true })
      hat.1 hrun]
    simp only [SheepVM.mk.injEq, and_true, true_and]
    congr 1
    simp only [SheepThread.mk.injEq, true_and, and_true, hat.2.1]
  · intro vm t c ht hc hi hs hb he
    rw [executeInternalThread_drive host fuel ht hc hi hs hb,
      start_running { m.thread with mCodeOffset := (pre.length : Int) + 1 } hrun]
    refine Eq.trans ?_
      (map_finishRun_atOffset vm vm.mCurrentThread t c ((pre.length : Int) + 1) _)
    refine congrArg (Except.map _) ?_
    refine Eq.trans ?_ (runLoop_atOffset host script _ fuel _)
    refine congrArg (runLoop host script fuel) ?_
    simp only [Machine.atOffset, Machine.mk.injEq, BinaryReader.mk.injEq, hat.1, hat.2.1,
      hstop, he, and_true, true_and]
    split <;> rfl

theorem yield_suspends_and_resumes_in_place_witness :
    runLoop Host.sample progYieldReturn (3 + 2) machineYield
        = .ok { machineYield with
                reader := { machineYield.reader with pos := machineYield.reader.pos + 1 },
                stopReading := true } ∧
      vmYielded.ExecuteInternalThread Host.sample 3 0
        = (runLoop Host.sample progYieldReturn 3
            { machineYield with
              reader := { machineYield.reader with pos := machineYield.reader.pos + 1 },
              thread := if machineYield.thread.mInWaitBlock then
                  { machineYield.thread with mBlocked := false, mInWaitBlock := false }
                else machineYield.thread }).map
            (fun m1 => vmYielded.finishRun vmYielded.mCurrentThread 0 0 m1) :=
  ⟨(yield_suspends_and_resumes_in_place Host.sample sample_opcode_injective
      sample_opcode_byte progYieldReturn 3 machineYield [] [11] [] rfl rfl ⟨rfl, rfl, rfl⟩).1,
   (yield_suspends_and_resumes_in_place Host.sample sample_opcode_injective
      sample_opcode_byte progYieldReturn 3 machineYield [] [11] [] rfl rfl
      ⟨rfl, rfl, rfl⟩).2.2 vmYielded 0 0 rfl rfl rfl rfl rfl rfl⟩

/-! ### Return and skipped bytes -/

/-- C21: when `ReturnV` is decoded the loop ends with the thread not running; the result
does not depend on the bytes that follow the opcode (none of them is decoded), and the
stack, the wait flags and the context are as they were when `ReturnV` was reached. -/
theorem returnV_ends_the_thread (host : Host) (hinj : Function.Injective host.opcode)
    (hbyte : ∀ i, host.opcode i < 256) (script : SheepScript) (fuel : Nat) (m : Machine)
    (pre code post : List Nat) (hstop : m.stopReading = false)
    (hat : m.reader.pointsAt pre (host.op .ReturnV ++ code) post) :
    runLoop host script (fuel + 2) m
      = .ok { m with reader := { m.reader with pos := m.reader.pos + 1 },
                     thread := { m.thread with mRunning := false },
                     stopReading := true } := by
  rw [loop_step hinj hbyte .ReturnV hstop hat exec_ReturnV]
  exact runLoop_stopped rfl

theorem returnV_ends_the_thread_witness :
    runLoop Host.sample progReturn (5 + 2) machineReturn
      = .ok { machineReturn with
              reader := { machineReturn.reader with pos := machineReturn.reader.pos + 1 },
              thread := { machineReturn.thread with mRunning := false },
              stopReading := true } :=
  returnV_ends_the_thread Host.sample sample_opcode_injective sample_opcode_byte progReturn 5
    machineReturn [] [18, 1, 0, 0, 0] [] rfl ⟨rfl, rfl, rfl⟩

theorem decode_none {host : Host} {b : Nat} (h : ∀ i, host.opcode i ≠ b) :
    host.decode b = none := by
  unfold Host.decode
  rw [List.find?_eq_none]
  intro i _
  simpa using h i

theorem exec_default {host : Host} {script : SheepScript} {m : Machine} :
    execInstruction host script m none = .ok m := rfl

theorem exec_SitnSpin {host : Host} {script : SheepScript} {m : Machine} :
    execInstruction host script m (some .SitnSpin) = .ok m := rfl

theorem exec_DebugBreakpoint {host : Host} {script : SheepScript} {m : Machine} :
    execInstruction host script m (some .DebugBreakpoint) = .ok m := rfl

/-- C23: a byte that is the number of no instruction is decoded by the `default` label:
the cursor moves one byte on, nothing else of the machine changes (stack, variables, thread
flags) and the loop goes on with the next byte; `SitnSpin` and `DebugBreakpoint` do the
same. -/
theorem unrecognized_opcode_is_skipped (host : Host) (hinj : Function.Injective host.opcode)
    (hbyte : ∀ i, host.opcode i < 256) (script : SheepScript) (fuel : Nat) (m : Machine)
    (pre code post : List Nat) (hstop : m.stopReading = false) :
    (∀ b : Nat, b < 256 → (∀ i, host.opcode i ≠ b) →
      m.reader.pointsAt pre (b :: code) post →
      runLoop host script (fuel + 1) m = runLoop host script fuel
        { m with reader := { m.reader with pos := m.reader.pos + 1 } }) ∧
    (m.reader.pointsAt pre (host.op .SitnSpin ++ code) post →
      runLoop host script (fuel + 1) m = runLoop host script fuel
        { m with reader := { m.reader with pos := m.reader.pos + 1 } }) ∧
    (m.reader.pointsAt pre (host.op .DebugBreakpoint ++ code) post →
      runLoop host script (fuel + 1) m = runLoop host script fuel
        { m with reader := { m.reader with pos := m.reader.pos + 1 } }) := by
  refine ⟨?_, ?_, ?_⟩
  · intro b hb hno hat
    exact runLoop_step none hstop (pointsAt_readUByte hat hb).1 hat.1 (decode_none hno)
      exec_default
  · intro hat
    exact loop_step hinj hbyte .SitnSpin hstop hat exec_SitnSpin
  · intro hat
    exact loop_step hinj hbyte .DebugBreakpoint hstop hat exec_DebugBreakpoint

theorem sample_opcode_lt (i : SheepInstruction) : Host.sample.opcode i < 52 := by
  cases i <;> decide

theorem unrecognized_opcode_is_skipped_witness :
    runLoop Host.sample progReturn (2 + 1) machineUnknown = runLoop Host.sample progReturn 2
      { machineUnknown with
        reader := { machineUnknown.reader with pos := machineUnknown.reader.pos + 1 } } :=
  (unrecognized_opcode_is_skipped Host.sample sample_opcode_injective sample_opcode_byte
    progReturn 2 machineUnknown [] [11] [] rfl).1 200 (by decide)
    (fun i h => absurd (h ▸ sample_opcode_lt i) (by decide)) ⟨rfl, rfl, rfl⟩

/-! ### Running off the buffer -/

theorem readUByte_fails {r : BinaryReader}
    (h : r.ok = false ∨ (r.data.length : Int) ≤ r.pos) :
    r.ReadUByte = (0, { r with ok := false }) := by
  unfold BinaryReader.ReadUByte
  rw [if_neg]
  rintro ⟨hok, -, hlen⟩
  rcases h with h | h
  · rw [h] at hok; cases hok
  · omega

theorem runLoop_off_buffer {host : Host} {script : SheepScript} {fuel : Nat} {m : Machine}
    (hstop : m.stopReading = false)
    (h : m.reader.ok = false ∨ (m.reader.data.length : Int) ≤ m.reader.pos) :
    runLoop host script (fuel + 1) m
      = .ok { m with reader := { m.reader with ok := false } } := by
  rw [runLoop]
  simp [hstop, readUByte_fails h, BinaryReader.OK]

theorem modify_set_same {α : Type} (l : List α) (c : Nat) (x : α) (f : α → α) :
    (l.set c x).modify f c = l.set c (f x) := by
  apply List.ext_getElem?
  intro i
  rw [List.getElem?_modify, List.getElem?_set, List.getElem?_set]
  by_cases h : c = i
  · subst h
    by_cases hl : c < l.length <;> simp [hl]
  · simp [h]

theorem start_mRunning (thread : SheepThread) : thread.start.mRunning = true := by
  unfold SheepThread.start
  cases h : thread.mRunning
  · rfl
  · cases thread.mInWaitBlock <;> simp [h]

theorem finishRun_failed {vm : SheepVM} {prev : Option Nat} {t c : Nat} {m : Machine}
    (hok : m.reader.ok = false) :
    vm.finishRun prev t c m =
      { mSheepThreads := vm.mSheepThreads.set t
          { m.thread with mCodeOffset := m.reader.pos, mRunning := false },
        mSheepInstances := vm.mSheepInstances.set c
          { m.context with mReferenceCount := m.context.mReferenceCount - 1 },
        mCurrentThread := prev,
        mExecutionError := m.mExecutionError,
        invoked := vm.invoked ++ m.thread.mWaitCallback.toList } := by
  simp [SheepVM.finishRun, Machine.exitThread, BinaryReader.OK, BinaryReader.GetPosition, hok,
    SheepVM.release, finish_eq, modify_set_same]

theorem entryMachine_fields {vm : SheepVM} {c : Nat} {off : Int} {name : String}
    {cb : Option Nat} {m0 : Machine} (h : vm.entryMachine c off name cb = some m0) :
    m0.stopReading = false ∧ m0.thread.mWaitCallback = cb ∧ m0.thread.mRunning = true ∧
    m0.mExecutionError = vm.mExecutionError ∧
    (∀ script, m0.context.mSheepScript = some script →
      m0.reader = (BinaryReader.new script.mBytecode).Skip off) ∧
    ∃ context, vm.mSheepInstances[c]? = some context ∧
      m0.context = { context with mReferenceCount := context.mReferenceCount + 1 } := by
  unfold SheepVM.entryMachine at h
  split at h
  · rename_i thread context hT hC
    split at h
    · rename_i script hS
      simp only [Option.some.injEq] at h
      subst h
      refine ⟨rfl, ?_, ?_, rfl, ?_, context, hC, rfl⟩
      · rw [(start_fields _).2.2.1]; rfl
      · exact start_mRunning _
      · intro script' hs
        simp only [hS, Option.some.injEq] at hs
        subst hs
        rfl
    · cases h
  · cases h

/-- C22: a machine whose reader has failed, or whose cursor is at or beyond the end of the
buffer, leaves the loop in one iteration, whatever the fuel: the read of the instruction
byte fails. The thread is then saved not running, the reference count of the context is
decremented once and the completion callback, when there is one, is invoked once. In
particular a call entered at an offset at or beyond the length of the buffer (so any call
on an empty buffer) ends this way. -/
theorem running_off_the_buffer_ends_the_thread (host : Host) (script : SheepScript)
    (fuel : Nat) (m : Machine) (hstop : m.stopReading = false)
    (hend : m.reader.ok = false ∨ (m.reader.data.length : Int) ≤ m.reader.pos) :
    runLoop host script (fuel + 1) m
        = .ok { m with reader := { m.reader with ok := false } } ∧
      (∀ (vm : SheepVM) (prev : Option Nat) (t c : Nat),
        vm.finishRun prev t c { m with reader := { m.reader with ok := false } }
          = { mSheepThreads := vm.mSheepThreads.set t
                { m.thread with mCodeOffset := m.reader.pos, mRunning := false },
              mSheepInstances := vm.mSheepInstances.set c
                { m.context with mReferenceCount := m.context.mReferenceCount - 1 },
              mCurrentThread := prev,
              mExecutionError := m.mExecutionError,
              invoked := vm.invoked ++ m.thread.mWaitCallback.toList }) ∧
      (∀ (vm : SheepVM) (c : Nat) (off : Int) (name : String) (cb : Option Nat)
          (bytes : List Nat),
        vm.entryMachine c off name cb = some m →
        m.context.mSheepScript = some script →
        script.mBytecode = some bytes →
        vm.ExecuteInternal host (fuel + 1) (some c) off name cb
          = .ok (some (vm.GetThread).1,
              { mSheepThreads := (vm.GetThread).2.mSheepThreads.set (vm.GetThread).1
                  { m.thread with mCodeOffset := m.reader.pos, mRunning := false },
                mSheepInstances := vm.mSheepInstances.set c
                  { m.context with mReferenceCount := m.context.mReferenceCount - 1 },
                mCurrentThread := vm.mCurrentThread,
                mExecutionError := vm.mExecutionError,
                invoked := vm.invoked ++ cb.toList })) := by
  have hrun : runLoop host script (fuel + 1) m
      = .ok { m with reader := { m.reader with ok := false } } :=
    runLoop_off_buffer hstop hend
  refine ⟨hrun, ?_, ?_⟩
  · intro vm prev t c
    exact finishRun_failed rfl
  · intro vm c off name cb bytes hentry hs hb
    obtain ⟨-, hcb, -, herr, -, -⟩ := entryMachine_fields hentry
    rw [executeInternal_run host (fuel + 1) hentry hs (by rw [hb]; simp) hrun]
    simp [Machine.exitThread, BinaryReader.OK, BinaryReader.GetPosition, hcb, herr]

theorem running_off_the_buffer_ends_the_thread_witness :
    runLoop Host.sample progEmpty (3 + 1) machineEmpty
        = .ok { machineEmpty with reader := { machineEmpty.reader with ok := false } } ∧
      vmEmpty.ExecuteInternal Host.sample (3 + 1) (some 0) 0 "X$" (some 7)
        = .ok (some 0,
            { mSheepThreads := [{ mContext := some 0, mWaitCallback := some 7,
                                  mFunctionName := "X$", mRunning := false }],
              mSheepInstances := [{ mSheepScript := some progEmpty, mReferenceCount := 0 }],
              mCurrentThread := none,
              mExecutionError := false,
              invoked := [7] }) :=
  ⟨(running_off_the_buffer_ends_the_thread Host.sample progEmpty 3 machineEmpty rfl
      (Or.inr (by decide))).1,
   (running_off_the_buffer_ends_the_thread Host.sample progEmpty 3 machineEmpty rfl
      (Or.inr (by decide))).2.2 vmEmpty 0 0 "X$" (some 7) [] rfl rfl rfl⟩

/-! ### Integer arithmetic -/

theorem exec_intBinary {host : Host} {script : SheepScript} {m : Machine}
    {f : Int → Int → Except Fault Int} {i : SheepInstruction}
    (hop : ∀ m1 : Machine, execInstruction host script m1 (some i) = m1.intBinary f)
    {v1 v2 : SheepValue} (below : List SheepValue) {r : Int}
    (hstack : m.thread.mStack.mStack = v2 :: v1 :: below)
    (hf : f v1.intValue v2.intValue = .ok r) :
    execInstruction host script m (some i)
      = .ok { m with thread := { m.thread with
                mStack := SheepStack.PushInt { mStack := below } r } } := by
  rw [hop, intBinary_cons hstack, hf]
  rfl

theorem loop_intBinary {host : Host} (hinj : Function.Injective host.opcode)
    (hbyte : ∀ i, host.opcode i < 256) {script : SheepScript} {fuel : Nat} {m : Machine}
    {pre code post : List Nat} (i : SheepInstruction) {f : Int → Int → Except Fault Int}
    (hop : ∀ m1 : Machine, execInstruction host script m1 (some i) = m1.intBinary f)
    {v1 v2 : SheepValue} (below : List SheepValue) {r : Int}
    (hstop : m.stopReading = false)
    (hat : m.reader.pointsAt pre (host.op i ++ code) post)
    (hstack : m.thread.mStack.mStack = v2 :: v1 :: below)
    (hf : f v1.intValue v2.intValue = .ok r) :
    runLoop host script (fuel + 1) m = runLoop host script fuel
      { m with reader := { m.reader with pos := m.reader.pos + 1 },
               thread := { m.thread with
                 mStack := SheepStack.PushInt { mStack := below } r } } :=
  loop_step hinj hbyte i hstop hat (exec_intBinary hop below hstack hf)

theorem loop_push_push_binary {host : Host} (hinj : Function.Injective host.opcode)
    (hbyte : ∀ i, host.opcode i < 256) {script : SheepScript} {fuel : Nat} {m : Machine}
    {pre code post : List Nat} (i : SheepInstruction) {f : Int → Int → Except Fault Int}
    (hop : ∀ m1 : Machine, execInstruction host script m1 (some i) = m1.intBinary f)
    {a b r : Int} (ha : isInt32 a) (hb : isInt32 b)
    (hstop : m.stopReading = false)
    (hat : m.reader.pointsAt pre
      (host.opInt .PushI a ++ (host.opInt .PushI b ++ (host.op i ++ code))) post)
    (hf : f a b = .ok r) :
    runLoop host script (fuel + 3) m = runLoop host script fuel
      { m with reader := { m.reader with pos := m.reader.pos + 11 },
               thread := { m.thread with mStack := m.thread.mStack.PushInt r } } := by
  have hat1 := pointsAt_opInt .PushI a hat
  have hat2 := pointsAt_opInt .PushI b hat1
  rw [loop_PushI hinj hbyte ha hstop hat]
  rw [loop_PushI hinj hbyte hb
    (m := { m with reader := { m.reader with pos := m.reader.pos + 5 },
                   thread := { m.thread with mStack := m.thread.mStack.PushInt a } })
    hstop hat1]
  rw [loop_intBinary hinj hbyte i hop m.thread.mStack.mStack
    (m := { m with reader := { m.reader with pos := m.reader.pos + 5 + 5 },
                   thread := { m.thread with
                     mStack := (m.thread.mStack.PushInt a).PushInt b } })
    hstop hat2 rfl hf]
  congr 2
  exact pos_add_eq (by simp only; omega)

theorem onTop_cons {m : Machine} {f : SheepValue → SheepValue} {top : SheepValue}
    {below : List SheepValue} (hstack : m.thread.mStack.mStack = top :: below) :
    m.onTop f = .ok { m with thread := { m.thread with
                        mStack := { mStack := f top :: below } } } := by
  have h1 : ¬ ((below.length : Int) + 1 < 1) := by omega
  simp [Machine.onTop, SheepStack.Size, SheepStack.Peek, SheepStack.Poke, hstack, h1,
    Machine.setStack]

theorem loop_onTop {host : Host} (hinj : Function.Injective host.opcode)
    (hbyte : ∀ i, host.opcode i < 256) {script : SheepScript} {fuel : Nat} {m : Machine}
    {pre code post : List Nat} (i : SheepInstruction) {f : SheepValue → SheepValue}
    (hop : ∀ m1 : Machine, execInstruction host script m1 (some i) = m1.onTop f)
    {top : SheepValue} (below : List SheepValue)
    (hstop : m.stopReading = false)
    (hat : m.reader.pointsAt pre (host.op i ++ code) post)
    (hstack : m.thread.mStack.mStack = top :: below) :
    runLoop host script (fuel + 1) m = runLoop host script fuel
      { m with reader := { m.reader with pos := m.reader.pos + 1 },
               thread := { m.thread with mStack := { mStack := f top :: below } } } :=
  loop_step hinj hbyte i hstop hat
    ((hop _).trans (onTop_cons (m := { m with reader := { m.reader with pos := m.reader.pos + 1 } })
      hstack))

/-- C24, counterexample: with a = -2147483648 and b = -1 (b is not zero) the quotient is
not an `int`: `int1 / int2` and `int1 % int2` are undefined and the run pushes no result. -/
theorem divide_overflow_is_undefined :
    ({} : SheepVM).Execute Host.sample 10 (some progDivideOverflow) 0 none
        = .error Fault.undefinedBehaviour ∧
      ({} : SheepVM).Execute Host.sample 10 (some progModuloOverflow) 0 none
        = .error Fault.undefinedBehaviour :=
  ⟨rfl, rfl⟩

theorem divInt_ok {a b : Int} (h : ¬ (a = -2147483648 ∧ b = -1)) :
    divInt a b = .ok (Int.tdiv a b) := by
  simp [divInt, h]

theorem modInt_ok {a b : Int} (hb : b ≠ 0) (h : ¬ (a = -2147483648 ∧ b = -1)) :
    modInt a b = .ok (Int.tmod a b) := by
  simp [modInt, hb, h]

/-- C24, amended: for all `int` values `a`, `b` the sequence `PushI(a); PushI(b); op`
leaves the stack one deeper than before with an Int on top: `a + b`, `a - b`, `a * b`
reduced to 32 bits for `AddI`, `SubtractI`, `MultiplyI`; for `b` not zero, and `a`, `b` other
than -2147483648, -1, the quotient truncated toward zero for `DivideI` and the remainder of
that division for `Modulo`. `NegateI` rewrites the Int payload `x` of the top value to
`-x` reduced to 32 bits, in place. The cursor is past the sequence and nothing else
changes. -/
theorem int_arithmetic_takes_earlier_operand_as_left (host : Host)
    (hinj : Function.Injective host.opcode) (hbyte : ∀ i, host.opcode i < 256)
    (script : SheepScript) (fuel : Nat) (m : Machine) (pre code post : List Nat)
    (a b : Int) (ha : isInt32 a) (hb : isInt32 b) (hstop : m.stopReading = false) :
    (m.reader.pointsAt pre
        (host.opInt .PushI a ++ (host.opInt .PushI b ++ (host.op .AddI ++ code))) post →
      runLoop host script (fuel + 3) m = runLoop host script fuel
        { m with reader := { m.reader with pos := m.reader.pos + 11 },
                 thread := { m.thread with
                   mStack := m.thread.mStack.PushInt (wrap32 (a + b)) } }) ∧
    (m.reader.pointsAt pre
        (host.opInt .PushI a ++ (host.opInt .PushI b ++ (host.op .SubtractI ++ code))) post →
      runLoop host script (fuel + 3) m = runLoop host script fuel
        { m with reader := { m.reader with pos := m.reader.pos + 11 },
                 thread := { m.thread with
                   mStack := m.thread.mStack.PushInt (wrap32 (a - b)) } }) ∧
    (m.reader.pointsAt pre
        (host.opInt .PushI a ++ (host.opInt .PushI b ++ (host.op .MultiplyI ++ code))) post →
      runLoop host script (fuel + 3) m = runLoop host script fuel
        { m with reader := { m.reader with pos := m.reader.pos + 11 },
                 thread := { m.thread with
                   mStack := m.thread.mStack.PushInt (wrap32 (a * b)) } }) ∧
    (b ≠ 0 → ¬ (a = -2147483648 ∧ b = -1) →
      m.reader.pointsAt pre
        (host.opInt .PushI a ++ (host.opInt .PushI b ++ (host.op .DivideI ++ code))) post →
      runLoop host script (fuel + 3) m = runLoop host script fuel
        { m with reader := { m.reader with pos := m.reader.pos + 11 },
                 thread := { m.thread with
                   mStack := m.thread.mStack.PushInt (Int.tdiv a b) } }) ∧
    (b ≠ 0 → ¬ (a = -2147483648 ∧ b = -1) →
      m.reader.pointsAt pre
        (host.opInt .PushI a ++ (host.opInt .PushI b ++ (host.op .Modulo ++ code))) post →
      runLoop host script (fuel + 3) m = runLoop host script fuel
        { m with reader := { m.reader with pos := m.reader.pos + 11 },
                 thread := { m.thread with
                   mStack := m.thread.mStack.PushInt (Int.tmod a b) } }) ∧
    (∀ (top : SheepValue) (below : List SheepValue),
      m.thread.mStack.mStack = top :: below →
      m.reader.pointsAt pre (host.op .NegateI ++ code) post →
      runLoop host script (fuel + 1) m = runLoop host script fuel
        { m with reader := { m.reader with pos := m.reader.pos + 1 },
                 thread := { m.thread with
                   mStack := { mStack :=
                     { top with intValue := wrap32 (-top.intValue) } :: below } } }) := by
  refine ⟨?_, ?_, ?_, ?_, ?_, ?_⟩
  · intro hat
    exact loop_push_push_binary hinj hbyte .AddI
      (f := fun int1 int2 => .ok (wrap32 (int1 + int2))) (fun _ => rfl) ha hb hstop hat rfl
  · intro hat
    exact loop_push_push_binary hinj hbyte .SubtractI
      (f := fun int1 int2 => .ok (wrap32 (int1 - int2))) (fun _ => rfl) ha hb hstop hat rfl
  · intro hat
    exact loop_push_push_binary hinj hbyte .MultiplyI
      (f := fun int1 int2 => .ok (wrap32 (int1 * int2))) (fun _ => rfl) ha hb hstop hat rfl
  · intro hb0 hov hat
    exact loop_push_push_binary hinj hbyte .DivideI
      (f := fun int1 int2 => if int2 ≠ 0 then divInt int1 int2 else .ok 0) (fun _ => rfl)
      ha hb hstop hat ((if_pos hb0).trans (divInt_ok hov))
  · intro hb0 hov hat
    exact loop_push_push_binary hinj hbyte .Modulo (f := modInt) (fun _ => rfl)
      ha hb hstop hat (modInt_ok hb0 hov)
  · intro top below hstack hat
    rw [loop_onTop hinj hbyte .NegateI
      (f := fun v => { v with intValue := wrap32 (v.intValue * -1) }) (fun _ => rfl) below
      hstop hat hstack]
    simp only [Int.mul_neg, Int.mul_one]

theorem int_arithmetic_takes_earlier_operand_as_left_witness :
    Int.tdiv (-7) 2 = -3 ∧
      runLoop Host.sample progReturn (2 + 3) machineArith
        = runLoop Host.sample progReturn 2
          { machineArith with
            reader := { machineArith.reader with pos := machineArith.reader.pos + 11 },
            thread := { machineArith.thread with
              mStack := machineArith.thread.mStack.PushInt (Int.tdiv (-7) 2) } } :=
  ⟨by decide,
   (int_arithmetic_takes_earlier_operand_as_left Host.sample sample_opcode_injective
      sample_opcode_byte progReturn 2 machineArith [] [11] [] (-7) 2
      ⟨by decide, by decide⟩ ⟨by decide, by decide⟩ rfl).2.2.2.1
      (by decide) (by decide) ⟨rfl, rfl, rfl⟩⟩

/-! ### Integer comparisons -/

/-- C25: with the value `va` pushed first and `vb` on top of it, each Int comparison
removes both and pushes an Int that is 1 when the Int payloads satisfy the relation (read
in this order, as signed integers) and 0 otherwise; the values below are untouched, so the
depth is one less, and the result is 0 or 1. -/
theorem int_comparisons_push_boolean (host : Host) (hinj : Function.Injective host.opcode)
    (hbyte : ∀ i, host.opcode i < 256) (script : SheepScript) (fuel : Nat) (m : Machine)
    (pre code post : List Nat) (va vb : SheepValue) (below : List SheepValue)
    (hstop : m.stopReading = false)
    (hstack : m.thread.mStack.mStack = vb :: va :: below) :
    (m.reader.pointsAt pre (host.op .IsEqualI ++ code) post →
      runLoop host script (fuel + 1) m = runLoop host script fuel
        (m.afterBinary below (if va.intValue = vb.intValue then 1 else 0))) ∧
    (m.reader.pointsAt pre (host.op .IsNotEqualI ++ code) post →
      runLoop host script (fuel + 1) m = runLoop host script fuel
        (m.afterBinary below (if va.intValue ≠ vb.intValue then 1 else 0))) ∧
    (m.reader.pointsAt pre (host.op .IsGreaterI ++ code) post →
      runLoop host script (fuel + 1) m = runLoop host script fuel
        (m.afterBinary below (if va.intValue > vb.intValue then 1 else 0))) ∧
    (m.reader.pointsAt pre (host.op .IsLessI ++ code) post →
      runLoop host script (fuel + 1) m = runLoop host script fuel
        (m.afterBinary below (if va.intValue < vb.intValue then 1 else 0))) ∧
    (m.reader.pointsAt pre (host.op .IsGreaterEqualI ++ code) post →
      runLoop host script (fuel + 1) m = runLoop host script fuel
        (m.afterBinary below (if va.intValue ≥ vb.intValue then 1 else 0))) ∧
    (m.reader.pointsAt pre (host.op .IsLessEqualI ++ code) post →
      runLoop host script (fuel + 1) m = runLoop host script fuel
        (m.afterBinary below (if va.intValue ≤ vb.intValue then 1 else 0))) ∧
    (∀ r : Int, ((m.afterBinary below r).thread.mStack.mStack.length + 1
        = m.thread.mStack.mStack.length)) := by
  refine ⟨?_, ?_, ?_, ?_, ?_, ?_, ?_⟩
  · intro hat
    exact loop_intBinary hinj hbyte .IsEqualI
      (f := fun int1 int2 => .ok (if int1 = int2 then 1 else 0)) (fun _ => rfl) below
      hstop hat hstack rfl
  · intro hat
    exact loop_intBinary hinj hbyte .IsNotEqualI
      (f := fun int1 int2 => .ok (if int1 ≠ int2 then 1 else 0)) (fun _ => rfl) below
      hstop hat hstack rfl
  · intro hat
    exact loop_intBinary hinj hbyte .IsGreaterI
      (f := fun int1 int2 => .ok (if int1 > int2 then 1 else 0)) (fun _ => rfl) below
      hstop hat hstack rfl
  · intro hat
    exact loop_intBinary hinj hbyte .IsLessI
      (f := fun int1 int2 => .ok (if int1 < int2 then 1 else 0)) (fun _ => rfl) below
      hstop hat hstack rfl
  · intro hat
    exact loop_intBinary hinj hbyte .IsGreaterEqualI
      (f := fun int1 int2 => .ok (if int1 ≥ int2 then 1 else 0)) (fun _ => rfl) below
      hstop hat hstack rfl
  · intro hat
    exact loop_intBinary hinj hbyte .IsLessEqualI
      (f := fun int1 int2 => .ok (if int1 ≤ int2 then 1 else 0)) (fun _ => rfl) below
      hstop hat hstack rfl
  · intro r
    simp [Machine.afterBinary, hstack]

theorem int_comparisons_push_boolean_witness :
    runLoop Host.sample progReturn (2 + 1) machineCompare
      = runLoop Host.sample progReturn 2
        (machineCompare.afterBinary [{ type := SheepValueType.Int, intValue := 9 }]
          (if (3 : Int) > -5 then 1 else 0)) :=
  (int_comparisons_push_boolean Host.sample sample_opcode_injective sample_opcode_byte
    progReturn 2 machineCompare [] [11] []
    { type := SheepValueType.Int, intValue := 3 }
    { type := SheepValueType.Int, intValue := -5 }
    [{ type := SheepValueType.Int, intValue := 9 }] rfl rfl).2.2.1 ⟨rfl, rfl, rfl⟩

/-! ### Logical instructions -/

/-- C26: `And` and `Or` remove the two operands (`va` pushed first) and push Int 1 when
both, respectively one, of the Int payloads is not zero, and Int 0 otherwise; `Not` rewrites
the Int payload of the top value in place to 1 when it is zero and to 0 otherwise, keeping
the tag and the depth; three `Not` in a row leave the stack that one `Not` leaves. -/
theorem logical_opcodes_use_truthiness (host : Host) (hinj : Function.Injective host.opcode)
    (hbyte : ∀ i, host.opcode i < 256) (script : SheepScript) (fuel : Nat) (m : Machine)
    (pre code post : List Nat) (hstop : m.stopReading = false) :
    (∀ (va vb : SheepValue) (below : List SheepValue),
      m.thread.mStack.mStack = vb :: va :: below →
      m.reader.pointsAt pre (host.op .And ++ code) post →
      runLoop host script (fuel + 1) m = runLoop host script fuel
        (m.afterBinary below (if va.intValue ≠ 0 ∧ vb.intValue ≠ 0 then 1 else 0))) ∧
    (∀ (va vb : SheepValue) (below : List SheepValue),
      m.thread.mStack.mStack = vb :: va :: below →
      m.reader.pointsAt pre (host.op .Or ++ code) post →
      runLoop host script (fuel + 1) m = runLoop host script fuel
        (m.afterBinary below (if va.intValue ≠ 0 ∨ vb.intValue ≠ 0 then 1 else 0))) ∧
    (∀ (top : SheepValue) (below : List SheepValue),
      m.thread.mStack.mStack = top :: below →
      m.reader.pointsAt pre (host.op .Not ++ code) post →
      runLoop host script (fuel + 1) m = runLoop host script fuel
        { m with reader := { m.reader with pos := m.reader.pos + 1 },
                 thread := { m.thread with
                   mStack := { mStack :=
                     { top with intValue := if top.intValue = 0 then 1 else 0 }
                       :: below } } }) ∧
    (∀ (top : SheepValue) (below : List SheepValue),
      m.thread.mStack.mStack = top :: below →
      m.reader.pointsAt pre (host.op .Not ++ (host.op .Not ++ (host.op .Not ++ code))) post →
      runLoop host script (fuel + 3) m = runLoop host script fuel
        { m with reader := { m.reader with pos := m.reader.pos + 3 },
                 thread := { m.thread with
                   mStack := { mStack :=
                     { top with intValue := if top.intValue = 0 then 1 else 0 }
                       :: below } } }) := by
  refine ⟨?_, ?_, ?_, ?_⟩
  · intro va vb below hstack hat
    exact loop_intBinary hinj hbyte .And
      (f := fun int1 int2 => .ok (if int1 ≠ 0 ∧ int2 ≠ 0 then 1 else 0)) (fun _ => rfl) below
      hstop hat hstack rfl
  · intro va vb below hstack hat
    exact loop_intBinary hinj hbyte .Or
      (f := fun int1 int2 => .ok (if int1 ≠ 0 ∨ int2 ≠ 0 then 1 else 0)) (fun _ => rfl) below
      hstop hat hstack rfl
  · intro top below hstack hat
    exact loop_onTop hinj hbyte .Not
      (f := fun v => { v with intValue := if v.intValue = 0 then 1 else 0 }) (fun _ => rfl)
      below hstop hat hstack
  · intro top below hstack hat
    have hat1 := pointsAt_op (host.opcode .Not) hat
    have hat2 := pointsAt_op (host.opcode .Not) hat1
    rw [loop_onTop hinj hbyte .Not
      (f := fun v => { v with intValue := if v.intValue = 0 then 1 else 0 }) (fun _ => rfl)
      below hstop hat hstack]
    rw [loop_onTop hinj hbyte .Not
      (f := fun v => { v with intValue := if v.intValue = 0 then 1 else 0 }) (fun _ => rfl)
      below
      (m := { m with reader := { m.reader with pos := m.reader.pos + 1 },
                     thread := { m.thread with
                       mStack := { mStack :=
                         { top with intValue := if top.intValue = 0 then 1 else 0 }
                           :: below } } })
      hstop hat1 rfl]
    rw [loop_onTop hinj hbyte .Not
      (f := fun v => { v with intValue := if v.intValue = 0 then 1 else 0 }) (fun _ => rfl)
      below
      (m := { m with reader := { m.reader with pos := m.reader.pos + 1 + 1 },
                     thread := { m.thread with
                       mStack := { mStack :=
                         { top with intValue :=
                             if (if top.intValue = 0 then (1 : Int) else 0) = 0 then 1 else 0 }
                           :: below } } })
      hstop hat2 rfl]
    congr 1
    have hpos : m.reader.pos + 1 + 1 + 1 = m.reader.pos + 3 := by omega
    by_cases hz : top.intValue = 0 <;> simp [hz, hpos]

theorem logical_opcodes_use_truthiness_witness :
    runLoop Host.sample progReturn (2 + 3) machineNot
      = runLoop Host.sample progReturn 2
        { machineNot with
          reader := { machineNot.reader with pos := machineNot.reader.pos + 3 },
          thread := { machineNot.thread with
            mStack := { mStack := [{ type := SheepValueType.Int,
                                     intValue := if (6 : Int) = 0 then 1 else 0 }] } } } :=
  (logical_opcodes_use_truthiness Host.sample sample_opcode_injective sample_opcode_byte
    progReturn 2 machineNot [] [11] [] rfl).2.2.2
    { type := SheepValueType.Int, intValue := 6 } [] rfl ⟨rfl, rfl, rfl⟩

/-! ### Conversions -/

theorem exec_IToF {host : Host} {script : SheepScript} {m : Machine} {k : Nat}
    {r : BinaryReader} {value : SheepValue}
    (hread : m.reader.ReadInt = ((k : Int), r))
    (hslot : m.thread.mStack.mStack[k]? = some value) :
    execInstruction host script m (some .IToF)
      = .ok { m with reader := r,
                     thread := { m.thread with
                       mStack := { mStack := m.thread.mStack.mStack.set k { value with
                     floatValue := host.itof value.intValue,
                     type := SheepValueType.Float } } } } := by
  simp [execInstruction, Machine.readInt, hread, SheepStack.Peek, hslot, SheepStack.Poke,
    Machine.setStack]

theorem exec_FToI {host : Host} {script : SheepScript} {m : Machine} {k : Nat}
    {r : BinaryReader} {value : SheepValue}
    (hread : m.reader.ReadInt = ((k : Int), r))
    (hslot : m.thread.mStack.mStack[k]? = some value) :
    execInstruction host script m (some .FToI)
      = .ok { m with reader := r,
                     thread := { m.thread with
                       mStack := { mStack := m.thread.mStack.mStack.set k { value with
                     intValue := host.ftoi value.floatValue,
                     type := SheepValueType.Int } } } } := by
  simp [execInstruction, Machine.readInt, hread, SheepStack.Peek, hslot, SheepStack.Poke,
    Machine.setStack]

/-- C27: with the operand `k` naming a slot of the stack (`k` below the top, holding
`value`), `IToF(k)` and `FToI(k)` rewrite that slot in place: the tag becomes Float and the
Float payload the conversion of the Int payload, respectively the tag becomes Int and the
Int payload the conversion of the Float payload (the conversions are those of the host
language); the depth and every other slot are unchanged. -/
theorem conversions_act_in_place (host : Host) (hinj : Function.Injective host.opcode)
    (hbyte : ∀ i, host.opcode i < 256) (script : SheepScript) (fuel : Nat) (m : Machine)
    (pre code post : List Nat) (k : Nat) (value : SheepValue) (hk : isInt32 k)
    (hstop : m.stopReading = false)
    (hslot : m.thread.mStack.mStack[k]? = some value) :
    (m.reader.pointsAt pre (host.opInt .IToF k ++ code) post →
      runLoop host script (fuel + 1) m = runLoop host script fuel
        { m with reader := { m.reader with pos := m.reader.pos + 5 },
                 thread := { m.thread with
                   mStack := { mStack := m.thread.mStack.mStack.set k { value with
                     floatValue := host.itof value.intValue,
                     type := SheepValueType.Float } } } }) ∧
    (m.reader.pointsAt pre (host.opInt .FToI k ++ code) post →
      runLoop host script (fuel + 1) m = runLoop host script fuel
        { m with reader := { m.reader with pos := m.reader.pos + 5 },
                 thread := { m.thread with
                   mStack := { mStack := m.thread.mStack.mStack.set k { value with
                     intValue := host.ftoi value.floatValue,
                     type := SheepValueType.Int } } } }) ∧
    (∀ v : SheepValue,
      (m.thread.mStack.mStack.set k v).length = m.thread.mStack.mStack.length ∧
      (m.thread.mStack.mStack.set k v)[k]? = some v ∧
      ∀ j : Nat, j ≠ k →
        (m.thread.mStack.mStack.set k v)[j]? = m.thread.mStack.mStack[j]?) := by
  have hlt := lt_length_of_getElem? hslot
  refine ⟨?_, ?_, ?_⟩
  · intro hat
    exact loop_step hinj hbyte .IToF hstop hat
      (exec_IToF (r := { m.reader with pos := m.reader.pos + 5 })
        (opInt_reads .IToF hk hat) hslot)
  · intro hat
    exact loop_step hinj hbyte .FToI hstop hat
      (exec_FToI (r := { m.reader with pos := m.reader.pos + 5 })
        (opInt_reads .FToI hk hat) hslot)
  · intro v
    refine ⟨List.length_set _ _ _, ?_, ?_⟩
    · simp [List.getElem?_set, hlt]
    · intro j hj
      simp [List.getElem?_set, Ne.symm hj]

theorem conversions_act_in_place_witness :
    runLoop Host.sample progReturn (2 + 1) machineConvert
      = runLoop Host.sample progReturn 2
        { machineConvert with
          reader := { machineConvert.reader with pos := machineConvert.reader.pos + 5 },
          thread := { machineConvert.thread with
            mStack := { mStack := machineConvert.thread.mStack.mStack.set 1 {
              type := SheepValueType.Float, intValue := 7,
              floatValue := Host.sample.itof 7 } } } } :=
  (conversions_act_in_place Host.sample sample_opcode_injective sample_opcode_byte
    progReturn 2 machineConvert [] [11] [] 1
    { type := SheepValueType.Int, intValue := 7 } ⟨by decide, by decide⟩ rfl rfl).1
    ⟨rfl, rfl, rfl⟩

/-! ### System call marshalling -/

theorem collectArgs_from (host : Host) (pushed below : List SheepValue) :
    ∀ (rest : List Int) (i : Nat) (acc : List Value),
      i + rest.length = pushed.length →
      (∀ ty ∈ rest, ty = 1 ∨ ty = 2 ∨ ty = 3) →
      collectArgs host { mStack := pushed.reverse ++ below } (pushed.length : Int) rest
          (i : Int) acc
        = .ok (acc ++ marshalled host rest (pushed.drop i))
  | [], i, acc, _, _ => by simp [collectArgs, marshalled]
  | ty :: rest, i, acc, hlen, hty => by
    have hi : i < pushed.length := by simp at hlen; omega
    have hidx : ((pushed.length : Int) - 1 - (i : Int)).toNat = pushed.length - 1 - i := by
      omega
    have hnon : (0 : Int) ≤ (pushed.length : Int) - 1 - (i : Int) := by omega
    have hget : (pushed.reverse ++ below)[pushed.length - 1 - i]? = some pushed[i] := by
      rw [List.getElem?_append_left (by simp; omega)]
      rw [List.getElem?_reverse (by omega)]
      have : pushed.length - 1 - (pushed.length - 1 - i) = i := by omega
      rw [this]
      exact List.getElem?_eq_getElem hi
    have hdrop : pushed.drop i = pushed[i] :: pushed.drop (i + 1) :=
      List.drop_eq_getElem_cons hi
    have hcast : ((i : Int) + 1) = ((i + 1 : Nat) : Int) := by push_cast; rfl
    unfold collectArgs
    simp only [SheepStack.Peek, hnon, if_true, hidx, hget]
    rw [hcast, collectArgs_from host pushed below rest (i + 1) _ (by simp at hlen ⊢; omega)
      (fun t ht => hty t (List.mem_cons_of_mem _ ht))]
    rw [hdrop]
    simp only [marshalled, List.zipWith_cons_cons, marshalOne]
    rcases hty ty (List.mem_cons_self _ _) with h | h | h <;> subst h <;> simp

theorem collectArgs_all (host : Host) (pushed below : List SheepValue) (types : List Int)
    (hlen : pushed.length = types.length)
    (hcodes : ∀ ty ∈ types, ty = 1 ∨ ty = 2 ∨ ty = 3) :
    collectArgs host { mStack := pushed.reverse ++ below } (types.length : Int) types 0 []
      = .ok (marshalled host types pushed) := by
  have h := collectArgs_from host pushed below types 0 [] (by simp [hlen]) hcodes
  rw [hlen] at h
  simpa using h

theorem marshalled_length (host : Host) (types : List Int) (pushed : List SheepValue)
    (hlen : pushed.length = types.length) :
    (marshalled host types pushed).length = types.length := by
  simp [marshalled, hlen]

theorem popN_args (pushed below : List SheepValue) (n : Nat) (hlen : pushed.length = n) :
    SheepStack.PopN { mStack := pushed.reverse ++ below } (n : Int)
      = .ok { mStack := below } := by
  have h2 : (pushed.reverse ++ below).drop n = below := by
    rw [List.drop_append_of_le_length (by simp [hlen])]
    simp [List.drop_eq_nil_of_le, hlen]
  have h3 : (n : Int) ≤ (pushed.length : Int) + (below.length : Int) := by omega
  simp [SheepStack.PopN, SheepStack.Size, h2, h3]

theorem callSysFunc_marshals {host : Host} {m : Machine} {imp : SysImport}
    {decl : SysFuncDecl} {count : SheepValue} {pushed below : List SheepValue}
    (hdecl : host.GetSysFuncDecl imp = some decl)
    (hn : decl.argumentTypes.length ≤ 6)
    (hcodes : ∀ ty ∈ decl.argumentTypes, ty = 1 ∨ ty = 2 ∨ ty = 3)
    (hlen : pushed.length = decl.argumentTypes.length)
    (hcount : count.intValue = (decl.argumentTypes.length : Int))
    (hstack : m.thread.mStack.mStack = count :: (pushed.reverse ++ below)) :
    CallSysFunc host m imp
      = .ok ((host.CallSysFunc decl.name (marshalled host decl.argumentTypes pushed)).value,
          { m with
            thread := SheepThread.AddWait { m.thread with mStack := { mStack := below } }
              decl.waitable
              (host.CallSysFunc decl.name (marshalled host decl.argumentTypes pushed)).pending,
            mExecutionError := false }) := by
  have h6 : (decl.argumentTypes.length : Int) ≤ 6 := by omega
  unfold CallSysFunc
  simp only [hdecl, SheepStack.Pop, hstack, hcount, if_true,
    collectArgs_all host pushed below decl.argumentTypes hlen hcodes,
    popN_args pushed below decl.argumentTypes.length hlen, h6,
    marshalled_length host decl.argumentTypes pushed hlen]

theorem callSysFunc_unimplemented {host : Host} {m : Machine} {imp : SysImport}
    {decl : SysFuncDecl} {count : SheepValue} {pushed below : List SheepValue}
    (hdecl : host.GetSysFuncDecl imp = some decl)
    (hn : 6 < decl.argumentTypes.length)
    (hcodes : ∀ ty ∈ decl.argumentTypes, ty = 1 ∨ ty = 2 ∨ ty = 3)
    (hlen : pushed.length = decl.argumentTypes.length)
    (hcount : count.intValue = (decl.argumentTypes.length : Int))
    (hstack : m.thread.mStack.mStack = count :: (pushed.reverse ++ below)) :
    CallSysFunc host m imp
      = .ok (Value.ofInt 0,
          { m with thread := { m.thread with mStack := { mStack := below } },
                   mExecutionError := false }) := by
  have h6 : ¬ (decl.argumentTypes.length : Int) ≤ 6 := by omega
  unfold CallSysFunc
  simp only [hdecl, SheepStack.Pop, hstack, hcount, if_true,
    collectArgs_all host pushed below decl.argumentTypes hlen hcodes,
    popN_args pushed below decl.argumentTypes.length hlen, h6, if_false, Machine.setStack]

theorem addWait_setStack (thread : SheepThread) (waitable : Bool) (pending : Nat)
    (s1 s2 : SheepStack) :
    ({ SheepThread.AddWait { thread with mStack := s1 } waitable pending with mStack := s2 }
        : SheepThread)
      = { thread.AddWait waitable pending with mStack := s2 } := by
  unfold SheepThread.AddWait
  split <;> rfl

theorem addWait_false (thread : SheepThread) (pending : Nat) :
    thread.AddWait false pending = thread := by
  simp [SheepThread.AddWait]

theorem sysCall_ok {host : Host} {script : SheepScript} {m m2 : Machine} {k : Nat}
    {r : BinaryReader} {imp : SysImport} {value : Value}
    (push : SheepStack → Value → SheepStack)
    (hread : m.reader.ReadInt = ((k : Int), r))
    (himp : script.mSysImports[k]? = some imp)
    (hcall : CallSysFunc host { m with reader := r } imp = .ok (value, m2)) :
    m.sysCall host script push = .ok (m2.setStack (push m2.thread.mStack value)) := by
  simp [Machine.sysCall, Machine.readInt, hread, SheepScript.GetSysImport, himp, hcall]

theorem loop_sysCall {host : Host} (hinj : Function.Injective host.opcode)
    (hbyte : ∀ i, host.opcode i < 256) {script : SheepScript} {fuel : Nat} {m : Machine}
    {pre code post : List Nat} (i : SheepInstruction)
    (push : SheepStack → Value → SheepStack)
    (hop : ∀ m1 : Machine, execInstruction host script m1 (some i)
      = m1.sysCall host script push)
    {k : Nat} (hk : isInt32 k) {imp : SysImport} {decl : SysFuncDecl} {count : SheepValue}
    {pushed below : List SheepValue} {result : SysCallResult}
    (hstop : m.stopReading = false)
    (hat : m.reader.pointsAt pre (host.opInt i k ++ code) post)
    (himp : script.mSysImports[k]? = some imp)
    (hdecl : host.GetSysFuncDecl imp = some decl)
    (hn : decl.argumentTypes.length ≤ 6)
    (hcodes : ∀ ty ∈ decl.argumentTypes, ty = 1 ∨ ty = 2 ∨ ty = 3)
    (hlen : pushed.length = decl.argumentTypes.length)
    (hcount : count.intValue = (decl.argumentTypes.length : Int))
    (hstack : m.thread.mStack.mStack = count :: (pushed.reverse ++ below))
    (hres : host.CallSysFunc decl.name (marshalled host decl.argumentTypes pushed) = result) :
    runLoop host script (fuel + 1) m = runLoop host script fuel
      (m.afterSysCall decl.waitable result (push { mStack := below } result.value).mStack) := by
  refine loop_step hinj hbyte i hstop hat ?_
  rw [hop, sysCall_ok push
    (m := { m with reader := { m.reader with pos := m.reader.pos + 1 } })
    (r := { m.reader with pos := m.reader.pos + 5 })
    (opInt_reads i hk hat) himp
    (callSysFunc_marshals hdecl hn hcodes hlen hcount hstack)]
  rw [hres]
  simp only [Machine.setStack, Machine.afterSysCall]
  rw [addWait_setStack]
  congr 3
  unfold SheepThread.AddWait
  split <;> rfl

/-- C28: for an import that resolves to a declaration with at most six arguments, all of
type code 1, 2 or 3, and a stack holding the argument count above the arguments (`pushed`
in the order in which they were pushed), a `CallSysFunctionI`, `F` or `S` instruction calls
the bridge with the declared name and the arguments in push order, each converted by its
declared type code; it removes the count and the arguments and pushes the returned value
with tag Int, Float or String respectively, so that the depth is the former depth minus the
number of arguments. -/
theorem sysCall_marshals_arguments (host : Host) (hinj : Function.Injective host.opcode)
    (hbyte : ∀ i, host.opcode i < 256) (script : SheepScript) (fuel : Nat) (m : Machine)
    (pre code post : List Nat) (k : Nat) (imp : SysImport) (decl : SysFuncDecl)
    (count : SheepValue) (pushed below : List SheepValue) (result : SysCallResult)
    (hk : isInt32 k) (hstop : m.stopReading = false)
    (himp : script.mSysImports[k]? = some imp)
    (hdecl : host.GetSysFuncDecl imp = some decl)
    (hn : decl.argumentTypes.length ≤ 6)
    (hcodes : ∀ ty ∈ decl.argumentTypes, ty = 1 ∨ ty = 2 ∨ ty = 3)
    (hlen : pushed.length = decl.argumentTypes.length)
    (hcount : count.intValue = (decl.argumentTypes.length : Int))
    (hstack : m.thread.mStack.mStack = count :: (pushed.reverse ++ below))
    (hres : host.CallSysFunc decl.name (marshalled host decl.argumentTypes pushed) = result) :
    (m.reader.pointsAt pre (host.opInt .CallSysFunctionI k ++ code) post →
      runLoop host script (fuel + 1) m = runLoop host script fuel
        (m.afterSysCall decl.waitable result
          ({ type := SheepValueType.Int, intValue := result.value.toInt } :: below))) ∧
    (m.reader.pointsAt pre (host.opInt .CallSysFunctionF k ++ code) post →
      runLoop host script (fuel + 1) m = runLoop host script fuel
        (m.afterSysCall decl.waitable result
          ({ type := SheepValueType.Float, floatValue := result.value.toFloat } :: below))) ∧
    (m.reader.pointsAt pre (host.opInt .CallSysFunctionS k ++ code) post →
      runLoop host script (fuel + 1) m = runLoop host script fuel
        (m.afterSysCall decl.waitable result
          ({ type := SheepValueType.String, stringValue := result.value.toStr } :: below))) ∧
    (marshalled host decl.argumentTypes pushed).length = decl.argumentTypes.length ∧
    (∀ (i : Nat) (ty : Int) (v : SheepValue),
      decl.argumentTypes[i]? = some ty → pushed[i]? = some v →
      (marshalled host decl.argumentTypes pushed)[i]? = some (marshalOne host ty v)) ∧
    (∀ v : SheepValue,
      (v :: below).length + decl.argumentTypes.length = m.thread.mStack.mStack.length) := by
  refine ⟨?_, ?_, ?_, marshalled_length host _ _ hlen, ?_, ?_⟩
  · intro hat
    exact loop_sysCall hinj hbyte .CallSysFunctionI (fun s value => s.PushInt value.toInt)
      (fun _ => rfl) hk hstop hat himp hdecl hn hcodes hlen hcount hstack hres
  · intro hat
    exact loop_sysCall hinj hbyte .CallSysFunctionF (fun s value => s.PushFloat value.toFloat)
      (fun _ => rfl) hk hstop hat himp hdecl hn hcodes hlen hcount hstack hres
  · intro hat
    exact loop_sysCall hinj hbyte .CallSysFunctionS (fun s value => s.PushString value.toStr)
      (fun _ => rfl) hk hstop hat himp hdecl hn hcodes hlen hcount hstack hres
  · intro i ty v hty hv
    simp [marshalled, List.getElem?_zipWith, hty, hv]
  · intro v
    simp [hstack, hlen]
    omega

theorem sysCall_marshals_arguments_witness :
    runLoop Host.subtracting progCall (2 + 1) machineCall
      = runLoop Host.subtracting progCall 2
        (machineCall.afterSysCall false { value := Value.ofInt 7 }
          [{ type := SheepValueType.Int, intValue := 7 },
           { type := SheepValueType.Int, intValue := 8 }]) :=
  (sysCall_marshals_arguments Host.subtracting sample_opcode_injective sample_opcode_byte
    progCall 2 machineCall [] [11] [] 0 { name := "Subtract" }
    { name := "Subtract", argumentTypes := [1, 1] }
    { type := SheepValueType.Int, intValue := 2 }
    [{ type := SheepValueType.Int, intValue := 10 },
     { type := SheepValueType.Int, intValue := 3 }]
    [{ type := SheepValueType.Int, intValue := 8 }]
    { value := Value.ofInt 7 }
    ⟨by decide, by decide⟩ rfl rfl rfl (by decide) (by decide) rfl rfl rfl rfl).1
    ⟨rfl, rfl, rfl⟩

/-! ### Void system calls -/

theorem exec_Pop {host : Host} {script : SheepScript} {m : Machine} {top : SheepValue}
    {below : List SheepValue} (hstack : m.thread.mStack.mStack = top :: below) :
    execInstruction host script m (some .Pop)
      = .ok { m with thread := { m.thread with mStack := { mStack := below } } } := by
  have h1 : (1 : Int) ≤ (below.length : Int) + 1 := by omega
  simp [execInstruction, SheepStack.PopN, SheepStack.Size, hstack, h1, Machine.setStack]

theorem loop_sysCall_void {host : Host} (hinj : Function.Injective host.opcode)
    (hbyte : ∀ i, host.opcode i < 256) {script : SheepScript} {fuel : Nat} {m : Machine}
    {pre code post : List Nat}
    {k : Nat} (hk : isInt32 k) {imp : SysImport} {decl : SysFuncDecl} {count : SheepValue}
    {pushed below : List SheepValue} {result : SysCallResult}
    (hstop : m.stopReading = false)
    (hat : m.reader.pointsAt pre (host.opInt .CallSysFunctionV k ++ code) post)
    (himp : script.mSysImports[k]? = some imp)
    (hdecl : host.GetSysFuncDecl imp = some decl)
    (hcodes : ∀ ty ∈ decl.argumentTypes, ty = 1 ∨ ty = 2 ∨ ty = 3)
    (hlen : pushed.length = decl.argumentTypes.length)
    (hcount : count.intValue = (decl.argumentTypes.length : Int))
    (hstack : m.thread.mStack.mStack = count :: (pushed.reverse ++ below))
    (hres : host.CallSysFunc decl.name (marshalled host decl.argumentTypes pushed) = result) :
    runLoop host script (fuel + 1) m = runLoop host script fuel
      (m.afterSysCall (decide (decl.argumentTypes.length ≤ 6) && decl.waitable) result
        ({ type := SheepValueType.Int,
           intValue := if decl.argumentTypes.length ≤ 6 then result.value.toInt else 0 }
          :: below)) := by
  by_cases hn : decl.argumentTypes.length ≤ 6
  · simp only [hn, decide_True, Bool.true_and, if_true]
    exact loop_sysCall hinj hbyte .CallSysFunctionV (fun s value => s.PushInt value.toInt)
      (fun _ => rfl) hk hstop hat himp hdecl hn hcodes hlen hcount hstack hres
  · simp only [hn, decide_False, Bool.false_and, if_false]
    refine loop_step hinj hbyte .CallSysFunctionV hstop hat ?_
    have hop : ∀ m1 : Machine, execInstruction host script m1 (some .CallSysFunctionV)
        = m1.sysCall host script (fun s value => s.PushInt value.toInt) := fun _ => rfl
    rw [hop, sysCall_ok (fun s value => s.PushInt value.toInt)
      (m := { m with reader := { m.reader with pos := m.reader.pos + 1 } })
      (r := { m.reader with pos := m.reader.pos + 5 })
      (opInt_reads .CallSysFunctionV hk hat) himp
      (callSysFunc_unimplemented hdecl (by omega) hcodes hlen hcount hstack)]
    simp only [Machine.setStack, Machine.afterSysCall, addWait_false]
    rfl

/-- C29: for an import that resolves to a declaration whose argument types are codes 1, 2
or 3, and a stack holding the argument count above the arguments, `CallSysFunctionV` removes
the count and the arguments and pushes exactly one Int-tagged value (the returned value
read as an Int, or 0 when the declaration has more than six arguments and the bridge is
not called); the pair `CallSysFunctionV; Pop` therefore leaves exactly the values below
the arguments: the depth is the former depth minus the number of arguments minus one. -/
theorem void_call_pushes_placeholder (host : Host) (hinj : Function.Injective host.opcode)
    (hbyte : ∀ i, host.opcode i < 256) (script : SheepScript) (fuel : Nat) (m : Machine)
    (pre code post : List Nat) (k : Nat) (imp : SysImport) (decl : SysFuncDecl)
    (count : SheepValue) (pushed below : List SheepValue) (result : SysCallResult)
    (hk : isInt32 k) (hstop : m.stopReading = false)
    (himp : script.mSysImports[k]? = some imp)
    (hdecl : host.GetSysFuncDecl imp = some decl)
    (hcodes : ∀ ty ∈ decl.argumentTypes, ty = 1 ∨ ty = 2 ∨ ty = 3)
    (hlen : pushed.length = decl.argumentTypes.length)
    (hcount : count.intValue = (decl.argumentTypes.length : Int))
    (hstack : m.thread.mStack.mStack = count :: (pushed.reverse ++ below))
    (hres : host.CallSysFunc decl.name (marshalled host decl.argumentTypes pushed) = result) :
    (m.reader.pointsAt pre (host.opInt .CallSysFunctionV k ++ code) post →
      runLoop host script (fuel + 1) m = runLoop host script fuel
        (m.afterSysCall (decide (decl.argumentTypes.length ≤ 6) && decl.waitable) result
          ({ type := SheepValueType.Int,
             intValue := if decl.argumentTypes.length ≤ 6 then result.value.toInt else 0 }
            :: below))) ∧
    (m.reader.pointsAt pre
        (host.opInt .CallSysFunctionV k ++ (host.op .Pop ++ code)) post →
      runLoop host script (fuel + 2) m = runLoop host script fuel
        { m.afterSysCall (decide (decl.argumentTypes.length ≤ 6) && decl.waitable) result
            below with
          reader := { m.reader with pos := m.reader.pos + 6 } }) ∧
    below.length + decl.argumentTypes.length + 1 = m.thread.mStack.mStack.length := by
  refine ⟨?_, ?_, ?_⟩
  · intro hat
    exact loop_sysCall_void hinj hbyte hk hstop hat himp hdecl hcodes hlen hcount hstack hres
  · intro hat
    have hat1 := pointsAt_opInt .CallSysFunctionV k hat
    rw [loop_sysCall_void hinj hbyte hk hstop hat himp hdecl hcodes hlen hcount hstack hres]
    rw [loop_step hinj hbyte .Pop
      (m := m.afterSysCall (decide (decl.argumentTypes.length ≤ 6) && decl.waitable) result
        ({ type := SheepValueType.Int,
           intValue := if decl.argumentTypes.length ≤ 6 then result.value.toInt else 0 }
          :: below))
      hstop hat1 (exec_Pop rfl)]
    congr 1
    simp only [Machine.afterSysCall, Machine.mk.injEq, BinaryReader.mk.injEq, true_and,
      and_true]
    omega
  · simp [hstack, hlen]
    omega

theorem void_call_pushes_placeholder_witness :
    runLoop Host.subtracting progCallVoid (2 + 2) machineCallVoid
      = runLoop Host.subtracting progCallVoid 2
        { machineCallVoid.afterSysCall (decide (2 ≤ 6) && false) { value := Value.ofInt 7 }
            [{ type := SheepValueType.Int, intValue := 8 }] with
          reader := { machineCallVoid.reader with pos := machineCallVoid.reader.pos + 6 } } :=
  (void_call_pushes_placeholder Host.subtracting sample_opcode_injective sample_opcode_byte
    progCallVoid 2 machineCallVoid [] [11] [] 0 { name := "Subtract" }
    { name := "Subtract", argumentTypes := [1, 1] }
    { type := SheepValueType.Int, intValue := 2 }
    [{ type := SheepValueType.Int, intValue := 10 },
     { type := SheepValueType.Int, intValue := 3 }]
    [{ type := SheepValueType.Int, intValue := 8 }]
    { value := Value.ofInt 7 }
    ⟨by decide, by decide⟩ rfl rfl rfl (by decide) rfl rfl rfl rfl).2.1
    ⟨rfl, rfl, rfl⟩

/-! ### Push and pop sequences -/

theorem loop_ops {host : Host} (hinj : Function.Injective host.opcode)
    (hbyte : ∀ i, host.opcode i < 256) (script : SheepScript) {code post : List Nat} :
    ∀ (ops : List StackOp) (fuel : Nat) (m : Machine) (pre : List Nat),
      m.stopReading = false →
      (∀ x, StackOp.PushI x ∈ ops → isInt32 x) →
      (∀ n, pops (ops.take n) ≤ pushes (ops.take n) + m.thread.mStack.mStack.length) →
      m.reader.pointsAt pre (encodeOps host ops ++ code) post →
      runLoop host script (fuel + ops.length) m = runLoop host script fuel
          { m with reader := { m.reader with
                     pos := m.reader.pos + ((encodeOps host ops).length : Int) },
                   thread := { m.thread with
                     mStack := { mStack := applyOps ops m.thread.mStack.mStack } } } ∧
        (applyOps ops m.thread.mStack.mStack).length + pops ops
          = m.thread.mStack.mStack.length + pushes ops
  | [], fuel, m, pre, _, _, _, _ => by
    simp [encodeOps, applyOps, pushes, pops]
  | .PushI x :: rest, fuel, m, pre, hstop, hint, hbal, hat => by
    have hx : isInt32 x := hint x (List.mem_cons_self _ _)
    have hat0 : m.reader.pointsAt pre (host.opInt .PushI x ++ (encodeOps host rest ++ code))
        post := by
      simpa [encodeOps, StackOp.encode, List.append_assoc] using hat
    have hat1 := pointsAt_opInt .PushI x hat0
    have ih := loop_ops hinj hbyte script rest fuel
      { m with reader := { m.reader with pos := m.reader.pos + 5 },
               thread := { m.thread with mStack := m.thread.mStack.PushInt x } }
      (pre ++ host.opInt .PushI x) hstop
      (fun y hy => hint y (List.mem_cons_of_mem _ hy))
      (fun n => by
        have := hbal (n + 1)
        simp only [List.take_succ_cons, pops, pushes] at this
        simp only [SheepStack.PushInt, List.length_cons]
        omega)
      hat1
    have hfuel : fuel + (StackOp.PushI x :: rest).length = (fuel + rest.length) + 1 := by
      simp only [List.length_cons]; omega
    rw [hfuel, loop_PushI hinj hbyte hx hstop hat0]
    refine ⟨ih.1.trans ?_, ?_⟩
    · congr 2
      simp only [encodeOps, StackOp.encode, List.length_append, Host.opInt, le32,
        List.length_cons, List.length_nil]
      exact pos_add_eq (by push_cast; omega)
    · have := ih.2
      simp only [SheepStack.PushInt, List.length_cons] at this
      simp only [applyOps, pops, pushes]
      omega
  | .Pop :: rest, fuel, m, pre, hstop, hint, hbal, hat => by
    have h1 := hbal 1
    simp only [List.take_succ_cons, List.take_zero, pops, pushes] at h1
    obtain ⟨top, below, hstack⟩ : ∃ top below, m.thread.mStack.mStack = top :: below := by
      cases hs : m.thread.mStack.mStack with
      | nil => rw [hs] at h1; simp at h1
      | cons top below => exact ⟨top, below, rfl⟩
    have hat0 : m.reader.pointsAt pre (host.opcode .Pop :: (encodeOps host rest ++ code))
        post := by
      simpa [encodeOps, StackOp.encode, Host.op, List.append_assoc] using hat
    have hat1 := pointsAt_op (host.opcode .Pop) hat0
    have ih := loop_ops hinj hbyte script rest fuel
      { m with reader := { m.reader with pos := m.reader.pos + 1 },
               thread := { m.thread with mStack := { mStack := below } } }
      (pre ++ [host.opcode .Pop]) hstop
      (fun y hy => hint y (List.mem_cons_of_mem _ hy))
      (fun n => by
        have := hbal (n + 1)
        simp only [List.take_succ_cons, pops, pushes, hstack, List.length_cons] at this
        simp only
        omega)
      hat1
    have hfuel : fuel + (StackOp.Pop :: rest).length = (fuel + rest.length) + 1 := by
      simp only [List.length_cons]; omega
    rw [hfuel, loop_step hinj hbyte .Pop hstop hat0 (exec_Pop hstack)]
    refine ⟨ih.1.trans ?_, ?_⟩
    · simp only [hstack, applyOps, List.tail_cons]
      congr 2
      simp only [encodeOps, StackOp.encode, List.length_append, Host.op,
        List.length_cons, List.length_nil]
      exact pos_add_eq (by push_cast; omega)
    · have := ih.2
      simp only at this
      simp only [applyOps, pops, pushes, hstack, List.tail_cons, List.length_cons]
      omega

/-- C30: `PushI(x)` makes the stack one deeper with Int `x` on top, `Pop` makes it one
shallower and leaves the remaining values; hence a sequence of `PushI` and `Pop` in which
no prefix has more `Pop` than `PushI` runs through, leaves the stack that the pushes and
pops describe, and the final depth plus the number of `Pop` is the initial depth plus the
number of `PushI`. -/
theorem push_pop_depth_accounting (host : Host) (hinj : Function.Injective host.opcode)
    (hbyte : ∀ i, host.opcode i < 256) (script : SheepScript) (fuel : Nat) (m : Machine)
    (pre code post : List Nat) (ops : List StackOp)
    (hstop : m.stopReading = false)
    (hint : ∀ x, StackOp.PushI x ∈ ops → isInt32 x)
    (hbal : ∀ n, pops (ops.take n) ≤ pushes (ops.take n))
    (hat : m.reader.pointsAt pre (encodeOps host ops ++ code) post) :
    runLoop host script (fuel + ops.length) m = runLoop host script fuel
        { m with reader := { m.reader with
                   pos := m.reader.pos + ((encodeOps host ops).length : Int) },
                 thread := { m.thread with
                   mStack := { mStack := applyOps ops m.thread.mStack.mStack } } } ∧
      (applyOps ops m.thread.mStack.mStack).length + pops ops
        = m.thread.mStack.mStack.length + pushes ops ∧
      (∀ (x : Int) (pre1 code1 : List Nat), isInt32 x →
        m.reader.pointsAt pre1 (host.opInt .PushI x ++ code1) post →
        runLoop host script (fuel + 1) m = runLoop host script fuel
          { m with reader := { m.reader with pos := m.reader.pos + 5 },
                   thread := { m.thread with
                     mStack := { mStack := { type := SheepValueType.Int, intValue := x }
                       :: m.thread.mStack.mStack } } }) ∧
      (∀ (top : SheepValue) (below : List SheepValue) (pre1 code1 : List Nat),
        m.thread.mStack.mStack = top :: below →
        m.reader.pointsAt pre1 (host.op .Pop ++ code1) post →
        runLoop host script (fuel + 1) m = runLoop host script fuel
          { m with reader := { m.reader with pos := m.reader.pos + 1 },
                   thread := { m.thread with mStack := { mStack := below } } }) := by
  have h := loop_ops hinj hbyte script ops fuel m pre hstop hint
    (fun n => Nat.le_trans (hbal n) (Nat.le_add_right _ _)) hat
  refine ⟨h.1, h.2, ?_, ?_⟩
  · intro x pre1 code1 hx hat1
    exact loop_PushI hinj hbyte hx hstop hat1
  · intro top below pre1 code1 hstack hat1
    exact loop_step hinj hbyte .Pop hstop hat1 (exec_Pop hstack)

theorem push_pop_depth_accounting_witness :
    runLoop Host.sample progReturn (2 + 3) machinePushPop
        = runLoop Host.sample progReturn 2
          { machinePushPop with
            reader := { machinePushPop.reader with pos := machinePushPop.reader.pos + 11 },
            thread := { machinePushPop.thread with
              mStack := { mStack := [{ type := SheepValueType.Int, intValue := 4 },
                                     { type := SheepValueType.Int, intValue := 8 }] } } } ∧
      (applyOps [.PushI 4, .PushI 5, .Pop] machinePushPop.thread.mStack.mStack).length
          + pops [.PushI 4, .PushI 5, .Pop]
        = machinePushPop.thread.mStack.mStack.length + pushes [.PushI 4, .PushI 5, .Pop] :=
  ⟨(push_pop_depth_accounting Host.sample sample_opcode_injective sample_opcode_byte
      progReturn 2 machinePushPop [] [11] [] [.PushI 4, .PushI 5, .Pop] rfl
      (fun x hx => by
        simp only [List.mem_cons, StackOp.PushI.injEq, List.mem_singleton, reduceCtorEq,
          List.mem_nil_iff, or_false] at hx
        rcases hx with h | h <;> subst h <;> exact ⟨by decide, by decide⟩)
      (fun n => by
        rcases n with _ | _ | _ | n <;> simp [pops, pushes])
      ⟨rfl, rfl, rfl⟩).1,
   (push_pop_depth_accounting Host.sample sample_opcode_injective sample_opcode_byte
      progReturn 2 machinePushPop [] [11] [] [.PushI 4, .PushI 5, .Pop] rfl
      (fun x hx => by
        simp only [List.mem_cons, StackOp.PushI.injEq, List.mem_singleton, reduceCtorEq,
          List.mem_nil_iff, or_false] at hx
        rcases hx with h | h <;> subst h <;> exact ⟨by decide, by decide⟩)
      (fun n => by
        rcases n with _ | _ | _ | n <;> simp [pops, pushes])
      ⟨rfl, rfl, rfl⟩).2.1⟩

/-! ### String constants -/

theorem exec_PushS {host : Host} {script : SheepScript} {m : Machine} {x : Int}
    {r : BinaryReader} (hread : m.reader.ReadInt = (x, r)) :
    execInstruction host script m (some .PushS)
      = .ok { m with reader := r,
                     thread := { m.thread with
                       mStack := m.thread.mStack.PushStringOffset x } } := by
  simp [execInstruction, Machine.readInt, hread, Machine.setStack]

theorem exec_GetString {host : Host} {script : SheepScript} {m : Machine}
    {top : SheepValue} {below : List SheepValue} {s : String}
    (hstack : m.thread.mStack.mStack = top :: below)
    (hres : script.GetStringConst top.intValue = some s) :
    execInstruction host script m (some .GetString)
      = .ok { m with thread := { m.thread with
                mStack := SheepStack.PushString { mStack := below } s } } := by
  simp [execInstruction, SheepStack.Pop, hstack, hres, Machine.setStack]

/-- C31: `PushS(off)` pushes the offset `off` as an Int; when `off` resolves in the string
constant pool of the script to the text `str`, the pair `PushS(off); GetString` leaves the
stack one deeper than before with the String `str` on top. The pool belongs to the script,
which the loop only reads: no instruction has it in its state. -/
theorem string_constants_are_pushed_indirectly (host : Host)
    (hinj : Function.Injective host.opcode) (hbyte : ∀ i, host.opcode i < 256)
    (script : SheepScript) (fuel : Nat) (m : Machine) (pre code post : List Nat)
    (off : Int) (str : String) (hoff : isInt32 off) (hstop : m.stopReading = false)
    (hres : script.GetStringConst off = some str) :
    (m.reader.pointsAt pre (host.opInt .PushS off ++ code) post →
      runLoop host script (fuel + 1) m = runLoop host script fuel
        { m with reader := { m.reader with pos := m.reader.pos + 5 },
                 thread := { m.thread with
                   mStack := { mStack := { type := SheepValueType.Int, intValue := off }
                     :: m.thread.mStack.mStack } } }) ∧
    (m.reader.pointsAt pre (host.opInt .PushS off ++ (host.op .GetString ++ code)) post →
      runLoop host script (fuel + 2) m = runLoop host script fuel
        { m with reader := { m.reader with pos := m.reader.pos + 6 },
                 thread := { m.thread with
                   mStack := { mStack := { type := SheepValueType.String, stringValue := str }
                     :: m.thread.mStack.mStack } } }) := by
  refine ⟨?_, ?_⟩
  · intro hat
    exact loop_step hinj hbyte .PushS hstop hat
      (exec_PushS (r := { m.reader with pos := m.reader.pos + 5 })
        (opInt_reads .PushS hoff hat))
  · intro hat
    have hat1 := pointsAt_opInt .PushS off hat
    rw [loop_step hinj hbyte .PushS hstop hat
      (exec_PushS (r := { m.reader with pos := m.reader.pos + 5 })
        (opInt_reads .PushS hoff hat))]
    rw [loop_step hinj hbyte .GetString
      (m := { m with reader := { m.reader with pos := m.reader.pos + 5 },
                     thread := { m.thread with
                       mStack := m.thread.mStack.PushStringOffset off } })
      hstop hat1 (exec_GetString (s := str) rfl hres)]
    congr 2
    exact pos_add_eq (by simp only; omega)

theorem string_constants_are_pushed_indirectly_witness :
    runLoop Host.sample progString (2 + 2) machineString
      = runLoop Host.sample progString 2
        { machineString with
          reader := { machineString.reader with pos := machineString.reader.pos + 6 },
          thread := { machineString.thread with
            mStack := { mStack := [{ type := SheepValueType.String, stringValue := "hello" },
                                   { type := SheepValueType.Int, intValue := 8 }] } } } :=
  (string_constants_are_pushed_indirectly Host.sample sample_opcode_injective
    sample_opcode_byte progString 2 machineString [] [11] [] 4 "hello"
    ⟨by decide, by decide⟩ rfl rfl).2 ⟨rfl, rfl, rfl⟩

/-! ### Operands that do not resolve -/

theorem store_out {m : Machine} {k : Int} {r : BinaryReader} (ty : SheepValueType)
    (write : SheepValue → SheepValue → SheepValue)
    (hread : m.reader.ReadInt = (k, r))
    (hout : ¬ (0 ≤ k ∧ k < (m.context.mVariables.length : Int))) :
    m.store ty write = .ok { m with reader := r } := by
  simp only [Machine.store, Machine.readInt, hread]
  rw [if_neg hout]

theorem load_out {m : Machine} {k : Int} {r : BinaryReader} (ty : SheepValueType)
    (push : SheepStack → SheepValue → SheepStack)
    (hread : m.reader.ReadInt = (k, r))
    (hout : ¬ (0 ≤ k ∧ k < (m.context.mVariables.length : Int))) :
    m.load ty push = .ok { m with reader := r } := by
  simp only [Machine.load, Machine.readInt, hread]
  rw [if_neg hout]

theorem loop_store_out {host : Host} (hinj : Function.Injective host.opcode)
    (hbyte : ∀ i, host.opcode i < 256) {script : SheepScript} {fuel : Nat} {m : Machine}
    {pre code post : List Nat} (i : SheepInstruction) (ty : SheepValueType)
    (write : SheepValue → SheepValue → SheepValue)
    (hop : ∀ m1 : Machine, execInstruction host script m1 (some i) = m1.store ty write)
    {k : Int} (hk : isInt32 k) (hstop : m.stopReading = false)
    (hout : ¬ (0 ≤ k ∧ k < (m.context.mVariables.length : Int)))
    (hat : m.reader.pointsAt pre (host.opInt i k ++ code) post) :
    runLoop host script (fuel + 1) m = runLoop host script fuel
      { m with reader := { m.reader with pos := m.reader.pos + 5 } } :=
  loop_step hinj hbyte i hstop hat
    ((hop _).trans (store_out ty write
      (m := { m with reader := { m.reader with pos := m.reader.pos + 1 } })
      (r := { m.reader with pos := m.reader.pos + 5 }) (opInt_reads i hk hat) hout))

theorem loop_load_out {host : Host} (hinj : Function.Injective host.opcode)
    (hbyte : ∀ i, host.opcode i < 256) {script : SheepScript} {fuel : Nat} {m : Machine}
    {pre code post : List Nat} (i : SheepInstruction) (ty : SheepValueType)
    (push : SheepStack → SheepValue → SheepStack)
    (hop : ∀ m1 : Machine, execInstruction host script m1 (some i) = m1.load ty push)
    {k : Int} (hk : isInt32 k) (hstop : m.stopReading = false)
    (hout : ¬ (0 ≤ k ∧ k < (m.context.mVariables.length : Int)))
    (hat : m.reader.pointsAt pre (host.opInt i k ++ code) post) :
    runLoop host script (fuel + 1) m = runLoop host script fuel
      { m with reader := { m.reader with pos := m.reader.pos + 5 } } :=
  loop_step hinj hbyte i hstop hat
    ((hop _).trans (load_out ty push
      (m := { m with reader := { m.reader with pos := m.reader.pos + 1 } })
      (r := { m.reader with pos := m.reader.pos + 5 }) (opInt_reads i hk hat) hout))

/-- C36: a Store or Load instruction (I, F or S) whose index operand `k` is negative or not
less than the number of variable slots only consumes its operand: the loop goes on with the
cursor five bytes on and the same thread (stack, flags) and context (variables). -/
theorem out_of_range_variable_index_is_ignored (host : Host)
    (hinj : Function.Injective host.opcode) (hbyte : ∀ i, host.opcode i < 256)
    (script : SheepScript) (fuel : Nat) (m : Machine) (pre code post : List Nat)
    (k : Int) (hk : isInt32 k) (hstop : m.stopReading = false)
    (hout : k < 0 ∨ (m.context.mVariables.length : Int) ≤ k) :
    (m.reader.pointsAt pre (host.opInt .StoreI k ++ code) post →
      runLoop host script (fuel + 1) m = runLoop host script fuel
        { m with reader := { m.reader with pos := m.reader.pos + 5 } }) ∧
    (m.reader.pointsAt pre (host.opInt .StoreF k ++ code) post →
      runLoop host script (fuel + 1) m = runLoop host script fuel
        { m with reader := { m.reader with pos := m.reader.pos + 5 } }) ∧
    (m.reader.pointsAt pre (host.opInt .StoreS k ++ code) post →
      runLoop host script (fuel + 1) m = runLoop host script fuel
        { m with reader := { m.reader with pos := m.reader.pos + 5 } }) ∧
    (m.reader.pointsAt pre (host.opInt .LoadI k ++ code) post →
      runLoop host script (fuel + 1) m = runLoop host script fuel
        { m with reader := { m.reader with pos := m.reader.pos + 5 } }) ∧
    (m.reader.pointsAt pre (host.opInt .LoadF k ++ code) post →
      runLoop host script (fuel + 1) m = runLoop host script fuel
        { m with reader := { m.reader with pos := m.reader.pos + 5 } }) ∧
    (m.reader.pointsAt pre (host.opInt .LoadS k ++ code) post →
      runLoop host script (fuel + 1) m = runLoop host script fuel
        { m with reader := { m.reader with pos := m.reader.pos + 5 } }) := by
  have hno : ¬ (0 ≤ k ∧ k < (m.context.mVariables.length : Int)) := by omega
  refine ⟨?_, ?_, ?_, ?_, ?_, ?_⟩
  · exact fun hat => loop_store_out hinj hbyte .StoreI SheepValueType.Int
      (fun slot value => { slot with intValue := value.intValue }) (fun _ => rfl)
      hk hstop hno hat
  · exact fun hat => loop_store_out hinj hbyte .StoreF SheepValueType.Float
      (fun slot value => { slot with floatValue := value.floatValue }) (fun _ => rfl)
      hk hstop hno hat
  · exact fun hat => loop_store_out hinj hbyte .StoreS SheepValueType.String
      (fun slot value => { slot with stringValue := value.stringValue }) (fun _ => rfl)
      hk hstop hno hat
  · exact fun hat => loop_load_out hinj hbyte .LoadI SheepValueType.Int
      (fun s slot => s.PushInt slot.intValue) (fun _ => rfl) hk hstop hno hat
  · exact fun hat => loop_load_out hinj hbyte .LoadF SheepValueType.Float
      (fun s slot => s.PushFloat slot.floatValue) (fun _ => rfl) hk hstop hno hat
  · exact fun hat => loop_load_out hinj hbyte .LoadS SheepValueType.String
      (fun s slot => s.PushString slot.stringValue) (fun _ => rfl) hk hstop hno hat

theorem out_of_range_variable_index_is_ignored_witness :
    runLoop Host.sample progReturn (2 + 1) machineStoreOut
      = runLoop Host.sample progReturn 2
        { machineStoreOut with
          reader := { machineStoreOut.reader with pos := machineStoreOut.reader.pos + 5 } } :=
  (out_of_range_variable_index_is_ignored Host.sample sample_opcode_injective
    sample_opcode_byte progReturn 2 machineStoreOut [] [11] [] 3 ⟨by decide, by decide⟩ rfl
    (Or.inr (by decide))).1 ⟨rfl, rfl, rfl⟩

theorem sysCall_unresolved {host : Host} {script : SheepScript} {m : Machine} {k : Int}
    {r : BinaryReader} (push : SheepStack → Value → SheepStack)
    (hread : m.reader.ReadInt = (k, r))
    (hnone : script.GetSysImport k = none) :
    m.sysCall host script push = .ok { m with reader := r } := by
  simp [Machine.sysCall, Machine.readInt, hread, hnone]

theorem loop_sysCall_unresolved {host : Host} (hinj : Function.Injective host.opcode)
    (hbyte : ∀ i, host.opcode i < 256) {script : SheepScript} {fuel : Nat} {m : Machine}
    {pre code post : List Nat} (i : SheepInstruction)
    (push : SheepStack → Value → SheepStack)
    (hop : ∀ m1 : Machine, execInstruction host script m1 (some i)
      = m1.sysCall host script push)
    {k : Int} (hk : isInt32 k) (hstop : m.stopReading = false)
    (hnone : script.GetSysImport k = none)
    (hat : m.reader.pointsAt pre (host.opInt i k ++ code) post) :
    runLoop host script (fuel + 1) m = runLoop host script fuel
      { m with reader := { m.reader with pos := m.reader.pos + 5 } } :=
  loop_step hinj hbyte i hstop hat
    ((hop _).trans (sysCall_unresolved push
      (m := { m with reader := { m.reader with pos := m.reader.pos + 1 } })
      (r := { m.reader with pos := m.reader.pos + 5 }) (opInt_reads i hk hat) hnone))

/-- C37: a `CallSysFunction` instruction (V, I, F or S) whose import index `k` does not
resolve to an import of the script only consumes its operand: the loop goes on with the
cursor five bytes on and the same thread and context as before, so nothing was popped or
pushed, the wait counter and the error flag are as they were, and the bridge was not
called. -/
theorem unresolved_import_leaves_stack_untouched (host : Host)
    (hinj : Function.Injective host.opcode) (hbyte : ∀ i, host.opcode i < 256)
    (script : SheepScript) (fuel : Nat) (m : Machine) (pre code post : List Nat)
    (k : Int) (hk : isInt32 k) (hstop : m.stopReading = false)
    (hnone : script.GetSysImport k = none) :
    (m.reader.pointsAt pre (host.opInt .CallSysFunctionV k ++ code) post →
      runLoop host script (fuel + 1) m = runLoop host script fuel
        { m with reader := { m.reader with pos := m.reader.pos + 5 } }) ∧
    (m.reader.pointsAt pre (host.opInt .CallSysFunctionI k ++ code) post →
      runLoop host script (fuel + 1) m = runLoop host script fuel
        { m with reader := { m.reader with pos := m.reader.pos + 5 } }) ∧
    (m.reader.pointsAt pre (host.opInt .CallSysFunctionF k ++ code) post →
      runLoop host script (fuel + 1) m = runLoop host script fuel
        { m with reader := { m.reader with pos := m.reader.pos + 5 } }) ∧
    (m.reader.pointsAt pre (host.opInt .CallSysFunctionS k ++ code) post →
      runLoop host script (fuel + 1) m = runLoop host script fuel
        { m with reader := { m.reader with pos := m.reader.pos + 5 } }) := by
  refine ⟨?_, ?_, ?_, ?_⟩
  · exact fun hat => loop_sysCall_unresolved hinj hbyte .CallSysFunctionV
      (fun s value => s.PushInt value.toInt) (fun _ => rfl) hk hstop hnone hat
  · exact fun hat => loop_sysCall_unresolved hinj hbyte .CallSysFunctionI
      (fun s value => s.PushInt value.toInt) (fun _ => rfl) hk hstop hnone hat
  · exact fun hat => loop_sysCall_unresolved hinj hbyte .CallSysFunctionF
      (fun s value => s.PushFloat value.toFloat) (fun _ => rfl) hk hstop hnone hat
  · exact fun hat => loop_sysCall_unresolved hinj hbyte .CallSysFunctionS
      (fun s value => s.PushString value.toStr) (fun _ => rfl) hk hstop hnone hat

theorem unresolved_import_leaves_stack_untouched_witness :
    runLoop Host.subtracting progCall (2 + 1) machineCallOut
      = runLoop Host.subtracting progCall 2
        { machineCallOut with
          reader := { machineCallOut.reader with pos := machineCallOut.reader.pos + 5 } } :=
  (unresolved_import_leaves_stack_untouched Host.subtracting sample_opcode_injective
    sample_opcode_byte progCall 2 machineCallOut [] [11] [] 5 ⟨by decide, by decide⟩ rfl
    rfl).2.1 ⟨rfl, rfl, rfl⟩

/-! ### Shape of the variables -/

theorem sameShape_refl (m : Machine) : m.sameShape m := rfl

theorem sameShape_trans {a b c : Machine} (h1 : a.sameShape b) (h2 : b.sameShape c) :
    a.sameShape c := by
  unfold Machine.sameShape at *
  rw [h2, h1]

theorem shape_set {vars : List SheepValue} {k : Nat} {slot x : SheepValue}
    (hslot : vars[k]? = some slot) (hx : x.type = slot.type) :
    shape (vars.set k x) = shape vars := by
  unfold shape
  apply List.ext_getElem?
  intro i
  simp only [List.getElem?_map, List.getElem?_set]
  by_cases h : k = i
  · subst h
    simp [hslot, hx, lt_length_of_getElem? hslot]
  · simp [h]

theorem shape_modify {vars : List SheepValue} {k : Nat} (f : SheepValue → SheepValue)
    (hf : ∀ slot, (f slot).type = slot.type) :
    shape (vars.modify f k) = shape vars := by
  unfold shape
  apply List.ext_getElem?
  intro i
  simp only [List.getElem?_map, List.getElem?_modify]
  by_cases h : k = i
  · subst h
    cases vars[k]? <;> simp [hf]
  · simp [h]

theorem intBinary_sameShape {m m' : Machine} {f : Int → Int → Except Fault Int}
    (h : m.intBinary f = .ok m') : m.sameShape m' := by
  unfold Machine.intBinary at h
  repeat' split at h
  all_goals first
    | contradiction
    | (cases h; exact sameShape_refl _)

theorem floatBinary_sameShape {m m' : Machine} {f : Nat → Nat → Nat}
    (h : m.floatBinary f = .ok m') : m.sameShape m' := by
  unfold Machine.floatBinary at h
  repeat' split at h
  all_goals first
    | contradiction
    | (cases h; exact sameShape_refl _)

theorem floatCompare_sameShape {m m' : Machine} {f : Nat → Nat → Bool}
    (h : m.floatCompare f = .ok m') : m.sameShape m' := by
  unfold Machine.floatCompare at h
  repeat' split at h
  all_goals first
    | contradiction
    | (cases h; exact sameShape_refl _)

theorem onTop_sameShape {m m' : Machine} {f : SheepValue → SheepValue}
    (h : m.onTop f = .ok m') : m.sameShape m' := by
  unfold Machine.onTop at h
  repeat' split at h
  all_goals first
    | contradiction
    | (cases h; exact sameShape_refl _)

theorem callSysFunc_sameShape {host : Host} {m m' : Machine} {imp : SysImport} {value : Value}
    (h : CallSysFunc host m imp = .ok (value, m')) : m.sameShape m' := by
  unfold CallSysFunc at h
  dsimp only at h
  repeat' split at h
  all_goals first
    | contradiction
    | (cases h; exact sameShape_refl _)

theorem sysCall_sameShape {host : Host} {script : SheepScript} {m m' : Machine}
    {push : SheepStack → Value → SheepStack}
    (h : m.sysCall host script push = .ok m') : m.sameShape m' := by
  unfold Machine.sysCall at h
  simp only [Machine.readInt] at h
  split at h
  · cases h; exact sameShape_refl _
  · split at h
    · contradiction
    · rename_i value m2 hc
      cases h
      have hs := callSysFunc_sameShape hc
      simpa only [Machine.sameShape, Machine.setStack] using hs

theorem store_sameShape {m m' : Machine} {ty : SheepValueType}
    {write : SheepValue → SheepValue → SheepValue}
    (h : m.store ty write = .ok m')
    (hw : ∀ slot value, (write slot value).type = slot.type) : m.sameShape m' := by
  unfold Machine.store at h
  simp only [Machine.readInt] at h
  repeat' split at h
  all_goals first
    | contradiction
    | (cases h; exact sameShape_refl _)
    | skip
  rename_i slot hslot _ _ value stack _
  cases h
  exact shape_set hslot (hw slot value)

theorem load_sameShape {m m' : Machine} {ty : SheepValueType}
    {push : SheepStack → SheepValue → SheepStack}
    (h : m.load ty push = .ok m') : m.sameShape m' := by
  unfold Machine.load at h
  simp only [Machine.readInt] at h
  repeat' split at h
  all_goals first
    | contradiction
    | (cases h; exact sameShape_refl _)

theorem execInstruction_sameShape {host : Host} {script : SheepScript} {m m' : Machine}
    {ins : Option SheepInstruction}
    (h : execInstruction host script m ins = .ok m') : m.sameShape m' := by
  cases ins with
  | none =>
    simp only [execInstruction] at h
    cases h
    exact sameShape_refl _
  | some i =>
    cases i <;> simp only [execInstruction] at h
    all_goals first
      | exact intBinary_sameShape h
      | exact floatBinary_sameShape h
      | exact floatCompare_sameShape h
      | exact onTop_sameShape h
      | exact sysCall_sameShape h
      | exact store_sameShape h (fun _ _ => rfl)
      | exact load_sameShape h
      | (try simp only [Machine.readInt, Machine.readFloat] at h
         repeat' split at h
         all_goals first
           | contradiction
           | (cases h; exact sameShape_refl _))

theorem runLoop_sameShape {host : Host} {script : SheepScript} :
    ∀ (fuel : Nat) {m m' : Machine}, runLoop host script fuel m = .ok m' → m.sameShape m'
  | 0, _, _, h => by simp [runLoop] at h
  | fuel + 1, m, m', h => by
    unfold runLoop at h
    split at h
    · cases h
      exact sameShape_refl _
    · dsimp only at h
      split at h
      · cases h
        exact sameShape_refl _
      · split at h
        · contradiction
        · rename_i m1 hstep
          have hs := execInstruction_sameShape hstep
          exact sameShape_trans (a := m) hs (runLoop_sameShape fuel h)

theorem shape_modify_int (vars : List SheepValue) (k : Nat) (x : Int) :
    shape (vars.modify (fun slot => { slot with intValue := x }) k) = shape vars :=
  shape_modify (fun slot => { slot with intValue := x }) (fun _ => rfl)

theorem seedVariables_shape (vars : List SheepValue) (n v : Int) :
    shape (seedVariables vars n v) = shape vars := by
  unfold seedVariables
  dsimp only
  split
  · split
    · rw [shape_modify_int, shape_modify_int]
    · rw [shape_modify_int]
  · split
    · rw [shape_modify_int]
    · rfl

theorem store_mismatch {m : Machine} {k : Nat} {r : BinaryReader} (ty : SheepValueType)
    (write : SheepValue → SheepValue → SheepValue) (slot : SheepValue)
    (hread : m.reader.ReadInt = ((k : Int), r))
    (hslot : m.context.mVariables[k]? = some slot) (ht : slot.type ≠ ty) :
    m.store ty write = .error Fault.assertion := by
  have hk := lt_length_of_getElem? hslot
  simp [Machine.store, Machine.readInt, hread, hk, hslot, ht]

theorem load_mismatch {m : Machine} {k : Nat} {r : BinaryReader} (ty : SheepValueType)
    (push : SheepStack → SheepValue → SheepStack) (slot : SheepValue)
    (hread : m.reader.ReadInt = ((k : Int), r))
    (hslot : m.context.mVariables[k]? = some slot) (ht : slot.type ≠ ty) :
    m.load ty push = .error Fault.assertion := by
  have hk := lt_length_of_getElem? hslot
  simp [Machine.load, Machine.readInt, hread, hk, hslot, ht]

/-- C35: no instruction, no run of the loop and no seeding by `Evaluate` changes the
shape of the variables (the number of slots and the type tag of each slot). With a valid
index and a value on the stack, a Store whose type is the tag of the slot writes only the
payload field of that type; a Store or Load whose type is not the tag of the slot fails
its assertion. -/
theorem variable_slots_keep_their_shape (host : Host) (script : SheepScript) :
    (∀ (ins : Option SheepInstruction) (m m' : Machine),
      execInstruction host script m ins = .ok m' →
      shape m'.context.mVariables = shape m.context.mVariables) ∧
    (∀ (fuel : Nat) (m m' : Machine), runLoop host script fuel m = .ok m' →
      shape m'.context.mVariables = shape m.context.mVariables) ∧
    (∀ (vars : List SheepValue) (n v : Int), shape (seedVariables vars n v) = shape vars) ∧
    (∀ (m : Machine) (k : Nat) (r : BinaryReader) (slot top : SheepValue)
        (below : List SheepValue),
      m.reader.ReadInt = ((k : Int), r) → m.context.mVariables[k]? = some slot →
      m.thread.mStack.mStack = top :: below →
      (slot.type = SheepValueType.Int →
        (execInstruction host script m (some .StoreI)).map (fun m' => m'.context.mVariables)
          = .ok (m.context.mVariables.set k { slot with intValue := top.intValue })) ∧
      (slot.type = SheepValueType.Float →
        (execInstruction host script m (some .StoreF)).map (fun m' => m'.context.mVariables)
          = .ok (m.context.mVariables.set k { slot with floatValue := top.floatValue })) ∧
      (slot.type = SheepValueType.String →
        (execInstruction host script m (some .StoreS)).map (fun m' => m'.context.mVariables)
          = .ok (m.context.mVariables.set k { slot with stringValue := top.stringValue }))) ∧
    (∀ (m : Machine) (k : Nat) (r : BinaryReader) (slot : SheepValue),
      m.reader.ReadInt = ((k : Int), r) → m.context.mVariables[k]? = some slot →
      (slot.type ≠ SheepValueType.Int →
        execInstruction host script m (some .StoreI) = .error Fault.assertion ∧
        execInstruction host script m (some .LoadI) = .error Fault.assertion) ∧
      (slot.type ≠ SheepValueType.Float →
        execInstruction host script m (some .StoreF) = .error Fault.assertion ∧
        execInstruction host script m (some .LoadF) = .error Fault.assertion) ∧
      (slot.type ≠ SheepValueType.String →
        execInstruction host script m (some .StoreS) = .error Fault.assertion ∧
        execInstruction host script m (some .LoadS) = .error Fault.assertion)) := by
  refine ⟨?_, ?_, seedVariables_shape, ?_, ?_⟩
  · intro ins m m' h
    exact execInstruction_sameShape h
  · intro fuel m m' h
    exact runLoop_sameShape fuel h
  · intro m k r slot top below hread hslot hstack
    refine ⟨?_, ?_, ?_⟩
    · intro ht
      have h : execInstruction host script m (some .StoreI) = _ :=
        store_ok SheepValueType.Int (fun slot value => { slot with intValue := value.intValue })
          slot below hread hslot ht hstack
      rw [h]; rfl
    · intro ht
      have h : execInstruction host script m (some .StoreF) = _ :=
        store_ok SheepValueType.Float
          (fun slot value => { slot with floatValue := value.floatValue })
          slot below hread hslot ht hstack
      rw [h]; rfl
    · intro ht
      have h : execInstruction host script m (some .StoreS) = _ :=
        store_ok SheepValueType.String
          (fun slot value => { slot with stringValue := value.stringValue })
          slot below hread hslot ht hstack
      rw [h]; rfl
  · intro m k r slot hread hslot
    refine ⟨?_, ?_, ?_⟩
    · intro ht
      exact ⟨store_mismatch SheepValueType.Int _ slot hread hslot ht,
        load_mismatch SheepValueType.Int (fun s slot => s.PushInt slot.intValue) slot hread
          hslot ht⟩
    · intro ht
      exact ⟨store_mismatch SheepValueType.Float _ slot hread hslot ht,
        load_mismatch SheepValueType.Float (fun s slot => s.PushFloat slot.floatValue) slot
          hread hslot ht⟩
    · intro ht
      exact ⟨store_mismatch SheepValueType.String _ slot hread hslot ht,
        load_mismatch SheepValueType.String (fun s slot => s.PushString slot.stringValue)
          slot hread hslot ht⟩

theorem variable_slots_keep_their_shape_witness :
    execInstruction Host.sample progReturn machineMismatch (some .StoreI)
        = .error Fault.assertion ∧
      execInstruction Host.sample progReturn machineMismatch (some .LoadI)
        = .error Fault.assertion :=
  ((variable_slots_keep_their_shape Host.sample progReturn).2.2.2.2 machineMismatch 0
    { machineMismatch.reader with pos := 5 }
    { type := SheepValueType.Float, floatValue := 5 } rfl rfl).1 (by decide)

/-! ### Contexts in use -/

theorem executeInternalThread_inv {host : Host} {fuel : Nat} {vm vm' : SheepVM} {t : Nat}
    (h : vm.ExecuteInternalThread host fuel t = .ok vm') :
    ∃ thread c context script,
      vm.mSheepThreads[t]? = some thread ∧ thread.mContext = some c ∧
      vm.mSheepInstances[c]? = some context ∧ context.mSheepScript = some script ∧
      ((script.mBytecode = none ∧
          vm' = { vm with mCurrentThread := some t,
                          mSheepThreads := vm.mSheepThreads.set t thread.start }) ∨
        ∃ bytes m, script.mBytecode = some bytes ∧
          runLoop host script fuel
            { reader := { data := bytes, pos := thread.mCodeOffset, ok := true },
              thread := thread.start, context := context, stopReading := false,
              mExecutionError := vm.mExecutionError } = .ok m ∧
          vm' = vm.finishRun vm.mCurrentThread t c m) := by
  cases ht : vm.mSheepThreads[t]? with
  | none => simp [SheepVM.ExecuteInternalThread, ht] at h
  | some thread =>
    cases hc : thread.mContext with
    | none =>
      have hc1 : thread.start.mContext = none := by rw [(start_fields thread).1, hc]
      simp [SheepVM.ExecuteInternalThread, ht, hc1] at h
    | some c =>
      have hc1 : thread.start.mContext = some c := by rw [(start_fields thread).1, hc]
      cases hi : vm.mSheepInstances[c]? with
      | none => simp [SheepVM.ExecuteInternalThread, ht, hc1, hi] at h
      | some context =>
        cases hs : context.mSheepScript with
        | none => simp [SheepVM.ExecuteInternalThread, ht, hc1, hi, hs] at h
        | some script =>
          refine ⟨thread, c, context, script, rfl, hc, hi, hs, ?_⟩
          cases hb : script.mBytecode with
          | none =>
            left
            refine ⟨rfl, ?_⟩
            simp [SheepVM.ExecuteInternalThread, ht, hc1, hi, hs, hb, BinaryReader.new,
              BinaryReader.OK] at h
            exact h.symm
          | some bytes =>
            right
            rw [executeInternalThread_drive host fuel ht hc hi hs hb] at h
            cases hr : runLoop host script fuel
              { reader := { data := bytes, pos := thread.mCodeOffset, ok := true },
                thread := thread.start, context := context, stopReading := false,
                mExecutionError := vm.mExecutionError } with
            | error e => rw [hr] at h; cases h
            | ok m =>
              rw [hr] at h
              simp only [Except.map, Except.ok.injEq] at h
              exact ⟨bytes, m, rfl, hr, h.symm⟩

theorem getElem?_set_other {α : Type} (l : List α) {c j : Nat} (x : α) (h : j ≠ c) :
    (l.set c x)[j]? = l[j]? := by
  simp [List.getElem?_set, Ne.symm h]

theorem getElem?_modify_other {α : Type} (l : List α) (f : α → α) {c j : Nat} (h : j ≠ c) :
    (l.modify f c)[j]? = l[j]? := by
  simp [List.getElem?_modify, Ne.symm h]

theorem finishRun_instances_other (vm : SheepVM) (prev : Option Nat) (t c : Nat) (m : Machine)
    {j : Nat} (h : j ≠ c) :
    (vm.finishRun prev t c m).mSheepInstances[j]? = vm.mSheepInstances[j]? := by
  unfold SheepVM.finishRun
  dsimp only
  split
  · simp only [finish_eq, SheepVM.release]
    rw [getElem?_modify_other _ _ h, getElem?_set_other _ _ h]
  · exact getElem?_set_other _ _ h

theorem executeInternalThread_instances_other {host : Host} {fuel : Nat} {vm vm' : SheepVM}
    {t c : Nat} {thread : SheepThread}
    (h : vm.ExecuteInternalThread host fuel t = .ok vm')
    (ht : vm.mSheepThreads[t]? = some thread) (hc : thread.mContext = some c)
    {j : Nat} (hj : j ≠ c) :
    vm'.mSheepInstances[j]? = vm.mSheepInstances[j]? := by
  obtain ⟨thread', c', context, script, ht', hc', -, -, hcase⟩ := executeInternalThread_inv h
  rw [ht] at ht'
  cases ht'
  rw [hc] at hc'
  cases hc'
  rcases hcase with ⟨-, rfl⟩ | ⟨bytes, m, -, -, rfl⟩
  · rfl
  · exact finishRun_instances_other vm _ t c m hj

theorem executeInternal_instances_other {host : Host} {fuel : Nat} {vm vm' : SheepVM}
    {c : Nat} {off : Int} {name : String} {cb : Option Nat} {t : Option Nat}
    (h : vm.ExecuteInternal host fuel (some c) off name cb = .ok (t, vm'))
    {j : Nat} (hj : j ≠ c) :
    vm'.mSheepInstances[j]? = vm.mSheepInstances[j]? := by
  unfold SheepVM.ExecuteInternal at h
  dsimp only at h
  split at h
  · contradiction
  · rename_i vm4 h4
    simp only [Except.ok.injEq, Prod.mk.injEq] at h
    rw [← h.2]
    obtain ⟨thread, c', context, script, ht, hc, -, -, -⟩ := executeInternalThread_inv h4
    have hcc : c' = c := by
      simp only [SheepVM.retain] at ht
      have hlt := lt_length_of_getElem? ht
      simp only [List.length_modify] at hlt
      rw [List.getElem?_modify] at ht
      cases hth : (vm.GetThread).2.mSheepThreads[(vm.GetThread).1]? with
      | none => rw [hth] at ht; cases ht
      | some th0 =>
        rw [hth] at ht
        simp at ht
        rw [← ht] at hc
        simpa [SheepThread.assign] using hc.symm
    subst hcc
    rw [executeInternalThread_instances_other h4 ht hc hj]
    simp only [SheepVM.retain]
    rw [getElem?_modify_other _ _ hj, getThread_instances]

theorem getInstance_some (vm : SheepVM) (p : SheepScript) :
    ∃ c, vm.GetInstance (some p) = (some c, (vm.GetInstance (some p)).2) := by
  unfold SheepVM.GetInstance
  dsimp only
  split
  · exact ⟨_, rfl⟩
  · split <;> exact ⟨_, rfl⟩

theorem getInstance_keeps_used (vm : SheepVM) (p : SheepScript) {c : Nat} {ctx : SheepInstance}
    (hctx : vm.mSheepInstances[c]? = some ctx) (hused : 0 < ctx.mReferenceCount) :
    (vm.GetInstance (some p)).2.mSheepInstances[c]? = some ctx := by
  unfold SheepVM.GetInstance
  dsimp only
  split
  · exact hctx
  · split
    · rename_i i hf
      obtain ⟨a, hget, hp, -⟩ := findIdx?_some_spec hf
      have hic : c ≠ i := by
        rintro rfl
        rw [hctx] at hget
        cases hget
        simp at hp
        omega
      simp only
      rw [getElem?_modify_other _ _ hic]
      exact hctx
    · simp only
      rw [List.getElem?_append_left (lt_length_of_getElem? hctx)]
      exact hctx

theorem getInstance_other_index {vm vm1 : SheepVM} {p : SheepScript} {c c1 : Nat}
    {ctx : SheepInstance}
    (h : vm.GetInstance (some p) = (some c1, vm1))
    (hctx : vm1.mSheepInstances[c]? = some ctx) (hp : ctx.mSheepScript ≠ some p) :
    c ≠ c1 := by
  obtain ⟨ctx1, h1, hs1, -⟩ := getInstance_spec h
  rintro rfl
  rw [hctx] at h1
  cases h1
  exact hp hs1

/-- C34: `GetInstance(p)` leaves every context whose reference count is positive as it is
(bound script and variables included); hence an `Execute` or `Evaluate` of a script other
than the one such a context is bound to returns with that context unchanged. -/
theorem context_in_use_is_never_rebound (host : Host) (fuel : Nat) (vm : SheepVM)
    (p : SheepScript) (c : Nat) (ctx : SheepInstance)
    (hctx : vm.mSheepInstances[c]? = some ctx) (hused : 0 < ctx.mReferenceCount) :
    (vm.GetInstance (some p)).2.mSheepInstances[c]? = some ctx ∧
    (ctx.mSheepScript ≠ some p →
      (∀ (off : Int) (cb : Option Nat) (vm' : SheepVM),
        vm.Execute host fuel (some p) off cb = .ok vm' →
        vm'.mSheepInstances[c]? = some ctx) ∧
      (∀ (name : String) (cb : Option Nat) (vm' : SheepVM),
        vm.ExecuteFunction host fuel (some p) name cb = .ok vm' →
        vm'.mSheepInstances[c]? = some ctx) ∧
      (∀ (n v : Int) (b : Bool) (vm' : SheepVM),
        vm.Evaluate host fuel (some p) n v = .ok (b, vm') →
        vm'.mSheepInstances[c]? = some ctx)) := by
  have hkeep := getInstance_keeps_used vm p hctx hused
  obtain ⟨c1, hg⟩ := getInstance_some vm p
  refine ⟨hkeep, fun hp => ?_⟩
  have hne : c ≠ c1 := getInstance_other_index hg hkeep hp
  have hscript : ∀ (off : Int) (name : String) (cb : Option Nat) (t : Option Nat)
      (vm' : SheepVM),
      vm.ExecuteInternalScript host fuel (some p) off name cb = .ok (t, vm') →
      vm'.mSheepInstances[c]? = some ctx := by
    intro off name cb t vm' h
    unfold SheepVM.ExecuteInternalScript at h
    rw [hg] at h
    rw [executeInternal_instances_other h hne]
    exact hkeep
  refine ⟨?_, ?_, ?_⟩
  · intro off cb vm' h
    unfold SheepVM.Execute at h
    split at h
    · contradiction
    · rename_i t vm1 h1
      cases h
      exact hscript off "X$" cb t _ h1
  · intro name cb vm' h
    unfold SheepVM.ExecuteFunction at h
    dsimp only at h
    split at h
    · cases h
      rw [finish_eq]
      exact hctx
    · split at h
      · contradiction
      · rename_i t vm1 h1
        cases h
        exact hscript _ name cb t _ h1
  · intro n v b vm' h
    unfold SheepVM.Evaluate at h
    rw [hg] at h
    dsimp only at h
    repeat' split at h
    all_goals first
      | contradiction
      | skip
    rename_i _ t vm3 h3 _ thread ht _ b1 stack hres
    simp only [Except.ok.injEq, Prod.mk.injEq] at h
    rw [← h.2]
    simp only
    rw [executeInternal_instances_other h3 hne]
    simp only [SheepVM.seed]
    rw [getElem?_modify_other _ _ hne]
    exact hkeep

theorem context_in_use_is_never_rebound_witness :
    (vmTwoContexts.GetInstance (some progCounter)).2.mSheepInstances[0]?
      = some { mSheepScript := some progReturn, mReferenceCount := 3 } :=
  (context_in_use_is_never_rebound Host.sample 10 vmTwoContexts progCounter 0
    { mSheepScript := some progReturn, mReferenceCount := 3 } rfl (by decide)).1

/-! ### Early exit -/

theorem finishRun_current (vm : SheepVM) (prev : Option Nat) (t c : Nat) (m : Machine) :
    (vm.finishRun prev t c m).mCurrentThread = prev := rfl

/-- C38: on the path through the loop the current-thread field is set back to its value
at entry, but not on the early exit: a call of `Execute` on the empty machine for a script
whose reader is not OK after construction returns with the current-thread field pointing at
the thread of the call (it was null at entry), the thread still marked running, the
reference count of the context still incremented and the callback not invoked. -/
theorem early_exit_leaves_current_thread_set :
    ({} : SheepVM).mCurrentThread = none ∧
    ({} : SheepVM).Execute Host.sample 10 (some progNoBuffer) 0 (some 7)
      = .ok { mSheepInstances := [{ mSheepScript := some progNoBuffer, mReferenceCount := 1 }],
              mSheepThreads := [{ mContext := some 0, mWaitCallback := some 7,
                                  mFunctionName := "X$", mRunning := true }],
              mCurrentThread := some 0,
              mExecutionError := false,
              invoked := [] } ∧
    (∀ (vm : SheepVM) (prev : Option Nat) (t c : Nat) (m : Machine),
      (vm.finishRun prev t c m).mCurrentThread = prev) :=
  ⟨rfl, rfl, finishRun_current⟩

/-! ### Barn header -/

theorem barnFile_rejects_when_both_differ (k : BarnConstants) (bytes : List Nat) :
    ((FileReader.ReadUInt { data := bytes }).1 ≠ k.kGameIdentifier ∧
        (FileReader.ReadUInt { data := bytes, pos := 4 }).1 ≠ k.kBarnIdentifier →
      BarnFile.new k (some bytes) = { mReader := { data := bytes, pos := 8 } }) := by
  intro h
  simp only [BarnFile.new, FileReader.ReadUInt] at h ⊢
  rw [if_pos h]

/-- C32: the constructor rejects a file only when both identifiers differ from the
expected ones. A file with the expected game identifier and another barn identifier, and a
file with the expected barn identifier and another game identifier, are both read through:
the table of contents and the asset entry are read and the asset is entered in the map.
Only the file in which both differ is left after the two identifiers with an empty map. -/
theorem barn_header_accepts_one_wrong_identifier :
    (BarnFile.new BarnConstants.sample (some barnWrongBarnId)).mAssetMap
        = [([65], { name := [65], compressedSize := 3, uncompressedSize := 3 })] ∧
    (BarnFile.new BarnConstants.sample (some barnWrongBarnId)).mReader.pos = 157 ∧
    (BarnFile.new BarnConstants.sample (some barnWrongGameId)).mAssetMap
        = [([65], { name := [65], compressedSize := 3, uncompressedSize := 3 })] ∧
    (BarnFile.new BarnConstants.sample (some barnWrongGameId)).mReader.pos = 157 ∧
    (BarnFile.new BarnConstants.sample (some barnWrongBoth)).mAssetMap = [] ∧
    (BarnFile.new BarnConstants.sample (some barnWrongBoth)).mReader.pos = 8 := by
  refine ⟨?_, ?_, ?_, ?_, ?_, ?_⟩ <;> decide

/-! ### String tokenizer -/

theorem splitStep_after (str : List Char) (i : Nat) (tokens : List (List Char)) :
    ∀ splitChars : List Char,
      splitChars.foldl (splitStep str i) (i + 1, tokens) = (i + 1, tokens)
  | [] => rfl
  | c :: rest => by
    have h : splitStep str i (i + 1, tokens) c = (i + 1, tokens) := by
      unfold splitStep
      split
      · have : ¬ ((i : Int) - ((i + 1 : Nat) : Int) > 1) := by push_cast; omega
        simp only [this, if_false]
      · rfl
    rw [List.foldl_cons, h]
    exact splitStep_after str i tokens rest

theorem splitStep_fold (str : List Char) (i : Nat) (c : Char) (hc : str[i]? = some c)
    (start : Nat) (tokens : List (List Char)) :
    ∀ splitChars : List Char,
      splitChars.foldl (splitStep str i) (start, tokens)
        = if c ∈ splitChars then
            (i + 1,
              if (i : Int) - (start : Int) > 1 then tokens ++ [substr str start (i - start)]
              else tokens)
          else (start, tokens)
  | [] => by simp
  | d :: rest => by
    rw [List.foldl_cons]
    by_cases hd : c = d
    · subst hd
      have h : splitStep str i (start, tokens) c
          = (i + 1, if (i : Int) - (start : Int) > 1 then
              tokens ++ [substr str start (i - start)] else tokens) := by
        simp [splitStep, hc]
      rw [h, splitStep_after]
      simp
    · have h : splitStep str i (start, tokens) d = (start, tokens) := by
        have : ¬ (str[i]? = some d) := by
          rw [hc]
          simpa using hd
        simp [splitStep, this]
      rw [h, splitStep_fold str i c hc start tokens rest]
      simp [hd]

theorem substr_length (str : List Char) (start i : Nat) (hs : start ≤ i) (hi : i ≤ str.length) :
    (substr str start (i - start)).length = i - start := by
  simp only [substr, List.length_take, List.length_drop]
  omega

theorem substr_succ (str : List Char) (start i : Nat) (c : Char) (hs : start ≤ i)
    (hc : str[i]? = some c) :
    substr str start (i + 1 - start) = substr str start (i - start) ++ [c] := by
  have h1 : i + 1 - start = (i - start) + 1 := by omega
  have h2 : (str.drop start)[i - start]? = some c := by
    rw [List.getElem?_drop]
    have : start + (i - start) = i := by omega
    rw [this, hc]
  simp only [substr, h1, List.take_succ, h2, Option.toList]

theorem scanFrom_eq (splitChars : List Char) :
    ∀ (str cur : List Char) (tokens : List (List Char)),
      scanFrom splitChars str cur tokens
        = tokens ++ (((str.splitOnP (fun c => decide (c ∈ splitChars))).modifyHead
            (fun run => cur ++ run)).filter (fun run => decide (2 ≤ run.length)))
  | [], cur, tokens => by
    by_cases h : 1 < cur.length
    · have h2 : 2 ≤ cur.length := h
      simp [scanFrom, List.splitOnP_nil, List.modifyHead, h, h2]
    · have h2 : ¬ 2 ≤ cur.length := h
      simp [scanFrom, List.splitOnP_nil, List.modifyHead, h, h2]
  | c :: rest, cur, tokens => by
    rw [scanFrom, List.splitOnP_cons]
    by_cases hc : c ∈ splitChars
    · simp only [hc, if_true, decide_True]
      rw [scanFrom_eq splitChars rest []]
      have hid : (List.splitOnP (fun c => decide (c ∈ splitChars)) rest).modifyHead
          (fun run => [] ++ run) = List.splitOnP (fun c => decide (c ∈ splitChars)) rest := by
        cases List.splitOnP (fun c => decide (c ∈ splitChars)) rest <;> simp [List.modifyHead]
      rw [hid]
      by_cases h : 1 < cur.length
      · have h2 : 2 ≤ cur.length := h
        simp [List.modifyHead, h, h2, List.filter_cons]
      · have h2 : ¬ 2 ≤ cur.length := h
        simp [List.modifyHead, h, h2, List.filter_cons]
    · simp only [hc, if_false, decide_False]
      rw [scanFrom_eq splitChars rest (cur ++ [c])]
      congr 2
      cases List.splitOnP (fun c => decide (c ∈ splitChars)) rest <;>
        simp [List.modifyHead]

theorem splitLoop_from (str splitChars : List Char) (hlen : str.length < 2147483648) :
    ∀ (k i start : Nat) (tokens : List (List Char)),
      i + k = str.length → start ≤ i →
      lastField str
        ((List.range' i k).foldl
          (fun state j => splitChars.foldl (splitStep str j) state) (start, tokens))
        = scanFrom splitChars (str.drop i) (substr str start (i - start)) tokens
  | 0, i, start, tokens, hik, hs => by
    have hi : i = str.length := by omega
    subst hi
    have hcur := substr_length str start str.length hs (Nat.le_refl _)
    have hcond : ((str.length + 18446744073709551616 - start) % 18446744073709551616 > 1)
        ↔ 1 < str.length - start := by omega
    simp only [List.range'_zero, List.foldl_nil, List.drop_length, scanFrom, hcur, lastField]
    by_cases h : 1 < str.length - start
    · simp only [h, if_true, hcond.mpr h]
    · simp only [h, if_false, mt hcond.mp h]
  | k + 1, i, start, tokens, hik, hs => by
    have hi : i < str.length := by omega
    have hc : str[i]? = some str[i] := List.getElem?_eq_getElem hi
    have hdrop : str.drop i = str[i] :: str.drop (i + 1) := List.drop_eq_getElem_cons hi
    have hcur := substr_length str start i hs (Nat.le_of_lt hi)
    rw [List.range'_succ, List.foldl_cons, splitStep_fold str i str[i] hc, hdrop, scanFrom]
    by_cases hmem : str[i] ∈ splitChars
    · simp only [hmem, if_true]
      have hcond : ((i : Int) - (start : Int) > 1) ↔ 1 < i - start := by omega
      rw [splitLoop_from str splitChars hlen k (i + 1) (i + 1) _ (by omega) (Nat.le_refl _)]
      have h0 : substr str (i + 1) (i + 1 - (i + 1)) = [] := by simp [substr]
      rw [h0, hcur]
      by_cases h : 1 < i - start
      · simp only [h, if_true, hcond.mpr h]
      · simp only [h, if_false, mt hcond.mp h]
    · simp only [hmem, if_false]
      rw [splitLoop_from str splitChars hlen k (i + 1) start tokens (by omega) (by omega),
        substr_succ str start i str[i] hs hc]

theorem tokenizer_tokens (str splitChars : List Char) (hlen : str.length < 2147483648) :
    (StringTokenizer.new str splitChars).mTokens = longRuns str splitChars := by
  have h := splitLoop_from str splitChars hlen str.length 0 0 [] (by omega) (Nat.le_refl _)
  rw [scanFrom_eq, ← List.range_eq_range'] at h
  have hid : (List.splitOnP (fun c => decide (c ∈ splitChars)) str).modifyHead
      (fun run => run) = List.splitOnP (fun c => decide (c ∈ splitChars)) str := by
    cases List.splitOnP (fun c => decide (c ∈ splitChars)) str <;> simp [List.modifyHead]
  simp only [List.drop_zero, substr, Nat.sub_self, List.take_zero, List.nil_append] at h
  rw [hid] at h
  exact h

theorem splitOnP_pieces_free (p : Char → Bool) :
    ∀ (str : List Char), ∀ run ∈ str.splitOnP p, ∀ c ∈ run, p c = false
  | [] => by
    intro run hrun c hc
    simp only [List.splitOnP_nil, List.mem_singleton] at hrun
    subst hrun
    cases hc
  | x :: rest => by
    intro run hrun c hc
    have ih := splitOnP_pieces_free p rest
    rw [List.splitOnP_cons] at hrun
    by_cases hx : p x = true
    · simp only [hx, if_true, List.mem_cons] at hrun
      rcases hrun with h | h
      · subst h
        cases hc
      · exact ih run h c hc
    · simp only [hx, Bool.false_eq_true, if_false] at hrun
      cases hsplit : List.splitOnP p rest with
      | nil =>
        rw [hsplit] at hrun
        cases hrun
      | cons first others =>
        rw [hsplit] at hrun ih
        simp only [List.modifyHead, List.mem_cons] at hrun
        rcases hrun with h | h
        · subst h
          rcases List.mem_cons.mp hc with h1 | h1
          · subst h1
            simpa using hx
          · exact ih first (List.mem_cons_self _ _) c h1
        · exact ih run (List.mem_cons_of_mem _ h) c hc

theorem longRuns_free (str splitChars : List Char) :
    ∀ token ∈ longRuns str splitChars, 2 ≤ token.length ∧ ∀ c ∈ token, c ∉ splitChars := by
  intro token htoken
  simp only [longRuns, List.mem_filter, decide_eq_true_eq] at htoken
  refine ⟨htoken.2, fun c hc hmem => ?_⟩
  have h := splitOnP_pieces_free (fun c => decide (c ∈ splitChars)) str token htoken.1 c hc
  simp only [decide_eq_false_iff_not] at h
  exact h hmem

theorem nexts_past (tokens : List (List Char)) :
    ∀ (n k : Nat), tokens.length ≤ k →
      StringTokenizer.nexts n { mTokens := tokens, mIndex := k } = List.replicate n []
  | 0, _, _ => rfl
  | n + 1, k, hk => by
    have hnone : tokens[k]? = none := List.getElem?_eq_none hk
    simp only [StringTokenizer.nexts, StringTokenizer.GetNext, hnone, List.replicate_succ]
    rw [nexts_past tokens n k hk]

theorem nexts_from (j : Nat) :
    ∀ (rest done : List (List Char)),
      StringTokenizer.nexts (rest.length + j) { mTokens := done ++ rest, mIndex := done.length }
        = rest ++ List.replicate j []
  | [], done => by
    simp only [List.length_nil, Nat.zero_add, List.append_nil, List.nil_append]
    exact nexts_past done j done.length (Nat.le_refl _)
  | token :: rest, done => by
    have hsome : (done ++ token :: rest)[done.length]? = some token := by
      rw [List.getElem?_append_right (Nat.le_refl _)]
      simp
    have hlen : (token :: rest).length + j = (rest.length + j) + 1 := by
      simp only [List.length_cons]
      omega
    rw [hlen]
    simp only [StringTokenizer.nexts, StringTokenizer.GetNext, hsome, List.cons_append]
    have ih := nexts_from j rest (done ++ [token])
    simp only [List.append_assoc, List.singleton_append, List.length_append, List.length_singleton]
      at ih
    rw [ih]

/-- C39: for every string shorter than 2^31 characters (the index of the constructor is an
`int`) and every list of split characters, the tokens of the constructor are, from left to
right, the fields between split characters that have at least two characters; every token
has at least two characters and no split character; the tokenizer starts at the first
token, and successive calls of `GetNext` return the tokens in that order and the empty
string on every later call. -/
theorem tokenizer_yields_runs_of_two_or_more (str splitChars : List Char)
    (hlen : str.length < 2147483648) :
    (StringTokenizer.new str splitChars).mTokens = longRuns str splitChars ∧
    (∀ token ∈ (StringTokenizer.new str splitChars).mTokens,
      2 ≤ token.length ∧ ∀ c ∈ token, c ∉ splitChars) ∧
    (∀ j : Nat,
      (StringTokenizer.new str splitChars).nexts
          ((StringTokenizer.new str splitChars).mTokens.length + j)
        = (StringTokenizer.new str splitChars).mTokens ++ List.replicate j []) := by
  have htokens := tokenizer_tokens str splitChars hlen
  refine ⟨htokens, ?_, ?_⟩
  · rw [htokens]
    exact longRuns_free str splitChars
  · intro j
    have h := nexts_from j (StringTokenizer.new str splitChars).mTokens []
    simp only [List.nil_append, List.length_nil] at h
    exact h

theorem tokenizer_yields_runs_of_two_or_more_witness :
    ['a', 'b', ',', 'c', ',', ',', 'd', 'e', 'f', ';', 'g'].length < 2147483648 ∧
    (StringTokenizer.new ['a', 'b', ',', 'c', ',', ',', 'd', 'e', 'f', ';', 'g']
        [',', ';']).mTokens = [['a', 'b'], ['d', 'e', 'f']] ∧
    longRuns ['a', 'b', ',', 'c', ',', ',', 'd', 'e', 'f', ';', 'g'] [',', ';']
      = [['a', 'b'], ['d', 'e', 'f']] ∧
    (StringTokenizer.new ['a', 'b', ',', 'c', ',', ',', 'd', 'e', 'f', ';', 'g']
        [',', ';']).nexts 4 = [['a', 'b'], ['d', 'e', 'f'], [], []] :=
  have h := tokenizer_yields_runs_of_two_or_more
    ['a', 'b', ',', 'c', ',', ',', 'd', 'e', 'f', ';', 'g'] [',', ';'] (by decide)
  ⟨by decide, by decide, h.1.symm.trans (by decide), (h.2.2 2).trans (by decide)⟩

/-! ### Reference counts -/

theorem countP_set {α : Type} (p : α → Bool) (b : α) :
    ∀ (l : List α) (t : Nat) (a : α), l[t]? = some a →
      (l.set t b).countP p + (if p a then 1 else 0) = l.countP p + (if p b then 1 else 0)
  | [], t, a, h => by simp at h
  | x :: rest, 0, a, h => by
    simp only [List.getElem?_cons_zero, Option.some.injEq] at h
    subst h
    simp only [List.set_cons_zero, List.countP_cons]
    omega
  | x :: rest, t + 1, a, h => by
    simp only [List.getElem?_cons_succ] at h
    have ih := countP_set p b rest t a h
    simp only [List.set_cons_succ, List.countP_cons]
    omega

theorem uses_iff (thread : SheepThread) (c : Nat) :
    thread.uses c = true ↔ thread.mRunning = true ∧ thread.mContext = some c := by
  simp [SheepThread.uses]

theorem poolsAgree_set {instances : List SheepInstance} {threads : List SheepThread}
    (h : poolsAgree instances threads) {t c : Nat} {a b : SheepThread} {x y : SheepInstance}
    (ht : threads[t]? = some a) (hc : instances[c]? = some x)
    (hcount : y.mReferenceCount + (if a.uses c then 1 else 0)
      = x.mReferenceCount + (if b.uses c then 1 else 0))
    (hother : ∀ j, j ≠ c → b.uses j = a.uses j)
    (hb : b.mRunning = true → b.mContext = some c) :
    poolsAgree (instances.set c y) (threads.set t b) := by
  have hlt : c < instances.length := by
    by_contra hge
    rw [List.getElem?_eq_none (Nat.le_of_not_lt hge)] at hc
    cases hc
  refine ⟨?_, ?_⟩
  · intro j context hj
    by_cases hjc : j = c
    · subst hjc
      rw [List.getElem?_set_self hlt] at hj
      cases hj
      have hx := h.1 j x hc
      have hset := countP_set (fun thread : SheepThread => thread.uses j) b threads t a ht
      dsimp only at hset
      by_cases ha : a.uses j = true <;> by_cases hbu : b.uses j = true <;>
        simp only [ha, hbu, if_true, if_false, Bool.false_eq_true] at hset hcount <;> omega
    · rw [getElem?_set_other instances y hjc] at hj
      have hx := h.1 j context hj
      have hset := countP_set (fun thread : SheepThread => thread.uses j) b threads t a ht
      dsimp only at hset
      rw [hother j hjc] at hset
      omega
  · intro thread hmem hrun
    rw [List.length_set]
    rcases List.mem_or_eq_of_mem_set hmem with hold | hnew
    · exact h.2 thread hold hrun
    · subst hnew
      exact ⟨c, hb hrun, hlt⟩

theorem poolsAgree_set_thread {instances : List SheepInstance} {threads : List SheepThread}
    (h : poolsAgree instances threads) {t : Nat} {a b : SheepThread}
    (ht : threads[t]? = some a) (hr : b.mRunning = a.mRunning)
    (hc : a.mRunning = true → b.mContext = a.mContext) :
    poolsAgree instances (threads.set t b) := by
  have huses : ∀ j, b.uses j = a.uses j := by
    intro j
    cases hrun : a.mRunning with
    | false => simp [SheepThread.uses, hr, hrun]
    | true => simp [SheepThread.uses, hr, hrun, hc hrun]
  refine ⟨?_, ?_⟩
  · intro j context hj
    have hx := h.1 j context hj
    have hset := countP_set (fun thread : SheepThread => thread.uses j) b threads t a ht
    dsimp only at hset
    rw [huses j] at hset
    omega
  · intro thread hmem hrun
    rcases List.mem_or_eq_of_mem_set hmem with hold | hnew
    · exact h.2 thread hold hrun
    · subst hnew
      have hmema : a ∈ threads := by
        obtain ⟨hlt, heq⟩ := List.getElem?_eq_some.mp ht
        rw [← heq]
        exact List.getElem_mem hlt
      have hra : a.mRunning = true := by rw [← hr]; exact hrun
      obtain ⟨c, hac, hlt⟩ := h.2 a hmema hra
      exact ⟨c, by rw [hc hra, hac], hlt⟩

theorem poolsAgree_append_thread {instances : List SheepInstance} {threads : List SheepThread}
    (h : poolsAgree instances threads) (b : SheepThread) (hb : b.mRunning = false) :
    poolsAgree instances (threads ++ [b]) := by
  refine ⟨?_, ?_⟩
  · intro j context hj
    have hx := h.1 j context hj
    have hu : b.uses j = false := by simp [SheepThread.uses, hb]
    rw [List.countP_append, List.countP_singleton, hu]
    simpa using hx
  · intro thread hmem hrun
    rcases List.mem_append.mp hmem with hold | hnew
    · exact h.2 thread hold hrun
    · rw [List.mem_singleton] at hnew
      subst hnew
      rw [hb] at hrun
      cases hrun

theorem poolsAgree_set_instance {instances : List SheepInstance} {threads : List SheepThread}
    (h : poolsAgree instances threads) {c : Nat} {x : SheepInstance} (y : SheepInstance)
    (hc : instances[c]? = some x) (hy : y.mReferenceCount = x.mReferenceCount) :
    poolsAgree (instances.set c y) threads := by
  have hlt : c < instances.length := by
    by_contra hge
    rw [List.getElem?_eq_none (Nat.le_of_not_lt hge)] at hc
    cases hc
  refine ⟨?_, ?_⟩
  · intro j context hj
    by_cases hjc : j = c
    · subst hjc
      rw [List.getElem?_set_self hlt] at hj
      cases hj
      rw [hy]
      exact h.1 j x hc
    · rw [getElem?_set_other instances y hjc] at hj
      exact h.1 j context hj
  · intro thread hmem hrun
    rw [List.length_set]
    exact h.2 thread hmem hrun

theorem poolsAgree_modify_instance {instances : List SheepInstance} {threads : List SheepThread}
    (h : poolsAgree instances threads) (c : Nat) (f : SheepInstance → SheepInstance)
    (hf : ∀ x, (f x).mReferenceCount = x.mReferenceCount) :
    poolsAgree (instances.modify f c) threads := by
  cases hc : instances[c]? with
  | none =>
    have hge : instances.length ≤ c := by
      by_contra hlt
      rw [List.getElem?_eq_getElem (Nat.lt_of_not_le hlt)] at hc
      cases hc
    have hsame : instances.modify f c = instances := by
      apply List.ext_getElem?
      intro i
      rw [List.getElem?_modify]
      by_cases hi : c = i
      · subst hi
        simp [hc]
      · simp [hi]
    rw [hsame]
    exact h
  | some x =>
    rw [modify_eq_set_of_getElem? f hc]
    exact poolsAgree_set_instance h (f x) hc (hf x)

theorem poolsAgree_append_instance {instances : List SheepInstance} {threads : List SheepThread}
    (h : poolsAgree instances threads) (y : SheepInstance) (hy : y.mReferenceCount = 0) :
    poolsAgree (instances ++ [y]) threads := by
  refine ⟨?_, ?_⟩
  · intro j context hj
    by_cases hlt : j < instances.length
    · rw [List.getElem?_append_left hlt] at hj
      exact h.1 j context hj
    · have hge : instances.length ≤ j := Nat.le_of_not_lt hlt
      rw [List.getElem?_append_right hge] at hj
      have hzero : threads.countP (fun thread => thread.uses j) = 0 := by
        rw [List.countP_eq_zero]
        intro thread hmem huse
        obtain ⟨hrun, hctx⟩ := (uses_iff thread j).mp huse
        obtain ⟨c, hc, hclt⟩ := h.2 thread hmem hrun
        rw [hctx] at hc
        cases hc
        omega
      rw [hzero]
      cases hidx : j - instances.length with
      | zero =>
        rw [hidx] at hj
        simp only [List.getElem?_cons_zero, Option.some.injEq] at hj
        subst hj
        simpa using hy
      | succ k =>
        rw [hidx] at hj
        simp at hj
  · intro thread hmem hrun
    obtain ⟨c, hc, hlt⟩ := h.2 thread hmem hrun
    refine ⟨c, hc, ?_⟩
    rw [List.length_append]
    omega

theorem getInstance_agree (vm : SheepVM) (script : Option SheepScript)
    (h : poolsAgree vm.mSheepInstances vm.mSheepThreads) :
    poolsAgree (vm.GetInstance script).2.mSheepInstances (vm.GetInstance script).2.mSheepThreads := by
  unfold SheepVM.GetInstance
  cases script with
  | none => exact h
  | some s =>
    dsimp only
    split
    · exact h
    · split
      · exact poolsAgree_modify_instance h _ _ (fun _ => rfl)
      · exact poolsAgree_append_instance h _ rfl

theorem getThread_agree (vm : SheepVM)
    (h : poolsAgree vm.mSheepInstances vm.mSheepThreads) :
    poolsAgree (vm.GetThread).2.mSheepInstances (vm.GetThread).2.mSheepThreads := by
  unfold SheepVM.GetThread
  split
  · exact h
  · exact poolsAgree_append_thread h _ rfl

theorem exitThread_mContext (m : Machine) : m.exitThread.mContext = m.thread.mContext := by
  unfold Machine.exitThread
  split <;> rfl

theorem finishRun_threads (vm : SheepVM) (prev : Option Nat) (t c : Nat) (m : Machine) :
    (vm.finishRun prev t c m).mSheepThreads = vm.mSheepThreads.set t m.exitThread := by
  unfold SheepVM.finishRun
  dsimp only
  split
  · cases m.exitThread.mWaitCallback <;> rfl
  · rfl

theorem finishRun_instances (vm : SheepVM) (prev : Option Nat) (t c : Nat) (m : Machine) :
    (vm.finishRun prev t c m).mSheepInstances
      = vm.mSheepInstances.set c
          (if m.exitThread.mRunning then m.context
           else { m.context with mReferenceCount := m.context.mReferenceCount - 1 }) := by
  unfold SheepVM.finishRun
  dsimp only
  cases hr : m.exitThread.mRunning with
  | true => simp
  | false =>
    simp only [Bool.not_false, if_true, Bool.false_eq_true, if_false]
    cases m.exitThread.mWaitCallback <;>
      simp only [SheepVM.finish, SheepVM.call, SheepVM.release, modify_set_same]

theorem executeInternalThread_agree {host : Host} {fuel : Nat} {vm vm1 : SheepVM} {t : Nat}
    (thread : SheepThread)
    (h : vm.ExecuteInternalThread host fuel t = .ok vm1)
    (ht : vm.mSheepThreads[t]? = some thread)
    (hagree : poolsAgree vm.mSheepInstances (vm.mSheepThreads.set t thread.start)) :
    poolsAgree vm1.mSheepInstances vm1.mSheepThreads := by
  obtain ⟨thread1, c, context, script, ht1, hc, hi, -, hcases⟩ := executeInternalThread_inv h
  rw [ht] at ht1
  cases ht1
  rcases hcases with ⟨-, hvm⟩ | ⟨bytes, m, -, hrun, hvm⟩
  · rw [hvm]
    exact hagree
  · have hframe := runLoop_sameFrame fuel hrun
    have hcount : m.context.mReferenceCount = context.mReferenceCount := hframe.2.1
    have hctx : m.exitThread.mContext = some c := by
      rw [exitThread_mContext, hframe.2.2.1]
      exact (start_fields thread).1.trans hc
    have hlt : t < vm.mSheepThreads.length := by
      by_contra hge
      rw [List.getElem?_eq_none (Nat.le_of_not_lt hge)] at ht
      cases ht
    have hstart : (vm.mSheepThreads.set t thread.start)[t]? = some thread.start :=
      List.getElem?_set_self hlt
    have huse : thread.start.uses c = true :=
      (uses_iff _ _).mpr ⟨start_mRunning thread, (start_fields thread).1.trans hc⟩
    have hset := poolsAgree_set hagree (b := m.exitThread)
      (y := if m.exitThread.mRunning then m.context
            else { m.context with mReferenceCount := m.context.mReferenceCount - 1 })
      hstart hi
      (by
        rw [huse]
        cases hr : m.exitThread.mRunning with
        | true =>
          have hb : m.exitThread.uses c = true := (uses_iff _ _).mpr ⟨hr, hctx⟩
          simp only [hb, if_true, hcount]
        | false =>
          have hb : m.exitThread.uses c = false := by simp [SheepThread.uses, hr]
          simp only [hb, Bool.false_eq_true, if_false, if_true, hcount]
          omega)
      (by
        intro j hj
        have h1 : thread.start.uses j = false := by
          simp [SheepThread.uses, (start_fields thread).1, hc, Ne.symm hj]
        have h2 : m.exitThread.uses j = false := by
          simp [SheepThread.uses, hctx, Ne.symm hj]
        rw [h1, h2])
      (fun _ => hctx)
    rw [List.set_set] at hset
    rw [hvm, finishRun_threads, finishRun_instances]
    exact hset

theorem executeInternal_agree {host : Host} {fuel : Nat} {vm vm1 : SheepVM} {c : Nat}
    {off : Int} {name : String} {cb : Option Nat} {t : Option Nat}
    (h : vm.ExecuteInternal host fuel (some c) off name cb = .ok (t, vm1))
    (hc : c < vm.mSheepInstances.length)
    (hagree : poolsAgree vm.mSheepInstances vm.mSheepThreads) :
    poolsAgree vm1.mSheepInstances vm1.mSheepThreads := by
  unfold SheepVM.ExecuteInternal at h
  dsimp only at h
  split at h
  · contradiction
  · rename_i vm4 h4
    simp only [Except.ok.injEq, Prod.mk.injEq] at h
    rw [← h.2]
    obtain ⟨thread, hthread, hidle, hinst, -, -, -⟩ := getThread_spec vm
    have hg := getThread_agree vm hagree
    rw [hinst] at hg
    have hx : vm.mSheepInstances[c]? = some (vm.mSheepInstances.get ⟨c, hc⟩) :=
      List.getElem?_eq_getElem hc
    have hlt : (vm.GetThread).1 < (vm.GetThread).2.mSheepThreads.length := by
      by_contra hge
      rw [List.getElem?_eq_none (Nat.le_of_not_lt hge)] at hthread
      cases hthread
    have hthreads : ∀ thread1 : SheepThread,
        ((vm.GetThread).2.mSheepThreads.set (vm.GetThread).1 thread1)[(vm.GetThread).1]?
          = some thread1 := fun _ => List.getElem?_set_self hlt
    refine executeInternalThread_agree (thread.assign c off name cb) h4 ?_ ?_
    · simp only [SheepVM.retain, modify_eq_set_of_getElem? _ hthread]
      exact hthreads _
    · simp only [SheepVM.retain, modify_eq_set_of_getElem? _ hthread, hinst,
        modify_eq_set_of_getElem? _ hx, List.set_set]
      refine poolsAgree_set hg hthread hx ?_ ?_ ?_
      · have h1 : thread.uses c = false := by simp [SheepThread.uses, hidle]
        have h2 : (thread.assign c off name cb).start.uses c = true :=
          (uses_iff _ _).mpr ⟨start_mRunning _, (start_fields _).1⟩
        simp only [h1, h2, Bool.false_eq_true, if_false, if_true]
        omega
      · intro j hj
        have h1 : thread.uses j = false := by simp [SheepThread.uses, hidle]
        have hctx : (thread.assign c off name cb).start.mContext = some c :=
          (start_fields _).1
        have h2 : (thread.assign c off name cb).start.uses j = false := by
          simp only [SheepThread.uses, hctx, Bool.and_eq_false_imp, beq_eq_false_iff_ne, ne_eq,
            Option.some.injEq]
          exact fun _ => Ne.symm hj
        rw [h1, h2]
      · intro _
        exact (start_fields _).1

theorem finish_agree (vm : SheepVM) (cb : Option Nat)
    (h : poolsAgree vm.mSheepInstances vm.mSheepThreads) :
    poolsAgree (vm.finish cb).mSheepInstances (vm.finish cb).mSheepThreads := by
  cases cb <;> exact h

theorem executeInternalScript_agree {host : Host} {fuel : Nat} {vm vm1 : SheepVM}
    {script : Option SheepScript} {off : Int} {name : String} {cb : Option Nat} {t : Option Nat}
    (h : vm.ExecuteInternalScript host fuel script off name cb = .ok (t, vm1))
    (hagree : poolsAgree vm.mSheepInstances vm.mSheepThreads) :
    poolsAgree vm1.mSheepInstances vm1.mSheepThreads := by
  unfold SheepVM.ExecuteInternalScript at h
  cases script with
  | none =>
    simp only [SheepVM.GetInstance, SheepVM.ExecuteInternal, Except.ok.injEq, Prod.mk.injEq] at h
    rw [← h.2]
    exact finish_agree vm cb hagree
  | some p =>
    obtain ⟨c, hget⟩ := getInstance_some vm p
    obtain ⟨ctx, hctx, -⟩ := getInstance_spec hget
    have hlt : c < (vm.GetInstance (some p)).2.mSheepInstances.length := by
      by_contra hge
      rw [List.getElem?_eq_none (Nat.le_of_not_lt hge)] at hctx
      cases hctx
    rw [hget] at h
    exact executeInternal_agree h hlt (getInstance_agree vm (some p) hagree)

theorem evaluate_agree {host : Host} {fuel : Nat} {vm vm1 : SheepVM}
    {script : Option SheepScript} {n v : Int} {b : Bool}
    (h : vm.Evaluate host fuel script n v = .ok (b, vm1))
    (hagree : poolsAgree vm.mSheepInstances vm.mSheepThreads) :
    poolsAgree vm1.mSheepInstances vm1.mSheepThreads := by
  unfold SheepVM.Evaluate at h
  cases script with
  | none => simp [SheepVM.GetInstance] at h
  | some p =>
    obtain ⟨c, hget⟩ := getInstance_some vm p
    obtain ⟨ctx, hctx, -⟩ := getInstance_spec hget
    have hlt : c < (vm.GetInstance (some p)).2.mSheepInstances.length := by
      by_contra hge
      rw [List.getElem?_eq_none (Nat.le_of_not_lt hge)] at hctx
      cases hctx
    rw [hget] at h
    dsimp only at h
    have hseed : poolsAgree ((vm.GetInstance (some p)).2.seed c n v).mSheepInstances
        ((vm.GetInstance (some p)).2.seed c n v).mSheepThreads :=
      poolsAgree_modify_instance (getInstance_agree vm (some p) hagree) _ _ (fun _ => rfl)
    have hlen : c < ((vm.GetInstance (some p)).2.seed c n v).mSheepInstances.length := by
      simp only [SheepVM.seed, List.length_modify]
      exact hlt
    cases hrun : ((vm.GetInstance (some p)).2.seed c n v).ExecuteInternal host fuel (some c) 0
        "X$" none with
    | error e => simp [hrun] at h
    | ok result =>
      obtain ⟨t, vm3⟩ := result
      have h3 := executeInternal_agree hrun hlen hseed
      rw [hrun] at h
      cases t with
      | none => simp at h
      | some t =>
        dsimp only at h
        cases hthread : vm3.mSheepThreads[t]? with
        | none => simp [hthread] at h
        | some thread =>
          rw [hthread] at h
          dsimp only at h
          cases hres : evaluateResult host thread.mStack with
          | error e => simp [hres] at h
          | ok out =>
            rw [hres] at h
            simp only [Except.ok.injEq, Prod.mk.injEq] at h
            rw [← h.2]
            exact poolsAgree_set_thread h3 hthread rfl (fun _ => rfl)

theorem perform_agree {host : Host} {fuel : Nat} {vm vm1 : SheepVM} {call : Call}
    (h : vm.perform host fuel call = .ok vm1)
    (hagree : poolsAgree vm.mSheepInstances vm.mSheepThreads) :
    poolsAgree vm1.mSheepInstances vm1.mSheepThreads := by
  cases call with
  | getInstance script =>
    simp only [SheepVM.perform, Except.ok.injEq] at h
    rw [← h]
    exact getInstance_agree vm script hagree
  | execute script off cb =>
    simp only [SheepVM.perform, SheepVM.Execute] at h
    split at h
    · contradiction
    · rename_i t vm2 hrun
      cases h
      exact executeInternalScript_agree hrun hagree
  | executeFunction script name cb =>
    simp only [SheepVM.perform, SheepVM.ExecuteFunction] at h
    split at h
    · cases h
      exact finish_agree vm cb hagree
    · split at h
      · cases h
        exact finish_agree vm cb hagree
      · split at h
        · contradiction
        · rename_i t vm2 hrun
          cases h
          exact executeInternalScript_agree hrun hagree
  | evaluate script n v =>
    simp only [SheepVM.perform] at h
    split at h
    · contradiction
    · rename_i b vm2 hrun
      cases h
      exact evaluate_agree hrun hagree

theorem act_agree {host : Host} {fuel : Nat} {vm vm1 : SheepVM} {action : Action}
    (h : vm.act host fuel action = .ok vm1)
    (hagree : poolsAgree vm.mSheepInstances vm.mSheepThreads) :
    poolsAgree vm1.mSheepInstances vm1.mSheepThreads := by
  cases action with
  | call c => exact perform_agree h hagree
  | redrive t =>
    simp only [SheepVM.act] at h
    split at h
    · rename_i hsusp
      unfold SheepVM.suspended at hsusp
      cases hthread : vm.mSheepThreads[t]? with
      | none => simp [hthread] at hsusp
      | some thread =>
        rw [hthread] at hsusp
        dsimp only at hsusp
        refine executeInternalThread_agree thread h hthread ?_
        refine poolsAgree_set_thread hagree hthread ?_ (fun _ => (start_fields thread).1)
        rw [start_mRunning, hsusp]
    · cases h
      exact hagree

theorem actAll_agree (host : Host) :
    ∀ (actions : List (Nat × Action)) (vm vm1 : SheepVM),
      SheepVM.actAll host actions vm = .ok vm1 →
      poolsAgree vm.mSheepInstances vm.mSheepThreads →
      poolsAgree vm1.mSheepInstances vm1.mSheepThreads
  | [], vm, vm1, h, hagree => by
    simp only [SheepVM.actAll, Except.ok.injEq] at h
    rw [← h]
    exact hagree
  | (fuel, action) :: rest, vm, vm1, h, hagree => by
    simp only [SheepVM.actAll] at h
    split at h
    · contradiction
    · rename_i vm2 hact
      exact actAll_agree host rest vm2 vm1 h (act_agree hact hagree)

theorem poolsAgree_empty : poolsAgree [] [] := by
  refine ⟨?_, ?_⟩
  · intro c context h
    simp at h
  · intro thread hmem
    cases hmem

/-- C33: starting from the empty machine, after any sequence of calls (`GetInstance`,
both forms of `Execute`, `Evaluate`) and re-drives of suspended threads that returns, the
reference count of every context of the pool is the number of pooled threads that are
running and bound to it; so it is not negative, and it is zero exactly when no running
thread of the pool is bound to the context. -/
theorem reference_count_counts_running_users (host : Host) (actions : List (Nat × Action))
    (vm : SheepVM) (h : SheepVM.actAll host actions {} = .ok vm)
    (c : Nat) (context : SheepInstance) (hc : vm.mSheepInstances[c]? = some context) :
    context.mReferenceCount = (vm.users c : Int) ∧
    0 ≤ context.mReferenceCount ∧
    (context.mReferenceCount = 0 ↔
      ∀ thread ∈ vm.mSheepThreads, ¬ (thread.mRunning = true ∧ thread.mContext = some c)) := by
  have hagree := actAll_agree host actions {} vm h poolsAgree_empty
  have hcount : context.mReferenceCount = (vm.users c : Int) := hagree.1 c context hc
  refine ⟨hcount, by omega, ?_⟩
  rw [hcount]
  simp only [SheepVM.users, Nat.cast_eq_zero, List.countP_eq_zero, uses_iff]

theorem reference_count_counts_running_users_witness :
    SheepVM.actAll Host.sample sampleActions {} = .ok vmAfterActions ∧
    vmAfterActions.mSheepInstances[0]?
      = some { mSheepScript := some progYield, mReferenceCount := 1 } ∧
    vmAfterActions.users 0 = 1 ∧
    (({ mSheepScript := some progYield, mReferenceCount := 1 } : SheepInstance).mReferenceCount
        = (vmAfterActions.users 0 : Int) ∧
      0 ≤ ({ mSheepScript := some progYield, mReferenceCount := 1 } :
        SheepInstance).mReferenceCount ∧
      (({ mSheepScript := some progYield, mReferenceCount := 1 } :
          SheepInstance).mReferenceCount = 0 ↔
        ∀ thread ∈ vmAfterActions.mSheepThreads,
          ¬ (thread.mRunning = true ∧ thread.mContext = some 0))) :=
  ⟨rfl, rfl, rfl,
    reference_count_counts_running_users Host.sample sampleActions vmAfterActions rfl 0 _ rfl⟩

end Sheep
